import Mathlib

/-!
# Trace-driven recompilation: shallow embedding of `PPULLVMRecompiler.cpp`

Guest addresses and ordinals (`u32`) are natural numbers; where the source
relies on 32-bit or `size_t` wrap-around the reduction is written out.
Containers: `std::vector` is a `List` (`back()` is the last element),
`std::set<u32>` is a `Finset Nat`, `std::map` / `std::unordered_map` is an
association list with unique keys, fixed arrays are functions on indices with
the capacity kept as a separate parameter.  Functions that mutate the object
take the state and return the new state; a call whose precondition fails
(`assert`, `back()` of an empty vector) returns `none`.
-/

namespace ppu_recompiler_llvm

/-! ## Execution traces -/

/-- Trace entry (`ExecutionTraceEntry`): the `type` tag together with the
payload of the `data` union that the tag selects. -/
inductive ExecutionTraceEntry where
  | FunctionCall (address : Nat)
  | Instruction (address : Nat)
  | CompiledBlock (entry_address exit_address : Nat)
  deriving DecidableEq, Repr

/-- The values of `ExecutionTrace::Type`. -/
inductive ExecutionTraceType where
  | Linear
  | Loop
  deriving DecidableEq, Repr

/-- An `ExecutionTrace`.  The constructor `ExecutionTrace(address)` only sets
`function_address`; `type` stays unassigned (`none`) until the tracer
finalises the trace. -/
structure ExecutionTrace where
  type : Option ExecutionTraceType
  function_address : Nat
  entries : List ExecutionTraceEntry
  deriving DecidableEq, Repr

/-- Modelled from the spec: the constructor `ExecutionTrace(address)` (declared
in the header, which is not part of the sources): a new trace for the
function at `address`, without entries. -/
def ExecutionTrace.new (address : Nat) : ExecutionTrace :=
  { type := none, function_address := address, entries := [] }

/-- The values of `Tracer::TraceType`. -/
inductive TraceType where
  | CallFunction
  | EnterFunction
  | ExitFromCompiledFunction
  | Return
  | Instruction
  | ExitFromCompiledBlock
  deriving DecidableEq, Repr

namespace Tracer

/-- The loop test of `Tracer::Trace`, case `Instruction` (lines 584-585): the
entry is an instruction at `arg1` or a compiled block entered at `arg1`. -/
def isLoopHead (arg1 : Nat) : ExecutionTraceEntry → Bool
  | .Instruction address => address == arg1
  | .CompiledBlock entry_address _ => entry_address == arg1
  | .FunctionCall _ => false

/-- The backward scan `for (int i = size - 1; i >= 0; i--)` of lines 583-593:
`findLoop entries arg1 n` inspects the indices `n - 1, ..., 0` in this order
and returns the first index that passes the loop test. -/
def findLoop (entries : List ExecutionTraceEntry) (arg1 : Nat) : Nat → Option Nat
  | 0 => none
  | i + 1 =>
    match entries[i]? with
    | some e => if isLoopHead arg1 e then some i else findLoop entries arg1 i
    | none => findLoop entries arg1 i

/-- Replace the last element of the stack (`*m_stack.back() = t`). -/
def setBack (m_stack : List ExecutionTrace) (t : ExecutionTrace) : List ExecutionTrace :=
  m_stack.dropLast ++ [t]

/-- The method `Tracer::Trace(trace_type, arg1, arg2)` on the tracer's
`m_stack`.  The result is the new stack and the trace passed to
`NotifyTrace` (lines 617-619), if any; `none` when `m_stack.back()` is
evaluated on an empty stack. -/
def Trace (m_stack : List ExecutionTrace) (trace_type : TraceType) (arg1 arg2 : Nat) :
    Option (List ExecutionTrace × Option ExecutionTrace) :=
  match trace_type with
  | .CallFunction =>
    match m_stack.getLast? with
    | none => none
    | some back =>
      some (setBack m_stack { back with entries := back.entries ++ [.FunctionCall arg1] }, none)
  | .EnterFunction =>
    some (m_stack ++ [ExecutionTrace.new arg1], none)
  | .ExitFromCompiledFunction =>
    if arg2 ≠ 0 then
      some (m_stack ++ [{ ExecutionTrace.new arg1 with
                          entries := [.CompiledBlock arg1 arg2] }], none)
    else
      some (m_stack, none)
  | .Return =>
    match m_stack.getLast? with
    | none => none
    | some back =>
      some (m_stack.dropLast, some { back with type := some .Linear })
  | .Instruction =>
    match m_stack.getLast? with
    | none => none
    | some back =>
      match findLoop back.entries arg1 back.entries.length with
      | some i =>
        some (setBack m_stack { back with entries := back.entries.take (i + 1) },
              some { type := some .Loop,
                     function_address := back.function_address,
                     entries := back.entries.drop i })
      | none =>
        some (setBack m_stack { back with entries := back.entries ++ [.Instruction arg1] }, none)
  | .ExitFromCompiledBlock =>
    match m_stack.getLast? with
    | none => none
    | some back =>
      let back1 := { back with entries := back.entries ++ [.CompiledBlock arg1 arg2] }
      if arg2 = 0 then
        some (m_stack.dropLast, some { back1 with type := some .Linear })
      else
        some (setBack m_stack back1, none)

end Tracer

/-! ## Control-flow graphs -/

/-- Modelled from the spec: `ExecutionTraceEntry::GetPrimaryAddress` (declared
in the header, which is not part of the sources): the address of an
instruction entry, the entry address of a compiled-block entry, the target
of a call entry. -/
def ExecutionTraceEntry.GetPrimaryAddress : ExecutionTraceEntry → Nat
  | .FunctionCall address => address
  | .Instruction address => address
  | .CompiledBlock entry_address _ => entry_address

/-- A `std::map<u32, std::set<u32>>`: association list with unique keys. -/
abbrev AddressMap := List (Nat × Finset Nat)

namespace AddressMap

/-- The lookup `m.find(k)`: the set stored under `k`, if the key is present. -/
def find : AddressMap → Nat → Option (Finset Nat)
  | [], _ => none
  | (k1, s) :: m, k => if k1 = k then some s else find m k

/-- The statement `m[k].insert(v)`: `operator[]` creates an empty set under a
missing key, then `v` is inserted into the set under `k`. -/
def insertAt : AddressMap → Nat → Nat → AddressMap
  | [], k, v => [(k, {v})]
  | (k1, s) :: m, k, v =>
    if k1 = k then (k1, insert v s) :: m else (k1, s) :: insertAt m k v

/-- The keys of the map. -/
def keys (m : AddressMap) : Finset Nat := (m.map Prod.fst).toFinset

/-- The set stored under `k`, empty when the key is absent. -/
def targets (m : AddressMap) (k : Nat) : Finset Nat := (find m k).getD ∅

end AddressMap

/-- The structure `ControlFlowGraph`. -/
structure ControlFlowGraph where
  start_address : Nat
  function_address : Nat
  instruction_addresses : Finset Nat
  branches : AddressMap
  calls : AddressMap
  deriving DecidableEq

/-- Modelled from the spec: the constructor `ControlFlowGraph(start_address,
function_address)` (declared in the header, which is not part of the
sources): three empty collections. -/
def ControlFlowGraph.new (start_address function_address : Nat) : ControlFlowGraph :=
  { start_address := start_address, function_address := function_address,
    instruction_addresses := ∅, branches := [], calls := [] }

/-- Modelled from the spec: `ControlFlowGraph::GetSize` (defined in the header,
which is not part of the sources): "the count of distinct elements across all
three collections", the elements of a map being its entries. -/
def ControlFlowGraph.GetSize (cfg : ControlFlowGraph) : Nat :=
  cfg.instruction_addresses.card + cfg.branches.length + cfg.calls.length

/-- The other reading of "count of distinct elements across all three
collections": instruction addresses, branch edges and call edges. -/
def ControlFlowGraph.edgeCount (cfg : ControlFlowGraph) : Nat :=
  cfg.instruction_addresses.card + (cfg.branches.map fun p => p.2.card).sum
    + (cfg.calls.map fun p => p.2.card).sum

/-- Component-wise containment of control-flow graphs: the instruction
addresses, the keys of the branch and call maps and the target set under
every key of `g` are contained in those of `h`. -/
def ControlFlowGraph.contained (g h : ControlFlowGraph) : Prop :=
  g.instruction_addresses ⊆ h.instruction_addresses ∧
  g.branches.keys ⊆ h.branches.keys ∧
  g.calls.keys ⊆ h.calls.keys ∧
  (∀ k, g.branches.targets k ⊆ h.branches.targets k) ∧
  (∀ k, g.calls.targets k ⊆ h.calls.targets k)


/-- The method `RecompilationEngine::UpdateControlFlowGraph(cfg, this_entry,
next_entry)` (lines 492-514); `next_entry` is `none` for a null pointer.  The
sum `GetPrimaryAddress() + 4` is computed in `u32`. -/
def UpdateControlFlowGraph (cfg : ControlFlowGraph) (this_entry : ExecutionTraceEntry)
    (next_entry : Option ExecutionTraceEntry) : ControlFlowGraph :=
  match this_entry with
  | .Instruction address =>
    let cfg1 := { cfg with instruction_addresses := insert address cfg.instruction_addresses }
    match next_entry with
    | none => cfg1
    | some (.Instruction next_address) =>
      if next_address ≠ (address + 4) % 2 ^ 32 then
        { cfg1 with branches := cfg1.branches.insertAt address next_address }
      else cfg1
    | some (.CompiledBlock next_address _) =>
      if next_address ≠ (address + 4) % 2 ^ 32 then
        { cfg1 with branches := cfg1.branches.insertAt address next_address }
      else cfg1
    | some (.FunctionCall target) =>
      { cfg1 with calls := cfg1.calls.insertAt address target }
  | .CompiledBlock _ exit_address =>
    match next_entry with
    | none => cfg
    | some (.Instruction next_address) =>
      { cfg with branches := cfg.branches.insertAt exit_address next_address }
    | some (.CompiledBlock next_address _) =>
      { cfg with branches := cfg.branches.insertAt exit_address next_address }
    | some (.FunctionCall target) =>
      { cfg with calls := cfg.calls.insertAt exit_address target }
  | .FunctionCall _ => cfg

/-! ## The recompilation engine -/

/-- A value of the function-pointer type `Executable` as stored in
`m_executable_lookup`: a slot that was never written, one of the two default
handlers of the dispatcher, or the entry point of native code living in the
LLVM execution-engine object numbered `engine`. -/
inductive Executable where
  | unset
  | ExecuteFunction
  | ExecuteTillReturn
  | native (engine : Nat)
  deriving DecidableEq, Repr

/-- Modelled from the spec: `BlockEntry` (declared in the header, which is not
part of the sources): the registry entry of a block, identified by the start
and function address of its `cfg`. -/
structure BlockEntry where
  num_hits : Nat
  revision : Nat
  last_compiled_cfg_size : Nat
  cfg : ControlFlowGraph
  is_compiled : Bool
  deriving DecidableEq

/-- Modelled from the spec: the constructor `BlockEntry(start_address,
function_address)`: no hits, revision 0, not compiled, empty CFG. -/
def BlockEntry.new (start_address function_address : Nat) : BlockEntry :=
  { num_hits := 0, revision := 0, last_compiled_cfg_size := 0,
    cfg := ControlFlowGraph.new start_address function_address, is_compiled := false }

/-- Modelled from the spec: `BlockEntry::IsFunction`: the block is the entry of
its owning function. -/
def BlockEntry.IsFunction (b : BlockEntry) : Bool :=
  b.cfg.function_address == b.cfg.start_address

/-- The identity of a registry entry (what `BlockEntry::hash` and
`BlockEntry::equal_to` compare): start address and function address. -/
def BlockEntry.key (b : BlockEntry) : Nat × Nat :=
  (b.cfg.start_address, b.cfg.function_address)

/-- What the engine writes to its log stream. -/
inductive LogRecord where
  | Trace (execution_trace : ExecutionTrace)
  | Compile (key : Nat × Nat)
  | CFG (cfg : ControlFlowGraph)
  | Module (name : Nat × Nat)
  | VerificationFailed (name : Nat × Nat)
  | Recompiling (key : Nat × Nat)
  deriving DecidableEq

/-- The state of the `RecompilationEngine` object.  `m_executable_lookup` and
`m_executable_engine` are the two fixed arrays (an unwritten engine slot is a
null pointer).  `created` counts the LLVM execution-engine objects built so
far, so that `created` names the next one, and `deleted` lists the objects on
which `delete` has run.  The vector of a processed trace holds the keys of the
registry entries it points to. -/
structure RecompilationEngine where
  m_next_ordinal : Nat
  m_address_to_ordinal : List (Nat × Nat)
  m_executable_lookup : Nat → Executable
  m_executable_engine : Nat → Option Nat
  m_block_table : List BlockEntry
  m_processed_execution_traces : List (Nat × List (Nat × Nat))
  m_log : List LogRecord
  created : Nat
  deleted : List Nat

/-- The services of the LLVM library that `Compiler::Compile` calls and whose
outcome the engine observes: `verifyFunction name cfg` is `true` when LLVM
reports the generated function as broken. -/
structure Backend where
  verifyFunction : Nat × Nat → ControlFlowGraph → Bool

namespace RecompilationEngine

/-- The engine right after the constructor: `m_next_ordinal(0)`, empty
containers, arrays not yet written. -/
def fresh : RecompilationEngine :=
  { m_next_ordinal := 0, m_address_to_ordinal := [],
    m_executable_lookup := fun _ => .unset, m_executable_engine := fun _ => none,
    m_block_table := [], m_processed_execution_traces := [], m_log := [],
    created := 0, deleted := [] }

/-- The lookup `m_address_to_ordinal.find(address)`. -/
def findOrdinal : List (Nat × Nat) → Nat → Option Nat
  | [], _ => none
  | (a, o) :: m, address => if a = address then some o else findOrdinal m address

/-- The first half of the allocation branch of `AllocateOrdinal` (line 290):
the default handler is stored into slot `m_next_ordinal`. -/
def storeDefault (s : RecompilationEngine) (is_function : Bool) : RecompilationEngine :=
  { s with
    m_executable_lookup :=
      Function.update s.m_executable_lookup s.m_next_ordinal
        (if is_function then .ExecuteFunction else .ExecuteTillReturn) }

/-- The second half of the allocation branch (line 292): the pair
`(address, m_next_ordinal++)` is inserted into `m_address_to_ordinal`. -/
def insertOrdinal (s : RecompilationEngine) (address : Nat) : RecompilationEngine :=
  { s with
    m_address_to_ordinal := s.m_address_to_ordinal ++ [(address, s.m_next_ordinal)],
    m_next_ordinal := s.m_next_ordinal + 1 }

/-- The method `RecompilationEngine::AllocateOrdinal(address, is_function)`
(lines 283-296) for a table of `capacity` slots: the new state and the
returned ordinal, `none` when the assertion of line 288 fails. -/
def AllocateOrdinal (capacity : Nat) (s : RecompilationEngine) (address : Nat)
    (is_function : Bool) : Option (RecompilationEngine × Nat) :=
  match findOrdinal s.m_address_to_ordinal address with
  | some ordinal => some (s, ordinal)
  | none =>
    if s.m_next_ordinal < capacity then
      some (insertOrdinal (storeDefault s is_function) address, s.m_next_ordinal)
    else none

/-- The method `RecompilationEngine::GetOrdinal(address)` (lines 298-307). -/
def GetOrdinal (s : RecompilationEngine) (address : Nat) : Nat :=
  match findOrdinal s.m_address_to_ordinal address with
  | some ordinal => ordinal
  | none => 0xFFFFFFFF

/-- The method `RecompilationEngine::GetExecutable(ordinal)` (lines 309-312). -/
def GetExecutable (s : RecompilationEngine) (ordinal : Nat) : Executable :=
  s.m_executable_lookup ordinal

/-- Append a record to the log stream (`Log() << ...`). -/
def Log (s : RecompilationEngine) (r : LogRecord) : RecompilationEngine :=
  { s with m_log := s.m_log ++ [r] }

end RecompilationEngine

namespace Compiler

/-- What `Compiler::Compile(name, cfg, generate_linkable_exits)` (lines 85-259)
does to the engine and returns: it builds a new execution-engine object, logs
the module, logs a verification failure when `verifyFunction` reports one
(lines 222-224) and carries on, and returns the entry point inside the new
object (non-null by the assertion of line 257) together with the object. -/
def Compile (llvm : Backend) (s : RecompilationEngine) (name : Nat × Nat)
    (cfg : ControlFlowGraph) (_generate_linkable_exits : Bool) :
    RecompilationEngine × (Executable × Nat) :=
  let execution_engine := s.created
  let s1 := { s with created := s.created + 1 }
  let s2 := s1.Log (.Module name)
  let s3 := if llvm.verifyFunction name cfg then s2.Log (.VerificationFailed name) else s2
  (s3, (.native execution_engine, execution_engine))

end Compiler

namespace RecompilationEngine

/-- The method `RecompilationEngine::CompileBlock(block_entry)` (lines
516-529).  The block is passed by reference: the result carries the engine
and the block after the call.  The symbol name `fn_0x%08X_%u` is the pair of
its two arguments; `revision` is a `u32`. -/
def CompileBlock (llvm : Backend) (capacity : Nat) (s : RecompilationEngine)
    (block_entry : BlockEntry) : Option (RecompilationEngine × BlockEntry) :=
  let s1 := (s.Log (.Compile block_entry.key)).Log (.CFG block_entry.cfg)
  match AllocateOrdinal capacity s1 block_entry.cfg.start_address block_entry.IsFunction with
  | none => none
  | some (s2, ordinal) =>
    let name := (block_entry.cfg.start_address, block_entry.revision)
    let block1 := { block_entry with revision := (block_entry.revision + 1) % 2 ^ 32 }
    let (s3, compileResult) := Compiler.Compile llvm s2 name block1.cfg block1.IsFunction
    let s4 := { s3 with
      m_executable_lookup := Function.update s3.m_executable_lookup ordinal compileResult.1,
      m_executable_engine := Function.update s3.m_executable_engine ordinal (some compileResult.2) }
    some (s4, { block1 with last_compiled_cfg_size := block1.cfg.GetSize, is_compiled := true })

/-- The method `RecompilationEngine::FreeExecutable(ordinal)` (lines 541-544):
the execution engine of the slot is deleted (nothing to delete for a null
pointer) and the slot of `m_executable_engine` is set to null. -/
def FreeExecutable (s : RecompilationEngine) (ordinal : Nat) : RecompilationEngine :=
  { s with
    deleted := match s.m_executable_engine ordinal with
      | some execution_engine => s.deleted ++ [execution_engine]
      | none => s.deleted,
    m_executable_engine := Function.update s.m_executable_engine ordinal none }

/-! ### The block registry and trace processing -/

/-- The lookup `m_block_table.find(&key)`: the registry entry with the given
start and function address. -/
def findBlock : List BlockEntry → Nat × Nat → Option BlockEntry
  | [], _ => none
  | b :: table, key => if b.key = key then some b else findBlock table key

/-- Lines 437-440 and 454-457: find the entry for `key`, inserting a new
`BlockEntry` when there is none. -/
def findOrInsertBlock (table : List BlockEntry) (key : Nat × Nat) : List BlockEntry :=
  match findBlock table key with
  | some _ => table
  | none => table ++ [BlockEntry.new key.1 key.2]

/-- A write through a `BlockEntry *`: the registry entry found under `key`
is replaced by `f` of it. -/
def modifyBlock (f : BlockEntry → BlockEntry) : List BlockEntry → Nat × Nat → List BlockEntry
  | [], _ => []
  | b :: table, key => if b.key = key then f b :: table else b :: modifyBlock f table key

/-- The lookup `m_processed_execution_traces.find(execution_trace_id)`. -/
def findProcessed : List (Nat × List (Nat × Nat)) → Nat → Option (List (Nat × Nat))
  | [], _ => none
  | (id, l) :: m, execution_trace_id =>
    if id = execution_trace_id then some l else findProcessed m execution_trace_id

/-- A write to `processed_execution_trace_i->second`. -/
def setProcessed (l1 : List (Nat × Nat)) :
    List (Nat × List (Nat × Nat)) → Nat → List (Nat × List (Nat × Nat))
  | [], _ => []
  | (id, l) :: m, execution_trace_id =>
    if id = execution_trace_id then (id, l1) :: m
    else (id, l) :: setProcessed l1 m execution_trace_id

/-- The local variables of the loop of lines 446-473 together with the
registry it updates; `block_i = none` stands for `m_block_table.end()`. -/
structure MergeState where
  table : List BlockEntry
  block_i : Option (Nat × Nat)
  split_trace : Bool
  tmp_block_list : List (Nat × Nat)

/-- One iteration of the loop of lines 446-473 for the entry `this_entry`
followed in the trace by `rest`. -/
def mergeEntry (execution_trace : ExecutionTrace) (st : MergeState)
    (this_entry : ExecutionTraceEntry) (rest : List ExecutionTraceEntry) : MergeState :=
  let function_key := (execution_trace.function_address, execution_trace.function_address)
  let is_compiled_block :=
    match this_entry with
    | .CompiledBlock _ _ => true
    | _ => false
  let block_i := if is_compiled_block then none else st.block_i
  let split_trace := if is_compiled_block then true else st.split_trace
  let key := block_i.getD (this_entry.GetPrimaryAddress, execution_trace.function_address)
  let table1 := if block_i.isNone then findOrInsertBlock st.table key else st.table
  let tmp_block_list := if block_i.isNone then st.tmp_block_list ++ [key] else st.tmp_block_list
  let next_trace :=
    match rest with
    | next :: _ => some next
    | [] =>
      if !split_trace && execution_trace.type == some .Loop then execution_trace.entries.head?
      else none
  let table2 := modifyBlock
    (fun b => { b with cfg := UpdateControlFlowGraph b.cfg this_entry next_trace }) table1 key
  let table3 :=
    if key ≠ function_key then
      modifyBlock
        (fun b => { b with cfg := UpdateControlFlowGraph b.cfg this_entry next_trace })
        table2 function_key
    else table2
  { table := table3, block_i := some key, split_trace := split_trace,
    tmp_block_list := tmp_block_list }

/-- The loop of lines 446-473 over the remaining entries. -/
def mergeEntries (execution_trace : ExecutionTrace) :
    MergeState → List ExecutionTraceEntry → MergeState
  | st, [] => st
  | st, this_entry :: rest =>
    mergeEntries execution_trace (mergeEntry execution_trace st this_entry rest) rest

/-- The body of the loop of lines 478-485 for one element of the block list.
The element is a pointer to a registry entry: a key that names no entry
cannot occur, and the call is undefined (`none`) for it, as it is when the
assertion inside `CompileBlock` fails.  `num_hits` is a `u32`. -/
def hitBlock (llvm : Backend) (capacity : Nat) (s : RecompilationEngine) (key : Nat × Nat) :
    Option RecompilationEngine :=
  match findBlock s.m_block_table key with
  | none => none
  | some b =>
    if !b.is_compiled then
      let b1 := { b with num_hits := (b.num_hits + 1) % 2 ^ 32 }
      if b1.num_hits ≥ 1000 then
        match CompileBlock llvm capacity s b1 with
        | none => none
        | some (s1, b2) =>
          some { s1 with m_block_table := modifyBlock (fun _ => b2) s1.m_block_table key }
      else
        some { s with m_block_table := modifyBlock (fun _ => b1) s.m_block_table key }
    else some s

/-- The loop of lines 478-485 over the block list of the trace. -/
def hitBlocks (llvm : Backend) (capacity : Nat) :
    RecompilationEngine → List (Nat × Nat) → Option RecompilationEngine
  | s, [] => some s
  | s, key :: rest =>
    match hitBlock llvm capacity s key with
    | none => none
    | some s1 => hitBlocks llvm capacity s1 rest

/-- The algorithm `std::remove_if(first, last, pred)` on a range of pointers:
the elements that fail `pred` are moved to the front in their order, the
positions behind them keep the pointers they held, and the range keeps its
length (line 489 ignores the returned iterator). -/
def remove_if {α : Type} (l : List α) (pred : α → Bool) : List α :=
  let kept := l.filter fun x => !pred x
  kept ++ l.drop kept.length

/-- Lines 431-476 of `ProcessExecutionTrace`: the engine after the merge of
the trace, and the block list `processed_execution_trace_i->second` that the
loop of lines 478-485 goes on to visit.  For a trace whose id is already in
`m_processed_execution_traces` nothing is merged and the list is the stored
one. -/
def mergeTrace (GetId : ExecutionTrace → Nat) (s : RecompilationEngine)
    (execution_trace : ExecutionTrace) : RecompilationEngine × List (Nat × Nat) :=
  let execution_trace_id := GetId execution_trace
  match findProcessed s.m_processed_execution_traces execution_trace_id with
  | some block_list => (s, block_list)
  | none =>
    let s1 := s.Log (.Trace execution_trace)
    let function_key := (execution_trace.function_address, execution_trace.function_address)
    let st := mergeEntries execution_trace
      { table := findOrInsertBlock s1.m_block_table function_key, block_i := none,
        split_trace := false, tmp_block_list := [] }
      execution_trace.entries
    ({ s1 with
       m_block_table := st.table,
       m_processed_execution_traces :=
         s1.m_processed_execution_traces ++ [(execution_trace_id, st.tmp_block_list)] },
     st.tmp_block_list)

/-- The method `RecompilationEngine::ProcessExecutionTrace(execution_trace)`
(lines 430-490).  `GetId` is `ExecutionTrace::GetId`, defined in the header
that is not part of the sources. -/
def ProcessExecutionTrace (llvm : Backend) (capacity : Nat) (GetId : ExecutionTrace → Nat)
    (s : RecompilationEngine) (execution_trace : ExecutionTrace) : Option RecompilationEngine :=
  let merged := mergeTrace GetId s execution_trace
  match hitBlocks llvm capacity merged.1 merged.2 with
  | none => none
  | some s2 =>
    some { s2 with
      m_processed_execution_traces :=
        setProcessed
          (remove_if merged.2 fun key =>
            match findBlock s2.m_block_table key with
            | some b => b.is_compiled
            | none => false)
          s2.m_processed_execution_traces (GetId execution_trace) }

/-- The engine after processing a sequence of traces, one call of
`ProcessExecutionTrace` each. -/
def processAll (llvm : Backend) (capacity : Nat) (GetId : ExecutionTrace → Nat) :
    RecompilationEngine → List ExecutionTrace → Option RecompilationEngine
  | s, [] => some s
  | s, t :: rest =>
    match ProcessExecutionTrace llvm capacity GetId s t with
    | none => none
    | some s1 => processAll llvm capacity GetId s1 rest

/-! ### The idle-time scan of `Task` -/

/-- Subtraction of two `size_t` values (64 bits on the x86-64 target the
compiler is set up for). -/
def size_t_sub (a b : Nat) : Nat := (a % 2 ^ 64 + 2 ^ 64 - b % 2 ^ 64) % 2 ^ 64

/-- The expression `block->cfg.GetSize() - block->last_compiled_cfg_size` of
line 382. -/
def growth (block : BlockEntry) : Nat :=
  size_t_sub block.cfg.GetSize block.last_compiled_cfg_size

/-- One iteration of the loop of lines 380-388 on the pair
`(candidate, max_diff)`. -/
def scanBlock (acc : Option BlockEntry × Nat) (block : BlockEntry) : Option BlockEntry × Nat :=
  if block.IsFunction && block.is_compiled then
    let diff := growth block
    if diff > acc.2 then (some block, diff) else acc
  else acc

/-- The candidate left by the loop of lines 378-388 over `m_block_table`,
visited in the order of the list; `none` is the null pointer. -/
def idleCandidate (table : List BlockEntry) : Option BlockEntry :=
  (table.foldl scanBlock (none, 0)).1

/-- Lines 374-398 of `Task`, the work of an idle iteration: the candidate, if
there is one, is logged and compiled. -/
def idleRecompile (llvm : Backend) (capacity : Nat) (s : RecompilationEngine) :
    Option RecompilationEngine :=
  match idleCandidate s.m_block_table with
  | none => some s
  | some candidate =>
    match CompileBlock llvm capacity (s.Log (.Recompiling candidate.key)) candidate with
    | none => none
    | some (s1, b) =>
      some { s1 with m_block_table := modifyBlock (fun _ => b) s1.m_block_table candidate.key }

end RecompilationEngine

/-! ### Sequences of calls on the ordinal table -/

/-- A call of one of the three methods that touch the ordinal table. -/
inductive EngineCall where
  | AllocateOrdinal (address : Nat) (is_function : Bool)
  | CompileBlock (block_entry : BlockEntry)
  | FreeExecutable (ordinal : Nat)

namespace RecompilationEngine

/-- The engine after one call, `none` when the call fails an assertion. -/
def call (llvm : Backend) (capacity : Nat) (s : RecompilationEngine) :
    EngineCall → Option RecompilationEngine
  | .AllocateOrdinal address is_function =>
    (AllocateOrdinal capacity s address is_function).map Prod.fst
  | .CompileBlock block_entry => (CompileBlock llvm capacity s block_entry).map Prod.fst
  | .FreeExecutable ordinal => some (FreeExecutable s ordinal)

/-- The engine after a sequence of calls. -/
def calls (llvm : Backend) (capacity : Nat) :
    RecompilationEngine → List EngineCall → Option RecompilationEngine
  | s, [] => some s
  | s, c :: rest =>
    match call llvm capacity s c with
    | none => none
    | some s1 => calls llvm capacity s1 rest

end RecompilationEngine

/-- The address for which a call requests an ordinal, if it requests one. -/
def EngineCall.address : EngineCall → Option Nat
  | .AllocateOrdinal address _ => some address
  | .CompileBlock block_entry => some block_entry.cfg.start_address
  | .FreeExecutable _ => none

/-- The distinct addresses for which a sequence of calls requests an ordinal,
in the order of their first request, continuing the list `seen`. -/
def allocatedFrom : List Nat → List EngineCall → List Nat
  | seen, [] => seen
  | seen, c :: rest =>
    match c.address with
    | some a => if a ∈ seen then allocatedFrom seen rest else allocatedFrom (seen ++ [a]) rest
    | none => allocatedFrom seen rest

/-- The distinct addresses allocated by a sequence of calls on a fresh
engine, in the order of first allocation. -/
def allocated (l : List EngineCall) : List Nat := allocatedFrom [] l

/-! ### Example data -/

/-- A compiled function entry at `address` whose CFG holds `n` consecutive
instruction addresses and whose size at the last compile was `last`. -/
def exampleFunction (address n last : Nat) : BlockEntry :=
  { num_hits := 1000, revision := 1, last_compiled_cfg_size := last,
    cfg := { ControlFlowGraph.new address address with
             instruction_addresses := (Finset.range n).image fun i => address + 4 * i },
    is_compiled := true }

/-- An engine whose registry holds two compiled functions, of growth 5 and
growth 12. -/
def exampleIdleEngine : RecompilationEngine :=
  { RecompilationEngine.fresh with
    m_block_table := [exampleFunction 0x1000 8 3, exampleFunction 0x2000 14 2] }

/-! ### Bookkeeping of one block along a run -/

namespace RecompilationEngine

/-- The two entries agree on everything but the CFG: hit counter, compile
flag, revision and size at the last compile. -/
def sameCounters (b b1 : BlockEntry) : Prop :=
  b1.num_hits = b.num_hits ∧ b1.is_compiled = b.is_compiled ∧ b1.revision = b.revision ∧
  b1.last_compiled_cfg_size = b.last_compiled_cfg_size

/-- The registry `t1` comes from `t` by CFG merges and insertion of new
entries: an entry of `t` is in `t1` with the same counters, an entry of `t1`
that `t` lacks has the counters of a new `BlockEntry`. -/
def mergedFrom (t t1 : List BlockEntry) : Prop :=
  ∀ key,
    (∀ b, findBlock t key = some b → ∃ b1, findBlock t1 key = some b1 ∧ sameCounters b b1) ∧
    (findBlock t key = none →
      findBlock t1 key = none ∨
      ∃ b1, findBlock t1 key = some b1 ∧ sameCounters (BlockEntry.new key.1 key.2) b1)

/-- The entry `b1` is what hit counting can make of the entry `b`: the CFG is
the same, and a compiled entry is left as it is. -/
def hitFrom (b b1 : BlockEntry) : Prop :=
  b1.cfg = b.cfg ∧ (b.is_compiled = true → b1 = b)

/-- The number of invocations of `CompileBlock` for the block `key` that the
log records (one `Compile:` line each, line 517). -/
def compileCount (s : RecompilationEngine) (key : Nat × Nat) : Nat :=
  s.m_log.count (.Compile key)

/-- The bookkeeping of the block `key` after `T` visits, for a block that had
`h0` hits and was not compiled when the count of visits started, at which
time the log held `c0` compilations of it: below 1000 hits the block is not
compiled, its counter is `h0 + T` and no compilation was logged; from 1000 on
it is compiled and exactly one compilation was logged. -/
def tracks (key : Nat × Nat) (h0 c0 : Nat) (s : RecompilationEngine) (T : Nat) : Prop :=
  (findBlock s.m_block_table key = none → h0 = 0 ∧ T = 0 ∧ compileCount s key = c0) ∧
  (∀ b, findBlock s.m_block_table key = some b →
    (h0 + T < 1000 → b.is_compiled = false ∧ b.num_hits = h0 + T ∧ compileCount s key = c0) ∧
    (1000 ≤ h0 + T → b.is_compiled = true ∧ compileCount s key = c0 + 1))

/-- The number of visits that the loop of lines 478-485 pays to the block
`key` while the traces `ts` are processed from state `s`: one for every
occurrence of the block in the block list of a processed trace. -/
def touches (llvm : Backend) (capacity : Nat) (GetId : ExecutionTrace → Nat) (key : Nat × Nat) :
    RecompilationEngine → List ExecutionTrace → Nat
  | _, [] => 0
  | s, t :: rest =>
    (mergeTrace GetId s t).2.count key +
      match ProcessExecutionTrace llvm capacity GetId s t with
      | some s1 => touches llvm capacity GetId key s1 rest
      | none => 0

end RecompilationEngine

/-- A Linear trace of function `0x100` that enters the compiled block at
`0x200` twice: the block exits to `0x300`, the compiled block at `0x300`
exits back to `0x200`, and the second run of the block at `0x200` returns. -/
def exampleRevisitTrace : ExecutionTrace :=
  ExecutionTrace.mk (some .Linear) 0x100
    [.CompiledBlock 0x200 0x300, .CompiledBlock 0x300 0x200, .CompiledBlock 0x200 0]

/-- A Linear trace of function `0x100` made of its first instruction. -/
def exampleEntryTrace : ExecutionTrace :=
  ExecutionTrace.mk (some .Linear) 0x100 [.Instruction 0x100]

/-- An engine whose registry holds the entry of function `0x100`, not
compiled, with 998 hits. -/
def exampleWarmEngine : RecompilationEngine :=
  { RecompilationEngine.fresh with
    m_block_table := [{ BlockEntry.new 0x100 0x100 with num_hits := 998 }] }

/-- An id for the traces of the examples: function address and number of
entries. -/
def exampleGetId (t : ExecutionTrace) : Nat := t.function_address * 0x10000 + t.entries.length

/-- A Linear trace of function `0x100`: its first instruction, then the
compiled block at `0x200`, which returns. -/
def exampleTwoBlockTrace : ExecutionTrace :=
  ExecutionTrace.mk (some .Linear) 0x100 [.Instruction 0x100, .CompiledBlock 0x200 0]

/-! ### Invariants used in the proofs -/

namespace RecompilationEngine

/-- Every ordinal of the address map names a slot that has been written. -/
def slotsSet (s : RecompilationEngine) : Prop :=
  ∀ a o, findOrdinal s.m_address_to_ordinal a = some o → s.m_executable_lookup o ≠ .unset

/-- The address map and the counter of an engine that has allocated the
distinct addresses `acc`, in this order: the address at position `k` has
ordinal `k`. -/
def ordInv (acc : List Nat) (s : RecompilationEngine) : Prop :=
  s.m_address_to_ordinal = acc.zip (List.range' 0 acc.length) ∧
  s.m_next_ordinal = acc.length ∧ acc.Nodup

/-- The loop invariant of the idle-time scan after the blocks `seen`. -/
def scanInv (seen : List BlockEntry) (acc : Option BlockEntry × Nat) : Prop :=
  (∀ b, acc.1 = some b →
    b ∈ seen ∧ b.IsFunction = true ∧ b.is_compiled = true ∧ growth b = acc.2 ∧ 0 < acc.2) ∧
  (acc.1 = none → acc.2 = 0) ∧
  (∀ b ∈ seen, b.IsFunction = true → b.is_compiled = true → growth b ≤ acc.2)

end RecompilationEngine

/-! ### Fallthrough edges -/

/-- No branch edge of the CFG is a fallthrough: no address `a` has `a + 4`
(in `u32`) among its branch targets. -/
def ControlFlowGraph.noFallthrough (g : ControlFlowGraph) : Prop :=
  ∀ a, (a + 4) % 2 ^ 32 ∉ g.branches.targets a

/-- The events by which the tracer records that the compiled block entered at
`0x100` left at its exit instruction `0x108` and that the interpreter went on
with the next instruction `0x10C`, in function `0x100`, up to the return. -/
def exampleBlockExitEvents : List (TraceType × Nat × Nat) :=
  [(.EnterFunction, 0x100, 0), (.ExitFromCompiledBlock, 0x100, 0x108),
   (.Instruction, 0x10C, 0), (.Return, 0, 0)]

/-- The tracer after a sequence of events: the stack and the traces handed to
the engine, oldest first; `none` when an event is undefined. -/
def Tracer.run : List ExecutionTrace → List (TraceType × Nat × Nat) →
    Option (List ExecutionTrace × List ExecutionTrace)
  | m_stack, [] => some (m_stack, [])
  | m_stack, ev :: rest =>
    match Tracer.Trace m_stack ev.1 ev.2.1 ev.2.2 with
    | none => none
    | some (m_stack1, handed) =>
      match Tracer.run m_stack1 rest with
      | none => none
      | some (m_stack2, later) => some (m_stack2, handed.toList ++ later)

/-! ### Branch classification -/

/-- The values of `BranchType`. -/
inductive BranchType where
  | NonBranch
  | LocalBranch
  | FunctionCall
  | Return
  deriving DecidableEq, Repr

/-- The function `GetBranchTypeFromInstruction(instruction)` (lines 737-756).
The flag masks `EIF_PERFORM_BLR` and `EIF_USE_BRANCH` are declared in a header
that is not part of the sources and are parameters. -/
def GetBranchTypeFromInstruction (EIF_PERFORM_BLR EIF_USE_BRANCH : Nat) (instruction : Nat) :
    BranchType :=
  let field1 := instruction >>> 26
  let lk := instruction &&& 1
  if field1 = 16 ∨ field1 = 18 then
    if lk ≠ 0 then .FunctionCall else .LocalBranch
  else if field1 = 19 then
    let field2 := (instruction >>> 1) &&& 0x3FF
    if field2 = 16 then
      if lk ≠ 0 then .FunctionCall else .Return
    else if field2 = 528 then
      if lk ≠ 0 then .FunctionCall else .LocalBranch
    else .NonBranch
  else if field1 = 1 ∧ instruction &&& EIF_PERFORM_BLR ≠ 0 then
    if instruction &&& EIF_USE_BRANCH ≠ 0 then .FunctionCall else .Return
  else if field1 = 1 ∧ instruction &&& EIF_USE_BRANCH ≠ 0 then .LocalBranch
  else .NonBranch

/-! ### Successive compilations of one entry -/

namespace RecompilationEngine

/-- The engine and the block after `n` successive calls of `CompileBlock` on
the block. -/
def compileRepeatedly (llvm : Backend) (capacity : Nat) :
    Nat → RecompilationEngine → BlockEntry → Option (RecompilationEngine × BlockEntry)
  | 0, s, b => some (s, b)
  | n + 1, s, b =>
    match CompileBlock llvm capacity s b with
    | none => none
    | some (s1, b1) => compileRepeatedly llvm capacity n s1 b1

/-- The symbol names of the modules that the log shows as handed to the code
generator, oldest first. -/
def moduleNames (log : List LogRecord) : List (Nat × Nat) :=
  log.filterMap fun r =>
    match r with
    | .Module name => some name
    | _ => none

end RecompilationEngine

/-! ### The function entry covers the blocks of the function -/

namespace RecompilationEngine

/-- The registry has one entry per key. -/
def uniqueKeys (table : List BlockEntry) : Prop := (table.map BlockEntry.key).Nodup

/-- Every entry found in the registry has the entry of its owning function in
the registry, and its CFG is contained in the CFG of that entry. -/
def functionCovers (table : List BlockEntry) : Prop :=
  ∀ key b, findBlock table key = some b →
    ∃ fb, findBlock table (key.2, key.2) = some fb ∧ b.cfg.contained fb.cfg

end RecompilationEngine

namespace RecompilationEngine

/-- The invariant of the merge loop of lines 446-473 for a trace of function
`f`: the registry has unique keys, every entry is covered by its function
entry, the entry of `f` exists, and the current block belongs to `f`. -/
def mergeInv (f : Nat) (st : MergeState) : Prop :=
  uniqueKeys st.table ∧ functionCovers st.table ∧
  (∃ fb, findBlock st.table (f, f) = some fb) ∧
  (∀ k, st.block_i = some k → k.2 = f)

end RecompilationEngine

/-! ## The hybrid dispatcher -/

/-- The state of a `CPUHybridDecoderRecompiler` that its cache uses: the
per-thread map `m_address_to_ordinal` from an address to the pair of an
ordinal and a use counter, and the time of the last sweep.  Time points are
counted in milliseconds, the unit in which line 645 compares them. -/
structure CPUHybridDecoderRecompiler where
  m_address_to_ordinal : List (Nat × Nat × Nat)
  m_last_cache_clear_time : Int
  deriving DecidableEq

namespace CPUHybridDecoderRecompiler

/-- The lookup `m_address_to_ordinal.find(address)` in the cache. -/
def findCached : List (Nat × Nat × Nat) → Nat → Option (Nat × Nat)
  | [], _ => none
  | (a, v) :: m, address => if a = address then some v else findCached m address

/-- A write to `i->second` for the entry found under `address`. -/
def setCached (v : Nat × Nat) : List (Nat × Nat × Nat) → Nat → List (Nat × Nat × Nat)
  | [], _ => []
  | (a, v0) :: m, address =>
    if a = address then (a, v) :: m else (a, v0) :: setCached v m address

/-- The erasure `m_address_to_ordinal.erase(tmp)` (line 650) of the entry
found under `address`. -/
def erase (cache : List (Nat × Nat × Nat)) (address : Nat) : List (Nat × Nat × Nat) :=
  cache.filter fun p => decide (p.1 ≠ address)

/-- The loop of lines 646-655 with every access through `tmp` made in the
container as it is at that line.  The loop visits the entries under the
addresses `visit`.  When the counter is 0 the entry is erased (line 650) and
the argument `tmp->second.first` of line 651 is then read from the container
after the erasure: the read has no value, `none`, when the entry is no longer
there.  Otherwise the counter is set to 0 (line 653). -/
def sweep : List Nat → List (Nat × Nat × Nat) → RecompilationEngine →
    Option (List (Nat × Nat × Nat) × RecompilationEngine)
  | [], cache, e => some (cache, e)
  | address :: rest, cache, e =>
    match findCached cache address with
    | none => none
    | some (ordinal, count) =>
      if count = 0 then
        match findCached (erase cache address) address with
        | some (ordinal1, _) =>
          sweep rest (erase cache address) (e.FreeExecutable ordinal1)
        | none => none
      else sweep rest (setCached (ordinal, 0) cache address) e

/-- The method `RemoveUnusedEntriesFromCache()` (lines 643-659) at the clock
reading `now`, on the dispatcher and the engine it shares: the dispatcher and
the engine after the call, `none` when the loop has no defined result. -/
def RemoveUnusedEntriesFromCache (d : CPUHybridDecoderRecompiler)
    (e : RecompilationEngine) (now : Int) :
    Option (CPUHybridDecoderRecompiler × RecompilationEngine) :=
  if now - d.m_last_cache_clear_time > 10000 then
    (sweep (d.m_address_to_ordinal.map Prod.fst) d.m_address_to_ordinal e).map fun r =>
      ({ m_address_to_ordinal := r.1, m_last_cache_clear_time := now }, r.2)
  else some (d, e)

/-- Lines 662-675 of `GetExecutable(address, default_executable)`: the cache
after the resolution of the address and the increment of its use counter (a
`u32`), and the executable read for it. -/
def resolve (d : CPUHybridDecoderRecompiler) (e : RecompilationEngine) (address : Nat)
    (default_executable : Executable) : CPUHybridDecoderRecompiler × Executable :=
  let cache1 :=
    match findCached d.m_address_to_ordinal address with
    | some _ => d.m_address_to_ordinal
    | none =>
      if e.GetOrdinal address ≠ 0xFFFFFFFF then
        d.m_address_to_ordinal ++ [(address, e.GetOrdinal address, 0)]
      else d.m_address_to_ordinal
  match findCached cache1 address with
  | some (ordinal, count) =>
    ({ d with m_address_to_ordinal := setCached (ordinal, (count + 1) % 2 ^ 32) cache1 address },
     e.GetExecutable ordinal)
  | none => ({ d with m_address_to_ordinal := cache1 }, default_executable)

/-- The method `GetExecutable(address, default_executable)` (lines 661-679) at
the clock reading `now`: the resolution of lines 662-675, then the call of
`RemoveUnusedEntriesFromCache` (line 677), then the return of the executable
(line 678).  The result is the dispatcher and the engine after the call and
the returned executable, `none` when the sweep has no defined result. -/
def GetExecutable (d : CPUHybridDecoderRecompiler) (e : RecompilationEngine) (address : Nat)
    (default_executable : Executable) (now : Int) :
    Option (CPUHybridDecoderRecompiler × RecompilationEngine × Executable) :=
  let r := resolve d e address default_executable
  (RemoveUnusedEntriesFromCache r.1 e now).map fun r2 => (r2.1, r2.2, r.2)

end CPUHybridDecoderRecompiler

/-- A step of an emulated thread or of the engine: a call on the ordinal
table, or a lookup by the dispatcher. -/
inductive DispatchStep where
  | engine (c : EngineCall)
  | GetExecutable (address : Nat) (default_executable : Executable) (now : Int)

namespace CPUHybridDecoderRecompiler

/-- The dispatcher and the engine after one step, `none` when the step has no
defined result. -/
def step (llvm : Backend) (capacity : Nat)
    (st : CPUHybridDecoderRecompiler × RecompilationEngine) :
    DispatchStep → Option (CPUHybridDecoderRecompiler × RecompilationEngine)
  | .engine c => (RecompilationEngine.call llvm capacity st.2 c).map fun e => (st.1, e)
  | .GetExecutable address default_executable now =>
    (GetExecutable st.1 st.2 address default_executable now).map fun r => (r.1, r.2.1)

/-- The dispatcher and the engine after a sequence of steps. -/
def steps (llvm : Backend) (capacity : Nat) :
    CPUHybridDecoderRecompiler × RecompilationEngine → List DispatchStep →
      Option (CPUHybridDecoderRecompiler × RecompilationEngine)
  | st, [] => some st
  | st, x :: rest =>
    match step llvm capacity st x with
    | none => none
    | some st1 => steps llvm capacity st1 rest

/-- The dispatcher right after its constructor at clock reading `now`: an
empty cache, `m_last_cache_clear_time` set to `now`. -/
def fresh (now : Int) : CPUHybridDecoderRecompiler :=
  { m_address_to_ordinal := [], m_last_cache_clear_time := now }

/-- Every entry of the cache holds the ordinal that the engine has for the
address, and the cache has one entry per address. -/
def cacheAgrees (d : CPUHybridDecoderRecompiler) (e : RecompilationEngine) : Prop :=
  (d.m_address_to_ordinal.map Prod.fst).Nodup ∧
  ∀ p ∈ d.m_address_to_ordinal,
    RecompilationEngine.findOrdinal e.m_address_to_ordinal p.1 = some p.2.1 ∧
    p.2.1 ≠ 0xFFFFFFFF

end CPUHybridDecoderRecompiler

/-- The engine after `AllocateOrdinal(0x100, true)` on the engine right after
the constructor. -/
def exampleAllocatedEngine : RecompilationEngine :=
  (RecompilationEngine.fresh.storeDefault true).insertOrdinal 0x100

/-- A run of an emulated thread and the engine: the engine allocates an
ordinal for `0x100`, the thread looks `0x100` up at time 0, and looks the
unknown address `0x200` up after 10001 ms, which sweeps the cache and resets
the counter of `0x100`. -/
def exampleDispatchRun : List DispatchStep :=
  [.engine (.AllocateOrdinal 0x100 true),
   .GetExecutable 0x100 .ExecuteFunction 0,
   .GetExecutable 0x200 .ExecuteFunction 10001]

/-- The dispatcher and the engine after `exampleDispatchRun`, started from the
constructors at time 0 with a table of 8 slots. -/
def exampleDispatchState : CPUHybridDecoderRecompiler × RecompilationEngine :=
  (CPUHybridDecoderRecompiler.steps ⟨fun _ _ => false⟩ 8
    (CPUHybridDecoderRecompiler.fresh 0, RecompilationEngine.fresh) exampleDispatchRun).getD
    (CPUHybridDecoderRecompiler.fresh 0, RecompilationEngine.fresh)

/-! ## Accesses to the ordinal table in program order -/

/-- What a call does to the array `m_executable_lookup`, with fences and to
the mutex `m_address_to_ordinal_lock`, in program order: the assignment
`m_executable_lookup[ordinal] = executable`, the read
`m_executable_lookup[ordinal]`, `std::atomic_thread_fence` with
`memory_order_release` or `memory_order_acquire`, and the construction and
the destruction of the `lock_guard`. -/
inductive MemoryEvent where
  | store (ordinal : Nat) (executable : Executable)
  | load (ordinal : Nat)
  | release_fence
  | acquire_fence
  | lock
  | unlock
  deriving DecidableEq

namespace RecompilationEngine

/-- The accesses of `AllocateOrdinal(address, is_function)` (lines 283-296):
the lock is taken (line 284); for an address without an ordinal the default
handler is stored (line 290) and a release fence follows (line 291); the lock
is dropped on return.  A failing assertion (line 288) ends the run with the
lock held. -/
def AllocateOrdinal_events (capacity : Nat) (s : RecompilationEngine) (address : Nat)
    (is_function : Bool) : List MemoryEvent :=
  match findOrdinal s.m_address_to_ordinal address with
  | some _ => [.lock, .unlock]
  | none =>
    if s.m_next_ordinal < capacity then
      [.lock,
       .store s.m_next_ordinal (if is_function then .ExecuteFunction else .ExecuteTillReturn),
       .release_fence, .unlock]
    else [.lock]

/-- The accesses of `CompileBlock(block_entry)` (lines 516-529): those of the
call of `AllocateOrdinal` (line 520), then the store of the compiled entry
point (line 525).  No statement of lines 521-528 is a fence. -/
def CompileBlock_events (llvm : Backend) (capacity : Nat) (s : RecompilationEngine)
    (block_entry : BlockEntry) : List MemoryEvent :=
  let s1 := (s.Log (.Compile block_entry.key)).Log (.CFG block_entry.cfg)
  match AllocateOrdinal capacity s1 block_entry.cfg.start_address block_entry.IsFunction with
  | none =>
    AllocateOrdinal_events capacity s1 block_entry.cfg.start_address block_entry.IsFunction
  | some (s2, ordinal) =>
    let name := (block_entry.cfg.start_address, block_entry.revision)
    let block1 := { block_entry with revision := (block_entry.revision + 1) % 2 ^ 32 }
    AllocateOrdinal_events capacity s1 block_entry.cfg.start_address block_entry.IsFunction ++
      [.store ordinal (Compiler.Compile llvm s2 name block1.cfg block1.IsFunction).2.1]

/-- The accesses of `GetExecutable(ordinal)` (lines 309-312): an acquire
fence (line 310), then the read of the slot (line 311). -/
def GetExecutable_events (ordinal : Nat) : List MemoryEvent :=
  [.acquire_fence, .load ordinal]

/-- The array `m_executable_lookup` after the stores of a list of accesses. -/
def replay : List MemoryEvent → (Nat → Executable) → (Nat → Executable)
  | [], table => table
  | .store ordinal executable :: rest, table =>
    replay rest (Function.update table ordinal executable)
  | _ :: rest, table => replay rest table

/-- Every store of the list is followed by a release fence later in the
list. -/
def fenceAfterEveryStore : List MemoryEvent → Bool
  | [] => true
  | .store _ _ :: rest => decide (MemoryEvent.release_fence ∈ rest) && fenceAfterEveryStore rest
  | _ :: rest => fenceAfterEveryStore rest

/-- Every load of the list comes after an acquire fence of the list. -/
def fenceBeforeEveryLoad : List MemoryEvent → Bool
  | [] => true
  | .acquire_fence :: _ => true
  | .load _ :: _ => false
  | _ :: rest => fenceBeforeEveryLoad rest

end RecompilationEngine

/-! ### Repeated addresses in a trace -/

namespace Tracer

/-- No instruction entry of the list has the address of an instruction entry
before it, or the entry address of a compiled-block entry before it. -/
def noRepeat (entries : List ExecutionTraceEntry) : Prop :=
  entries.Pairwise fun e1 e2 => ∀ a, e2 = .Instruction a → isLoopHead a e1 = false

/-- The addresses of the instruction entries of the list, in their order. -/
def instructionAddresses (entries : List ExecutionTraceEntry) : List Nat :=
  entries.filterMap fun e =>
    match e with
    | .Instruction address => some address
    | _ => none

end Tracer

/-- The events of one round of a two-instruction loop in function `0x100`:
the instructions `0x100` and `0x104` run, and `0x100` runs again. -/
def exampleLoopEvents : List (TraceType × Nat × Nat) :=
  [(.EnterFunction, 0x100, 0), (.Instruction, 0x100, 0), (.Instruction, 0x104, 0),
   (.Instruction, 0x100, 0)]

/-! ### The successor of the last entry of a trace -/

/-- The test `type == ExecutionTraceEntry::Type::CompiledBlock`. -/
def ExecutionTraceEntry.isCompiledBlock : ExecutionTraceEntry → Bool
  | .CompiledBlock _ _ => true
  | _ => false

namespace RecompilationEngine

/-- Lines 462-467 of `ProcessExecutionTrace`: the successor `next_trace` of an
entry that is followed in the trace by `rest`, given the value of
`split_trace` at that point: the next entry if there is one; for the last
entry the first entry of the trace when the trace was not split and is a
Loop, and a null pointer otherwise. -/
def nextTrace (execution_trace : ExecutionTrace) (split_trace : Bool)
    (rest : List ExecutionTraceEntry) : Option ExecutionTraceEntry :=
  match rest with
  | next :: _ => some next
  | [] =>
    if !split_trace && execution_trace.type == some .Loop then execution_trace.entries.head?
    else none

/-- Lines 469-472 of `ProcessExecutionTrace`: the entry is merged into the CFG
of the block `key` and, when this is another entry, into the CFG of the
function entry `function_key`, with the same successor. -/
def mergeInto (table : List BlockEntry) (key function_key : Nat × Nat)
    (this_entry : ExecutionTraceEntry) (next_trace : Option ExecutionTraceEntry) :
    List BlockEntry :=
  let table2 := modifyBlock
    (fun b => { b with cfg := UpdateControlFlowGraph b.cfg this_entry next_trace }) table key
  if key ≠ function_key then
    modifyBlock
      (fun b => { b with cfg := UpdateControlFlowGraph b.cfg this_entry next_trace })
      table2 function_key
  else table2

/-- The state of the loop of lines 446-473 after the entries `init`, when
these are followed in the trace by the entries `tail`. -/
def mergeUpTo (execution_trace : ExecutionTrace) :
    MergeState → List ExecutionTraceEntry → List ExecutionTraceEntry → MergeState
  | st, [], _ => st
  | st, this_entry :: init, tail =>
    mergeUpTo execution_trace (mergeEntry execution_trace st this_entry (init ++ tail)) init tail

end RecompilationEngine

/-- A Loop trace of function `0x100` without compiled blocks: the instructions
`0x100` and `0x104`, after which `0x100` runs again. -/
def exampleLoopTrace : ExecutionTrace :=
  ExecutionTrace.mk (some .Loop) 0x100 [.Instruction 0x100, .Instruction 0x104]

/-! ### Calls on the block registry -/

/-- A step of the worker thread on the block registry: a trace is processed,
`CompileBlock` runs on the registry entry with the given key, or an idle
iteration of `Task` runs. -/
inductive RegistryCall where
  | ProcessExecutionTrace (execution_trace : ExecutionTrace)
  | CompileBlock (key : Nat × Nat)
  | idle

/-- The addresses of the entry are `u32` values. -/
def ExecutionTraceEntry.inU32 : ExecutionTraceEntry → Bool
  | .FunctionCall address => decide (address < 2 ^ 32)
  | .Instruction address => decide (address < 2 ^ 32)
  | .CompiledBlock entry_address exit_address =>
    decide (entry_address < 2 ^ 32) && decide (exit_address < 2 ^ 32)

/-- The CFG is a well-formed value of its type: the instruction addresses and
the keys of the two maps are `u32` values, and a map holds a key once. -/
def ControlFlowGraph.inU32 (g : ControlFlowGraph) : Prop :=
  (∀ a ∈ g.instruction_addresses, a < 2 ^ 32) ∧
  (g.branches.map Prod.fst).Nodup ∧ (∀ k ∈ g.branches.map Prod.fst, k < 2 ^ 32) ∧
  (g.calls.map Prod.fst).Nodup ∧ (∀ k ∈ g.calls.map Prod.fst, k < 2 ^ 32)

namespace RecompilationEngine

/-- The call `CompileBlock(*block)` on the registry entry found under `key`:
the writes to the block go to the entry.  Undefined (`none`) when the
registry has no such entry. -/
def compileEntry (llvm : Backend) (capacity : Nat) (s : RecompilationEngine)
    (key : Nat × Nat) : Option RecompilationEngine :=
  match findBlock s.m_block_table key with
  | none => none
  | some b =>
    match CompileBlock llvm capacity s b with
    | none => none
    | some (s1, b1) =>
      some { s1 with m_block_table := modifyBlock (fun _ => b1) s1.m_block_table key }

/-- The engine after one step on the registry. -/
def registryCall (llvm : Backend) (capacity : Nat) (GetId : ExecutionTrace → Nat)
    (s : RecompilationEngine) : RegistryCall → Option RecompilationEngine
  | .ProcessExecutionTrace execution_trace =>
    ProcessExecutionTrace llvm capacity GetId s execution_trace
  | .CompileBlock key => compileEntry llvm capacity s key
  | .idle => idleRecompile llvm capacity s

/-- The engine after a sequence of steps on the registry. -/
def registryCalls (llvm : Backend) (capacity : Nat) (GetId : ExecutionTrace → Nat) :
    RecompilationEngine → List RegistryCall → Option RecompilationEngine
  | s, [] => some s
  | s, c :: rest =>
    match registryCall llvm capacity GetId s c with
    | none => none
    | some s1 => registryCalls llvm capacity GetId s1 rest

/-- The size recorded at the last compile does not exceed the size of the
CFG, and the CFG is a well-formed value. -/
def sizeInv (b : BlockEntry) : Prop :=
  b.last_compiled_cfg_size ≤ b.cfg.GetSize ∧ b.cfg.inU32

end RecompilationEngine

/-- A run of the worker thread: the loop trace of function `0x100` is
processed, the function entry is compiled, and a second trace of the
function is processed, which adds two branch keys to its CFG. -/
def exampleRegistryCalls : List RegistryCall :=
  [.ProcessExecutionTrace exampleLoopTrace, .CompileBlock (0x100, 0x100),
   .ProcessExecutionTrace exampleRevisitTrace]

/-! ### Hit counting on a trace that was processed before -/

namespace RecompilationEngine

/-- What one visit of the loop of lines 478-485 does to the entry it visits:
a compiled entry is left alone (line 479); otherwise `num_hits` is
incremented (line 480) and, when it is then at least 1000 (line 481), the
call of `CompileBlock` (line 482) increments the revision, records the size
of the CFG and marks the entry compiled (lines 523, 527, 528). -/
def hitEntry (b : BlockEntry) : BlockEntry :=
  if b.is_compiled then b
  else if (b.num_hits + 1) % 2 ^ 32 ≥ 1000 then
    { b with num_hits := (b.num_hits + 1) % 2 ^ 32,
             revision := (b.revision + 1) % 2 ^ 32,
             last_compiled_cfg_size := b.cfg.GetSize, is_compiled := true }
  else { b with num_hits := (b.num_hits + 1) % 2 ^ 32 }

/-- The registry after the visits of the loop of lines 478-485 to the entries
of the block list. -/
def hitTable (table : List BlockEntry) (block_list : List (Nat × Nat)) : List BlockEntry :=
  block_list.foldl (fun t key => modifyBlock hitEntry t key) table

/-- The argument of the call of `CompileBlock` (line 482) that a visit to the
entry makes, if it makes one: the entry with its counter incremented. -/
def promotion (b : BlockEntry) : List BlockEntry :=
  if b.is_compiled = false ∧ (b.num_hits + 1) % 2 ^ 32 ≥ 1000 then
    [{ b with num_hits := (b.num_hits + 1) % 2 ^ 32 }]
  else []

/-- The arguments of the calls of `CompileBlock` that the loop of lines
478-485 makes over the block list, in the order of the calls. -/
def promotions : List BlockEntry → List (Nat × Nat) → List BlockEntry
  | _, [] => []
  | table, key :: rest =>
    match findBlock table key with
    | none => []
    | some b => promotion b ++ promotions (modifyBlock hitEntry table key) rest

end RecompilationEngine

/-! # Properties -/

namespace Tracer

theorem isLoopHead_iff (a : Nat) (e : ExecutionTraceEntry) :
    isLoopHead a e = true ↔ e = .Instruction a ∨ ∃ x, e = .CompiledBlock a x := by
  cases e <;> simp [isLoopHead]

theorem findLoop_eq_some (entries : List ExecutionTraceEntry) (a : Nat) :
    ∀ n i, findLoop entries a n = some i ↔
      i < n ∧ (∃ e, entries[i]? = some e ∧ isLoopHead a e = true) ∧
        ∀ j e, i < j → j < n → entries[j]? = some e → isLoopHead a e = false := by
  intro n
  induction n with
  | zero => intro i; simp [findLoop]
  | succ n ih =>
    intro i
    rw [findLoop]
    cases hn : entries[n]? with
    | none =>
      simp only [ih]
      constructor
      · rintro ⟨h1, h2, h3⟩
        refine ⟨by omega, h2, fun j e hij hj he => ?_⟩
        by_cases hjn : j = n
        · subst hjn; rw [hn] at he; cases he
        · exact h3 j e hij (by omega) he
      · rintro ⟨h1, ⟨e, he, hl⟩, h3⟩
        have hin : i ≠ n := by rintro rfl; rw [hn] at he; cases he
        exact ⟨by omega, ⟨e, he, hl⟩, fun j e2 hij hj => h3 j e2 hij (by omega)⟩
    | some e0 =>
      by_cases hl0 : isLoopHead a e0 = true
      · simp only [hl0, if_true, Option.some.injEq]
        constructor
        · rintro rfl
          exact ⟨by omega, ⟨e0, hn, hl0⟩, fun j e hij hj => by omega⟩
        · rintro ⟨h1, _, h3⟩
          by_contra hne
          have := h3 n e0 (by omega) (by omega) hn
          rw [hl0] at this; cases this
      · simp only [hl0, if_false, Bool.false_eq_true, ih]
        have hl0f : isLoopHead a e0 = false := by simpa using hl0
        constructor
        · rintro ⟨h1, h2, h3⟩
          refine ⟨by omega, h2, fun j e hij hj he => ?_⟩
          by_cases hjn : j = n
          · subst hjn; rw [hn] at he; cases he; exact hl0f
          · exact h3 j e hij (by omega) he
        · rintro ⟨h1, ⟨e, he, hl⟩, h3⟩
          have hin : i ≠ n := by
            rintro rfl; rw [hn] at he; cases he; rw [hl0f] at hl; cases hl
          exact ⟨by omega, ⟨e, he, hl⟩, fun j e2 hij hj => h3 j e2 hij (by omega)⟩

theorem findLoop_eq_none (entries : List ExecutionTraceEntry) (a : Nat) :
    ∀ n, findLoop entries a n = none ↔
      ∀ j e, j < n → entries[j]? = some e → isLoopHead a e = false := by
  intro n
  induction n with
  | zero => simp [findLoop]
  | succ n ih =>
    rw [findLoop]
    cases hn : entries[n]? with
    | none =>
      rw [ih]
      constructor
      · intro h j e hj he
        by_cases hjn : j = n
        · subst hjn; rw [hn] at he; cases he
        · exact h j e (by omega) he
      · intro h j e hj he
        exact h j e (by omega) he
    | some e0 =>
      by_cases hl0 : isLoopHead a e0 = true
      · simp only [hl0, if_true]
        constructor
        · intro h; cases h
        · intro h
          have := h n e0 (by omega) hn
          rw [hl0] at this; cases this
      · simp only [hl0, if_false, Bool.false_eq_true, ih]
        have hl0f : isLoopHead a e0 = false := by simpa using hl0
        constructor
        · intro h j e hj he
          by_cases hjn : j = n
          · subst hjn; rw [hn] at he; cases he; exact hl0f
          · exact h j e (by omega) he
        · intro h j e hj he
          exact h j e (by omega) he

/-- C1: `Tracer::Trace(Instruction, a)` on a stack whose top trace is `top`.
If `i` is the highest index of `top.entries` holding an instruction entry at
`a` or a compiled-block entry entered at `a`, then exactly one trace is
handed to the engine, with the function address of `top`, type Loop and the
entries from index `i` to the end, and `top` keeps its entries up to and
including index `i` (nothing is appended); if no entry qualifies, nothing is
handed over and `Instruction a` is appended to `top`.  The traces below the
top are untouched in both cases. -/
theorem Trace_Instruction_splits_loop (below : List ExecutionTrace) (top : ExecutionTrace)
    (a arg2 : Nat) :
    (∀ i e, top.entries[i]? = some e →
        (e = .Instruction a ∨ ∃ x, e = .CompiledBlock a x) →
        (∀ j e2, i < j → top.entries[j]? = some e2 →
          ¬ (e2 = .Instruction a ∨ ∃ x, e2 = .CompiledBlock a x)) →
        Trace (below ++ [top]) .Instruction a arg2 =
          some (below ++ [{ top with entries := top.entries.take (i + 1) }],
                some { type := some .Loop, function_address := top.function_address,
                       entries := top.entries.drop i })) ∧
    ((∀ e ∈ top.entries, ¬ (e = .Instruction a ∨ ∃ x, e = .CompiledBlock a x)) →
        Trace (below ++ [top]) .Instruction a arg2 =
          some (below ++ [{ top with entries := top.entries ++ [.Instruction a] }], none)) := by
  constructor
  · intro i e hie he hmax
    have hlt : i < top.entries.length := by
      by_contra h
      rw [List.getElem?_eq_none (by omega)] at hie
      cases hie
    have hfind : findLoop top.entries a top.entries.length = some i := by
      rw [findLoop_eq_some]
      refine ⟨hlt, ⟨e, hie, (isLoopHead_iff a e).2 he⟩, fun j e2 hij _ hj => ?_⟩
      have := hmax j e2 hij hj
      rw [← isLoopHead_iff] at this
      simpa using this
    simp [Trace, setBack, hfind]
  · intro hnone
    have hfind : findLoop top.entries a top.entries.length = none := by
      rw [findLoop_eq_none]
      intro j e _ hj
      have := hnone e (List.getElem?_mem hj)
      rw [← isLoopHead_iff] at this
      simpa using this
    simp [Trace, setBack, hfind]

/-- C1, the instance of the specification: after `EnterFunction(0x1000)` the
instruction addresses `0x100, 0x104` are appended, and feeding `0x100` again
hands over exactly the Loop trace `[0x100, 0x104]` and leaves `[0x100]` as
the enclosing trace. -/
theorem Trace_Instruction_splits_loop_witness :
    ((Trace [] .EnterFunction 0x1000 0).bind fun r =>
      (Trace r.1 .Instruction 0x100 0).bind fun r =>
        Trace r.1 .Instruction 0x104 0) =
      some ([] ++ [ExecutionTrace.mk none 0x1000 [.Instruction 0x100, .Instruction 0x104]],
            none) ∧
    Trace ([] ++ [ExecutionTrace.mk none 0x1000 [.Instruction 0x100, .Instruction 0x104]])
        .Instruction 0x100 0 =
      some ([] ++ [ExecutionTrace.mk none 0x1000 [.Instruction 0x100]],
            some (ExecutionTrace.mk (some .Loop) 0x1000
              [.Instruction 0x100, .Instruction 0x104])) :=
  ⟨by decide,
   (Trace_Instruction_splits_loop []
      (ExecutionTrace.mk none 0x1000 [.Instruction 0x100, .Instruction 0x104]) 0x100 0).1
      0 (.Instruction 0x100) rfl (Or.inl rfl) (by
        intro j e2 hj he
        match j, hj, he with
        | 1, _, he => cases he; simp
        | j + 2, _, he => simp at he)⟩

end Tracer

namespace AddressMap

theorem find_insertAt (m : AddressMap) (k v k2 : Nat) :
    find (insertAt m k v) k2 =
      if k2 = k then some (insert v (targets m k)) else find m k2 := by
  induction m with
  | nil =>
    by_cases h : k2 = k
    · subst h; simp [insertAt, find, targets]
    · have h2 : ¬ k = k2 := fun e => h e.symm
      simp [insertAt, find, h, h2]
  | cons p m ih =>
    obtain ⟨k1, s⟩ := p
    by_cases h1 : k1 = k
    · subst h1
      by_cases h : k2 = k1
      · subst h; simp [insertAt, find, targets]
      · have h2 : ¬ k1 = k2 := fun e => h e.symm
        simp [insertAt, find, h, h2]
    · by_cases h : k2 = k
      · subst h
        simp [insertAt, find, targets, h1, ih]
      · by_cases h3 : k1 = k2
        · simp [insertAt, find, h1, h, h3]
        · simp [insertAt, find, h1, h, h3, ih]

theorem targets_insertAt (m : AddressMap) (k v k2 : Nat) :
    targets (insertAt m k v) k2 =
      if k2 = k then insert v (targets m k) else targets m k2 := by
  unfold targets
  rw [find_insertAt]
  by_cases h : k2 = k
  · simp [h, targets]
  · simp [h]

theorem targets_subset_insertAt (m : AddressMap) (k v k2 : Nat) :
    targets m k2 ⊆ targets (insertAt m k v) k2 := by
  rw [targets_insertAt]
  by_cases h : k2 = k
  · subst h; simp
  · simp [h]

theorem keys_insertAt (m : AddressMap) (k v : Nat) :
    keys (insertAt m k v) = insert k (keys m) := by
  induction m with
  | nil => simp [insertAt, keys]
  | cons p m ih =>
    obtain ⟨k1, s⟩ := p
    by_cases h1 : k1 = k
    · subst h1; simp [insertAt, keys]
    · simp only [keys] at ih
      simp [insertAt, keys, h1, ih, Finset.Insert.comm k1 k]

theorem length_le_insertAt (m : AddressMap) (k v : Nat) :
    m.length ≤ (insertAt m k v).length := by
  induction m with
  | nil => simp [insertAt]
  | cons p m ih =>
    obtain ⟨k1, s⟩ := p
    by_cases h1 : k1 = k
    · simp [insertAt, h1]
    · simp [insertAt, h1, ih]

theorem cardSum_le_insertAt (m : AddressMap) (k v : Nat) :
    (m.map fun p => p.2.card).sum ≤ ((insertAt m k v).map fun p => p.2.card).sum := by
  induction m with
  | nil => simp [insertAt]
  | cons p m ih =>
    obtain ⟨k1, s⟩ := p
    by_cases h1 : k1 = k
    · simp only [insertAt, h1, if_true, List.map_cons, List.sum_cons]
      exact Nat.add_le_add_right (Finset.card_le_card (Finset.subset_insert v s)) _
    · simp only [insertAt, h1, if_false, List.map_cons, List.sum_cons]
      exact Nat.add_le_add_left ih _

end AddressMap

theorem UpdateControlFlowGraph_contains (g : ControlFlowGraph) (e : ExecutionTraceEntry)
    (n : Option ExecutionTraceEntry) :
    g.contained (UpdateControlFlowGraph g e n) ∧
      g.GetSize ≤ (UpdateControlFlowGraph g e n).GetSize ∧
      g.edgeCount ≤ (UpdateControlFlowGraph g e n).edgeCount := by
  have hk := AddressMap.keys_insertAt
  have ht := AddressMap.targets_subset_insertAt
  have hl := AddressMap.length_le_insertAt
  have hc := AddressMap.cardSum_le_insertAt
  have hi : ∀ a : Nat, g.instruction_addresses.card ≤ (insert a g.instruction_addresses).card :=
    fun a => Finset.card_le_card (Finset.subset_insert _ _)
  unfold ControlFlowGraph.contained ControlFlowGraph.GetSize ControlFlowGraph.edgeCount
  rcases e with a | a | ⟨a, x⟩
  · simp [UpdateControlFlowGraph]
  · rcases n with _ | (t | q | ⟨q, y⟩)
    · simp only [UpdateControlFlowGraph]
      refine ⟨⟨Finset.subset_insert _ _, ?_, ?_, ?_, ?_⟩, ?_, ?_⟩ <;> simp
      · have := hi a; omega
      · have := hi a; omega
    · simp only [UpdateControlFlowGraph]
      refine ⟨⟨Finset.subset_insert _ _, ?_, ?_, ?_, ?_⟩, ?_, ?_⟩
      · simp
      · rw [hk]; exact Finset.subset_insert _ _
      · simp
      · exact fun k => ht _ _ _ _
      · have := hi a; have := hl g.calls a t; omega
      · have := hi a; have := hc g.calls a t; omega
    · simp only [UpdateControlFlowGraph]
      split
      · refine ⟨⟨Finset.subset_insert _ _, ?_, ?_, ?_, ?_⟩, ?_, ?_⟩
        · rw [hk]; exact Finset.subset_insert _ _
        · simp
        · exact fun k => ht _ _ _ _
        · simp
        · have := hi a; have := hl g.branches a q; dsimp only; omega
        · have := hi a; have := hc g.branches a q; dsimp only; omega
      · refine ⟨⟨Finset.subset_insert _ _, ?_, ?_, ?_, ?_⟩, ?_, ?_⟩ <;> simp
        · have := hi a; omega
        · have := hi a; omega
    · simp only [UpdateControlFlowGraph]
      split
      · refine ⟨⟨Finset.subset_insert _ _, ?_, ?_, ?_, ?_⟩, ?_, ?_⟩
        · rw [hk]; exact Finset.subset_insert _ _
        · simp
        · exact fun k => ht _ _ _ _
        · simp
        · have := hi a; have := hl g.branches a q; dsimp only; omega
        · have := hi a; have := hc g.branches a q; dsimp only; omega
      · refine ⟨⟨Finset.subset_insert _ _, ?_, ?_, ?_, ?_⟩, ?_, ?_⟩ <;> simp
        · have := hi a; omega
        · have := hi a; omega
  · rcases n with _ | (t | q | ⟨q, y⟩)
    · simp [UpdateControlFlowGraph]
    · simp only [UpdateControlFlowGraph]
      refine ⟨⟨Finset.Subset.refl _, ?_, ?_, ?_, ?_⟩, ?_, ?_⟩
      · simp
      · rw [hk]; exact Finset.subset_insert _ _
      · simp
      · exact fun k => ht _ _ _ _
      · have := hl g.calls x t; omega
      · have := hc g.calls x t; omega
    · simp only [UpdateControlFlowGraph]
      refine ⟨⟨Finset.Subset.refl _, ?_, ?_, ?_, ?_⟩, ?_, ?_⟩
      · rw [hk]; exact Finset.subset_insert _ _
      · simp
      · exact fun k => ht _ _ _ _
      · simp
      · have := hl g.branches x q; omega
      · have := hc g.branches x q; omega
    · simp only [UpdateControlFlowGraph]
      refine ⟨⟨Finset.Subset.refl _, ?_, ?_, ?_, ?_⟩, ?_, ?_⟩
      · rw [hk]; exact Finset.subset_insert _ _
      · simp
      · exact fun k => ht _ _ _ _
      · simp
      · have := hl g.branches x q; omega
      · have := hc g.branches x q; omega

theorem ControlFlowGraph.contained_refl (g : ControlFlowGraph) : g.contained g :=
  ⟨Finset.Subset.refl _, Finset.Subset.refl _, Finset.Subset.refl _,
   fun _ => Finset.Subset.refl _, fun _ => Finset.Subset.refl _⟩

theorem ControlFlowGraph.contained_trans {g h k : ControlFlowGraph}
    (h1 : g.contained h) (h2 : h.contained k) : g.contained k :=
  ⟨h1.1.trans h2.1, h1.2.1.trans h2.2.1, h1.2.2.1.trans h2.2.2.1,
   fun a => (h1.2.2.2.1 a).trans (h2.2.2.2.1 a), fun a => (h1.2.2.2.2 a).trans (h2.2.2.2.2 a)⟩

theorem UpdateControlFlowGraph_foldl_contains
    (merges : List (ExecutionTraceEntry × Option ExecutionTraceEntry)) :
    ∀ g : ControlFlowGraph,
      g.contained (merges.foldl (fun c m => UpdateControlFlowGraph c m.1 m.2) g) ∧
      g.GetSize ≤ (merges.foldl (fun c m => UpdateControlFlowGraph c m.1 m.2) g).GetSize ∧
      g.edgeCount ≤ (merges.foldl (fun c m => UpdateControlFlowGraph c m.1 m.2) g).edgeCount := by
  induction merges with
  | nil => intro g; exact ⟨g.contained_refl, le_refl _, le_refl _⟩
  | cons m merges ih =>
    intro g
    obtain ⟨h1, h2, h3⟩ := UpdateControlFlowGraph_contains g m.1 m.2
    obtain ⟨k1, k2, k3⟩ := ih (UpdateControlFlowGraph g m.1 m.2)
    exact ⟨ControlFlowGraph.contained_trans h1 k1, le_trans h2 k2, le_trans h3 k3⟩

/-- C2: CFG monotonicity.  One call `UpdateControlFlowGraph(g, e, n)` only
adds: the instruction addresses, the key sets of the branch and call maps and
the target set under every key are supersets of those before, and the size
of the CFG (number of instruction addresses plus entries of the two maps,
and likewise the count that includes every branch and call target) does not
decrease.  The same holds between a CFG and the result of any sequence of
merges applied to it. -/
theorem UpdateControlFlowGraph_only_adds (g : ControlFlowGraph) (e : ExecutionTraceEntry)
    (n : Option ExecutionTraceEntry)
    (merges : List (ExecutionTraceEntry × Option ExecutionTraceEntry)) :
    (g.instruction_addresses ⊆ (UpdateControlFlowGraph g e n).instruction_addresses ∧
      g.branches.keys ⊆ (UpdateControlFlowGraph g e n).branches.keys ∧
      g.calls.keys ⊆ (UpdateControlFlowGraph g e n).calls.keys ∧
      (∀ k, g.branches.targets k ⊆ (UpdateControlFlowGraph g e n).branches.targets k) ∧
      (∀ k, g.calls.targets k ⊆ (UpdateControlFlowGraph g e n).calls.targets k) ∧
      g.GetSize ≤ (UpdateControlFlowGraph g e n).GetSize ∧
      g.edgeCount ≤ (UpdateControlFlowGraph g e n).edgeCount) ∧
    (g.contained (merges.foldl (fun c m => UpdateControlFlowGraph c m.1 m.2) g) ∧
      g.GetSize ≤ (merges.foldl (fun c m => UpdateControlFlowGraph c m.1 m.2) g).GetSize ∧
      g.edgeCount ≤
        (merges.foldl (fun c m => UpdateControlFlowGraph c m.1 m.2) g).edgeCount) := by
  obtain ⟨⟨h1, h2, h3, h4, h5⟩, h6, h7⟩ := UpdateControlFlowGraph_contains g e n
  exact ⟨⟨h1, h2, h3, h4, h5, h6, h7⟩, UpdateControlFlowGraph_foldl_contains merges g⟩

namespace RecompilationEngine

theorem findOrdinal_append (m : List (Nat × Nat)) (a o x : Nat) :
    findOrdinal (m ++ [(a, o)]) x =
      match findOrdinal m x with
      | some v => some v
      | none => if a = x then some o else none := by
  induction m with
  | nil => simp [findOrdinal]
  | cons p m ih =>
    obtain ⟨a1, o1⟩ := p
    by_cases h : a1 = x
    · simp [findOrdinal, h]
    · simp [findOrdinal, h, ih]

/-- What a successful `AllocateOrdinal` returns, field by field. -/
theorem AllocateOrdinal_spec {capacity : Nat} {s s1 : RecompilationEngine} {a o : Nat}
    {f : Bool} (h : AllocateOrdinal capacity s a f = some (s1, o)) :
    (findOrdinal s.m_address_to_ordinal a = some o ∧ s1 = s) ∨
    (findOrdinal s.m_address_to_ordinal a = none ∧ s.m_next_ordinal < capacity ∧
      o = s.m_next_ordinal ∧ s1 = insertOrdinal (storeDefault s f) a) := by
  unfold AllocateOrdinal at h
  cases hf : findOrdinal s.m_address_to_ordinal a with
  | some v =>
    rw [hf] at h
    simp only [Option.some.injEq, Prod.mk.injEq] at h
    exact Or.inl ⟨by rw [h.2], h.1.symm⟩
  | none =>
    rw [hf] at h
    by_cases hc : s.m_next_ordinal < capacity
    · simp only [hc, if_true, Option.some.injEq, Prod.mk.injEq] at h
      exact Or.inr ⟨rfl, hc, h.2.symm, h.1.symm⟩
    · simp [hc] at h

theorem findOrdinal_AllocateOrdinal {capacity : Nat} {s s1 : RecompilationEngine} {a o : Nat}
    {f : Bool} (h : AllocateOrdinal capacity s a f = some (s1, o)) :
    findOrdinal s1.m_address_to_ordinal a = some o := by
  rcases AllocateOrdinal_spec h with ⟨h1, rfl⟩ | ⟨h1, _, rfl, rfl⟩
  · exact h1
  · simp [insertOrdinal, storeDefault, findOrdinal_append, h1]

theorem findOrdinal_preserved_AllocateOrdinal {capacity : Nat} {s s1 : RecompilationEngine}
    {b o1 : Nat} {f : Bool} (h : AllocateOrdinal capacity s b f = some (s1, o1))
    {a o : Nat} (ha : findOrdinal s.m_address_to_ordinal a = some o) :
    findOrdinal s1.m_address_to_ordinal a = some o := by
  rcases AllocateOrdinal_spec h with ⟨_, rfl⟩ | ⟨_, _, _, rfl⟩
  · exact ha
  · simp [insertOrdinal, storeDefault, findOrdinal_append, ha]

theorem AllocateOrdinal_Log (capacity : Nat) (s : RecompilationEngine) (r : LogRecord)
    (a : Nat) (f : Bool) :
    AllocateOrdinal capacity (s.Log r) a f =
      (AllocateOrdinal capacity s a f).map fun p => (p.1.Log r, p.2) := by
  unfold AllocateOrdinal
  simp only [Log]
  cases findOrdinal s.m_address_to_ordinal a with
  | some v => rfl
  | none =>
    by_cases hc : s.m_next_ordinal < capacity
    · simp [hc, insertOrdinal, storeDefault]
    · simp [hc]

/-- What a successful `CompileBlock` does, field by field, in terms of the
`AllocateOrdinal` it performs on the state before the call. -/
theorem CompileBlock_spec {llvm : Backend} {capacity : Nat} {s s1 : RecompilationEngine}
    {b b1 : BlockEntry} (h : CompileBlock llvm capacity s b = some (s1, b1)) :
    ∃ s2 o, AllocateOrdinal capacity s b.cfg.start_address b.IsFunction = some (s2, o) ∧
      s1.m_next_ordinal = s2.m_next_ordinal ∧
      s1.m_address_to_ordinal = s2.m_address_to_ordinal ∧
      s1.m_executable_lookup = Function.update s2.m_executable_lookup o (.native s.created) ∧
      s1.m_executable_engine = Function.update s2.m_executable_engine o (some s.created) ∧
      s1.m_block_table = s.m_block_table ∧
      s1.m_processed_execution_traces = s.m_processed_execution_traces ∧
      s1.created = s.created + 1 ∧ s1.deleted = s.deleted ∧
      s1.m_log = s.m_log ++ [.Compile b.key, .CFG b.cfg, .Module (b.cfg.start_address, b.revision)]
        ++ (if llvm.verifyFunction (b.cfg.start_address, b.revision) b.cfg
            then [.VerificationFailed (b.cfg.start_address, b.revision)] else []) ∧
      b1 = { b with revision := (b.revision + 1) % 2 ^ 32,
                    last_compiled_cfg_size := b.cfg.GetSize, is_compiled := true } := by
  unfold CompileBlock at h
  simp only [AllocateOrdinal_Log, Option.map_map] at h
  cases ha : AllocateOrdinal capacity s b.cfg.start_address b.IsFunction with
  | none => rw [ha] at h; simp at h
  | some p =>
    obtain ⟨s2, o⟩ := p
    rw [ha] at h
    simp only [Option.map_some', Function.comp, Option.some.injEq, Prod.mk.injEq] at h
    obtain ⟨h1, h2⟩ := h
    refine ⟨s2, o, rfl, ?_⟩
    have hs2 : s2.created = s.created ∧ s2.deleted = s.deleted ∧ s2.m_log = s.m_log ∧
        s2.m_block_table = s.m_block_table ∧
        s2.m_processed_execution_traces = s.m_processed_execution_traces := by
      rcases AllocateOrdinal_spec ha with ⟨_, rfl⟩ | ⟨_, _, _, rfl⟩
      · exact ⟨rfl, rfl, rfl, rfl, rfl⟩
      · exact ⟨rfl, rfl, rfl, rfl, rfl⟩
    obtain ⟨c1, c2, c3, c4, c5⟩ := hs2
    subst h1 h2
    by_cases hv : llvm.verifyFunction (b.cfg.start_address, b.revision) b.cfg = true
    · simp [Compiler.Compile, Log, hv, c1, c2, c3, c4, c5]
    · simp [Compiler.Compile, Log, hv, c1, c2, c3, c4, c5]

end RecompilationEngine

namespace RecompilationEngine

theorem slotsSet_fresh : slotsSet fresh := by
  intro a o h
  simp [fresh, findOrdinal] at h

theorem slotsSet_AllocateOrdinal {capacity : Nat} {s s1 : RecompilationEngine} {b o1 : Nat}
    {f : Bool} (h : AllocateOrdinal capacity s b f = some (s1, o1)) (hs : slotsSet s) :
    slotsSet s1 := by
  rcases AllocateOrdinal_spec h with ⟨_, rfl⟩ | ⟨hb, _, _, rfl⟩
  · exact hs
  · intro a o ha
    simp only [insertOrdinal, storeDefault, findOrdinal_append] at ha
    simp only [insertOrdinal, storeDefault]
    by_cases ho : o = s.m_next_ordinal
    · subst ho
      rw [Function.update_same]
      cases f <;> simp
    · rw [Function.update_noteq ho]
      cases hfa : findOrdinal s.m_address_to_ordinal a with
      | some v =>
        rw [hfa] at ha
        simp only [Option.some.injEq] at ha
        subst ha
        exact hs a v hfa
      | none =>
        rw [hfa] at ha
        by_cases hba : b = a
        · simp only [hba, if_true, Option.some.injEq] at ha
          exact absurd ha.symm ho
        · simp [hba] at ha

theorem slotsSet_call {llvm : Backend} {capacity : Nat} {s s1 : RecompilationEngine}
    {c : EngineCall} (h : call llvm capacity s c = some s1) (hs : slotsSet s) : slotsSet s1 := by
  cases c with
  | AllocateOrdinal a f =>
    simp only [call, Option.map_eq_some', Prod.exists, exists_and_right, exists_eq_right] at h
    obtain ⟨o, h⟩ := h
    exact slotsSet_AllocateOrdinal h hs
  | CompileBlock b =>
    simp only [call, Option.map_eq_some', Prod.exists, exists_and_right, exists_eq_right] at h
    obtain ⟨b1, h⟩ := h
    obtain ⟨s2, o, ha, _, hm, hl, _⟩ := CompileBlock_spec h
    have h2 := slotsSet_AllocateOrdinal ha hs
    intro a o1 hf
    rw [hm] at hf
    rw [hl]
    by_cases ho : o1 = o
    · subst ho; rw [Function.update_same]; simp
    · rw [Function.update_noteq ho]; exact h2 a o1 hf
  | FreeExecutable o =>
    simp only [call, Option.some.injEq] at h
    subst h
    exact hs

theorem slotsSet_calls {llvm : Backend} {capacity : Nat} (l : List EngineCall) :
    ∀ {s s1 : RecompilationEngine}, calls llvm capacity s l = some s1 → slotsSet s →
      slotsSet s1 := by
  induction l with
  | nil =>
    intro s s1 h hs
    simp only [calls, Option.some.injEq] at h
    subst h; exact hs
  | cons c l ih =>
    intro s s1 h hs
    simp only [calls] at h
    cases hc : call llvm capacity s c with
    | none => rw [hc] at h; cases h
    | some s2 =>
      rw [hc] at h
      exact ih h (slotsSet_call hc hs)

theorem findOrdinal_call {llvm : Backend} {capacity : Nat} {s s1 : RecompilationEngine}
    {c : EngineCall} (h : call llvm capacity s c = some s1) {a o : Nat}
    (ha : findOrdinal s.m_address_to_ordinal a = some o) :
    findOrdinal s1.m_address_to_ordinal a = some o := by
  cases c with
  | AllocateOrdinal b f =>
    simp only [call, Option.map_eq_some', Prod.exists, exists_and_right, exists_eq_right] at h
    obtain ⟨o1, h⟩ := h
    exact findOrdinal_preserved_AllocateOrdinal h ha
  | CompileBlock b =>
    simp only [call, Option.map_eq_some', Prod.exists, exists_and_right, exists_eq_right] at h
    obtain ⟨b1, h⟩ := h
    obtain ⟨s2, o1, hal, _, hm, _⟩ := CompileBlock_spec h
    rw [hm]
    exact findOrdinal_preserved_AllocateOrdinal hal ha
  | FreeExecutable o1 =>
    simp only [call, Option.some.injEq] at h
    subst h
    exact ha

theorem findOrdinal_calls {llvm : Backend} {capacity : Nat} (l : List EngineCall) :
    ∀ {s s1 : RecompilationEngine}, calls llvm capacity s l = some s1 →
      ∀ {a o : Nat}, findOrdinal s.m_address_to_ordinal a = some o →
        findOrdinal s1.m_address_to_ordinal a = some o := by
  induction l with
  | nil =>
    intro s s1 h a o ha
    simp only [calls, Option.some.injEq] at h
    subst h; exact ha
  | cons c l ih =>
    intro s s1 h a o ha
    simp only [calls] at h
    cases hc : call llvm capacity s c with
    | none => rw [hc] at h; cases h
    | some s2 =>
      rw [hc] at h
      exact ih h (findOrdinal_call hc ha)

/-- C3: ordinal stability.  If `AllocateOrdinal(a, f1)` returned ordinal `o`
and any calls of `AllocateOrdinal`, `CompileBlock` and `FreeExecutable`
followed, then `AllocateOrdinal(a, f2)` returns `o` again and leaves the
whole engine state as it was (counter, address map and table included); and
when the engine started from the fresh state, slot `o` of the table is not
the unset value. -/
theorem AllocateOrdinal_stable (llvm : Backend) (capacity : Nat)
    (before between : List EngineCall) (s s1 s2 : RecompilationEngine) (a o : Nat)
    (f1 f2 : Bool)
    (h1 : AllocateOrdinal capacity s a f1 = some (s1, o))
    (h2 : calls llvm capacity s1 between = some s2) :
    AllocateOrdinal capacity s2 a f2 = some (s2, o) ∧
    (calls llvm capacity fresh before = some s → s2.m_executable_lookup o ≠ .unset) := by
  have hf : findOrdinal s2.m_address_to_ordinal a = some o :=
    findOrdinal_calls between h2 (findOrdinal_AllocateOrdinal h1)
  refine ⟨by simp [AllocateOrdinal, hf], fun hs => ?_⟩
  have i0 : slotsSet s := slotsSet_calls before hs slotsSet_fresh
  have i1 : slotsSet s1 := slotsSet_AllocateOrdinal h1 i0
  exact slotsSet_calls between h2 i1 a o hf

/-- C3 at a concrete input: on a fresh engine with four slots, address
`0x1000` is allocated as a function, `0x2000` is allocated in between, and
the second request for `0x1000` (as a block) returns ordinal 0 again. -/
theorem AllocateOrdinal_stable_witness :
    AllocateOrdinal 4
        (insertOrdinal (storeDefault (insertOrdinal (storeDefault fresh true) 0x1000) false)
          0x2000) 0x1000 false =
      some (insertOrdinal (storeDefault (insertOrdinal (storeDefault fresh true) 0x1000) false)
          0x2000, 0) ∧
    (insertOrdinal (storeDefault (insertOrdinal (storeDefault fresh true) 0x1000) false)
          0x2000).m_executable_lookup 0 ≠ .unset :=
  have h := AllocateOrdinal_stable ⟨fun _ _ => false⟩ 4 [] [.AllocateOrdinal 0x2000 false]
    fresh (insertOrdinal (storeDefault fresh true) 0x1000)
    (insertOrdinal (storeDefault (insertOrdinal (storeDefault fresh true) 0x1000) false) 0x2000)
    0x1000 0 true false rfl rfl
  ⟨h.1, h.2 rfl⟩

end RecompilationEngine

namespace RecompilationEngine

/-- C5: no hole in the ordinal table.  On the first `AllocateOrdinal(a,
is_function)` for an address (with room in the table) the state after the
store of line 290 already holds the default handler in the new slot
(`ExecuteFunction` for a function, `ExecuteTillReturn` otherwise) while the
address map is still the old one and does not know `a`; the insertion that
follows exposes the ordinal and leaves the slot as stored.  Hence in every
state reached from the fresh engine by `AllocateOrdinal`, `CompileBlock` and
`FreeExecutable`, an address with `GetOrdinal(a) != 0xFFFFFFFF` has a set
handler in `GetExecutable(GetOrdinal(a))`: a default handler or a published
entry point, not an unset slot. -/
theorem AllocateOrdinal_no_hole (llvm : Backend) (capacity : Nat) :
    (∀ (s : RecompilationEngine) (a : Nat) (is_function : Bool),
      findOrdinal s.m_address_to_ordinal a = none → s.m_next_ordinal < capacity →
        (storeDefault s is_function).m_executable_lookup s.m_next_ordinal =
            (if is_function then .ExecuteFunction else .ExecuteTillReturn) ∧
        (storeDefault s is_function).m_address_to_ordinal = s.m_address_to_ordinal ∧
        GetOrdinal (storeDefault s is_function) a = 0xFFFFFFFF ∧
        AllocateOrdinal capacity s a is_function =
          some (insertOrdinal (storeDefault s is_function) a, s.m_next_ordinal) ∧
        findOrdinal (insertOrdinal (storeDefault s is_function) a).m_address_to_ordinal a =
          some s.m_next_ordinal ∧
        GetExecutable (insertOrdinal (storeDefault s is_function) a) s.m_next_ordinal =
            (if is_function then .ExecuteFunction else .ExecuteTillReturn)) ∧
    (∀ (l : List EngineCall) (s : RecompilationEngine),
      calls llvm capacity fresh l = some s →
        ∀ a, GetOrdinal s a ≠ 0xFFFFFFFF →
          GetExecutable s (GetOrdinal s a) ≠ .unset ∧
          (GetExecutable s (GetOrdinal s a) = .ExecuteFunction ∨
            GetExecutable s (GetOrdinal s a) = .ExecuteTillReturn ∨
            ∃ k, GetExecutable s (GetOrdinal s a) = .native k)) := by
  constructor
  · intro s a f hnone hlt
    refine ⟨?_, rfl, ?_, ?_, ?_, ?_⟩
    · simp [storeDefault]
    · simp [GetOrdinal, storeDefault, hnone]
    · simp [AllocateOrdinal, hnone, hlt]
    · simp [insertOrdinal, storeDefault, findOrdinal_append, hnone]
    · simp [GetExecutable, insertOrdinal, storeDefault]
  · intro l s hs a ha
    have hinv : slotsSet s := slotsSet_calls l hs slotsSet_fresh
    have hset : GetExecutable s (GetOrdinal s a) ≠ .unset := by
      unfold GetOrdinal at ha ⊢
      cases hf : findOrdinal s.m_address_to_ordinal a with
      | none => rw [hf] at ha; exact absurd rfl ha
      | some o => exact hinv a o hf
    refine ⟨hset, ?_⟩
    cases hx : GetExecutable s (GetOrdinal s a) with
    | unset => exact absurd hx hset
    | ExecuteFunction => exact Or.inl rfl
    | ExecuteTillReturn => exact Or.inr (Or.inl rfl)
    | native k => exact Or.inr (Or.inr ⟨k, rfl⟩)

/-- C5 at a concrete input: after allocating `0x1000` as a function and
compiling the block `(0x2000, 0x1000)` on a fresh engine with four slots,
address `0x1000` has ordinal 0 with the default handler `ExecuteFunction`
and address `0x2000` has ordinal 1 with a published entry point. -/
theorem AllocateOrdinal_no_hole_witness :
    ∃ s, calls ⟨fun _ _ => false⟩ 4 fresh
        [.AllocateOrdinal 0x1000 true, .CompileBlock (BlockEntry.new 0x2000 0x1000)] = some s ∧
      GetOrdinal s 0x1000 = 0 ∧ GetExecutable s 0 = .ExecuteFunction ∧
      GetOrdinal s 0x2000 = 1 ∧ GetExecutable s 1 = .native 0 ∧
      GetExecutable s (GetOrdinal s 0x1000) ≠ .unset ∧
      GetExecutable s (GetOrdinal s 0x2000) ≠ .unset :=
  ⟨_, rfl, by decide, by decide, by decide, by decide,
    ((AllocateOrdinal_no_hole ⟨fun _ _ => false⟩ 4).2
      [.AllocateOrdinal 0x1000 true, .CompileBlock (BlockEntry.new 0x2000 0x1000)] _ rfl
      0x1000 (by decide)).1,
    ((AllocateOrdinal_no_hole ⟨fun _ _ => false⟩ 4).2
      [.AllocateOrdinal 0x1000 true, .CompileBlock (BlockEntry.new 0x2000 0x1000)] _ rfl
      0x2000 (by decide)).1⟩

end RecompilationEngine

namespace RecompilationEngine

theorem findOrdinal_zip_eq_none (a : Nat) :
    ∀ (acc : List Nat) (st : Nat),
      findOrdinal (acc.zip (List.range' st acc.length)) a = none ↔ a ∉ acc := by
  intro acc
  induction acc with
  | nil => intro st; simp [findOrdinal]
  | cons x xs ih =>
    intro st
    rw [List.length_cons, List.range'_succ, List.zip_cons_cons, findOrdinal]
    by_cases hx : x = a
    · simp [hx]
    · have hx2 : ¬ a = x := fun e => hx e.symm
      rw [if_neg hx, ih]
      simp [hx2]

theorem findOrdinal_zip_eq_some (a : Nat) :
    ∀ (acc : List Nat) (st k : Nat), acc.Nodup →
      (findOrdinal (acc.zip (List.range' st acc.length)) a = some k ↔
        st ≤ k ∧ acc[k - st]? = some a) := by
  intro acc
  induction acc with
  | nil => intro st k _; simp [findOrdinal]
  | cons x xs ih =>
    intro st k hnd
    have hx_notin : x ∉ xs := (List.nodup_cons.1 hnd).1
    have hnd2 : xs.Nodup := (List.nodup_cons.1 hnd).2
    rw [List.length_cons, List.range'_succ, List.zip_cons_cons, findOrdinal]
    by_cases hx : x = a
    · subst hx
      simp only [if_true, Option.some.injEq]
      constructor
      · rintro rfl; simp
      · rintro ⟨h1, h2⟩
        by_contra hne
        have hk : k - st = (k - st - 1) + 1 := by omega
        rw [hk, List.getElem?_cons_succ] at h2
        exact hx_notin (List.getElem?_mem h2)
    · rw [if_neg hx, ih (st + 1) k hnd2]
      constructor
      · rintro ⟨h1, h2⟩
        have hk : k - st = (k - (st + 1)) + 1 := by omega
        exact ⟨by omega, by rw [hk, List.getElem?_cons_succ]; exact h2⟩
      · rintro ⟨h1, h2⟩
        by_cases hks : k = st
        · subst hks
          simp only [Nat.sub_self, List.getElem?_cons_zero, Option.some.injEq] at h2
          exact absurd h2 hx
        · have hk : k - st = (k - (st + 1)) + 1 := by omega
          rw [hk, List.getElem?_cons_succ] at h2
          exact ⟨by omega, h2⟩

theorem ordInv_fresh : ordInv [] fresh := by
  simp [ordInv, fresh]

theorem ordInv_AllocateOrdinal (capacity : Nat) {acc : List Nat} {s : RecompilationEngine}
    (hs : ordInv acc s) (a : Nat) (f : Bool) :
    (a ∈ acc → ∃ o, AllocateOrdinal capacity s a f = some (s, o)) ∧
    (a ∉ acc → acc.length < capacity →
      ∃ s1 o, AllocateOrdinal capacity s a f = some (s1, o) ∧ ordInv (acc ++ [a]) s1) ∧
    (a ∉ acc → capacity ≤ acc.length → AllocateOrdinal capacity s a f = none) := by
  obtain ⟨hm, hn, hnd⟩ := hs
  refine ⟨fun hin => ?_, fun hnot hlt => ?_, fun hnot hge => ?_⟩
  · cases hf : findOrdinal s.m_address_to_ordinal a with
    | none =>
      rw [hm, findOrdinal_zip_eq_none] at hf
      exact absurd hin hf
    | some o => exact ⟨o, by simp [AllocateOrdinal, hf]⟩
  · have hf : findOrdinal s.m_address_to_ordinal a = none := by
      rw [hm, findOrdinal_zip_eq_none]; exact hnot
    refine ⟨insertOrdinal (storeDefault s f) a, s.m_next_ordinal,
      by simp [AllocateOrdinal, hf, hn, hlt], ?_, ?_, ?_⟩
    · simp only [insertOrdinal, storeDefault, hm, hn, List.length_append, List.length_singleton,
        List.range'_concat, Nat.zero_add, Nat.one_mul]
      rw [List.zip_append (by simp)]
      simp
    · simp [insertOrdinal, storeDefault, hn]
    · exact List.Nodup.append hnd (List.nodup_singleton a) (by simpa using hnot)
  · have hf : findOrdinal s.m_address_to_ordinal a = none := by
      rw [hm, findOrdinal_zip_eq_none]; exact hnot
    have : ¬ s.m_next_ordinal < capacity := by omega
    simp [AllocateOrdinal, hf, this]

theorem CompileBlock_of_AllocateOrdinal (llvm : Backend) (capacity : Nat)
    (s : RecompilationEngine) (b : BlockEntry) :
    (AllocateOrdinal capacity s b.cfg.start_address b.IsFunction = none →
      CompileBlock llvm capacity s b = none) ∧
    (∀ s2 o, AllocateOrdinal capacity s b.cfg.start_address b.IsFunction = some (s2, o) →
      ∃ s1 b1, CompileBlock llvm capacity s b = some (s1, b1)) := by
  constructor
  · intro h
    simp [CompileBlock, AllocateOrdinal_Log, h]
  · intro s2 o h
    simp [CompileBlock, AllocateOrdinal_Log, h]

theorem ordInv_call (llvm : Backend) (capacity : Nat) {acc : List Nat}
    {s : RecompilationEngine} (hs : ordInv acc s) (c : EngineCall) :
    (c.address = none → ∃ s1, call llvm capacity s c = some s1 ∧ ordInv acc s1) ∧
    (∀ a, c.address = some a → a ∈ acc →
      ∃ s1, call llvm capacity s c = some s1 ∧ ordInv acc s1) ∧
    (∀ a, c.address = some a → a ∉ acc → acc.length < capacity →
      ∃ s1, call llvm capacity s c = some s1 ∧ ordInv (acc ++ [a]) s1) ∧
    (∀ a, c.address = some a → a ∉ acc → capacity ≤ acc.length →
      call llvm capacity s c = none) := by
  cases c with
  | FreeExecutable o =>
    refine ⟨fun _ => ⟨_, rfl, hs⟩, ?_, ?_, ?_⟩ <;> intro a h <;> cases h
  | AllocateOrdinal a0 f =>
    obtain ⟨k1, k2, k3⟩ := ordInv_AllocateOrdinal capacity hs a0 f
    refine ⟨fun h => by simp [EngineCall.address] at h, ?_, ?_, ?_⟩
    · intro a h hin
      cases h
      obtain ⟨o, ho⟩ := k1 hin
      exact ⟨s, by simp [call, ho], hs⟩
    · intro a h hnot hlt
      cases h
      obtain ⟨s1, o, ho, hinv⟩ := k2 hnot hlt
      exact ⟨s1, by simp [call, ho], hinv⟩
    · intro a h hnot hge
      cases h
      simp [call, k3 hnot hge]
  | CompileBlock b =>
    obtain ⟨k1, k2, k3⟩ :=
      ordInv_AllocateOrdinal capacity hs b.cfg.start_address b.IsFunction
    obtain ⟨c1, c2⟩ := CompileBlock_of_AllocateOrdinal llvm capacity s b
    refine ⟨fun h => by simp [EngineCall.address] at h, ?_, ?_, ?_⟩
    · intro a h hin
      cases h
      obtain ⟨o, ho⟩ := k1 hin
      obtain ⟨s1, b1, hc⟩ := c2 _ _ ho
      obtain ⟨s2, o2, ha2, e1, e2, _⟩ := CompileBlock_spec hc
      rw [ho] at ha2
      cases ha2
      exact ⟨s1, by simp [call, hc], by
        obtain ⟨i1, i2, i3⟩ := hs
        exact ⟨by rw [e2, i1], by rw [e1, i2], i3⟩⟩
    · intro a h hnot hlt
      cases h
      obtain ⟨s3, o, ho, hinv⟩ := k2 hnot hlt
      obtain ⟨s1, b1, hc⟩ := c2 _ _ ho
      obtain ⟨s2, o2, ha2, e1, e2, _⟩ := CompileBlock_spec hc
      rw [ho] at ha2
      cases ha2
      exact ⟨s1, by simp [call, hc], by
        obtain ⟨i1, i2, i3⟩ := hinv
        exact ⟨by rw [e2, i1], by rw [e1, i2], i3⟩⟩
    · intro a h hnot hge
      cases h
      simp [call, c1 (k3 hnot hge)]

theorem allocatedFrom_length_le (l : List EngineCall) :
    ∀ acc : List Nat, acc.length ≤ (allocatedFrom acc l).length := by
  induction l with
  | nil => intro acc; simp [allocatedFrom]
  | cons c l ih =>
    intro acc
    simp only [allocatedFrom]
    cases hc : c.address with
    | none => exact ih acc
    | some a =>
      by_cases hin : a ∈ acc
      · simp only [hin, if_true]; exact ih acc
      · simp only [hin, if_false]
        have := ih (acc ++ [a])
        simp only [List.length_append, List.length_singleton] at this
        omega

theorem ordInv_calls (llvm : Backend) (capacity : Nat) (l : List EngineCall) :
    ∀ (acc : List Nat) (s : RecompilationEngine), ordInv acc s → acc.length ≤ capacity →
      ((allocatedFrom acc l).length ≤ capacity →
        ∃ s1, calls llvm capacity s l = some s1 ∧ ordInv (allocatedFrom acc l) s1) ∧
      (capacity < (allocatedFrom acc l).length → calls llvm capacity s l = none) := by
  induction l with
  | nil =>
    intro acc s hs hcap
    exact ⟨fun _ => ⟨s, rfl, hs⟩, fun h => by simp only [allocatedFrom] at h; omega⟩
  | cons c l ih =>
    intro acc s hs hcap
    obtain ⟨k0, k1, k2, k3⟩ := ordInv_call llvm capacity hs c
    simp only [allocatedFrom, calls]
    cases hc : c.address with
    | none =>
      obtain ⟨s1, h1, i1⟩ := k0 hc
      simp only [h1]
      exact ih acc s1 i1 hcap
    | some a =>
      by_cases hin : a ∈ acc
      · obtain ⟨s1, h1, i1⟩ := k1 a hc hin
        simp only [hin, if_true, h1]
        exact ih acc s1 i1 hcap
      · simp only [hin, if_false]
        by_cases hlt : acc.length < capacity
        · obtain ⟨s1, h1, i1⟩ := k2 a hc hin hlt
          simp only [h1]
          exact ih (acc ++ [a]) s1 i1 (by simp; omega)
        · have hnone := k3 a hc hin (by omega)
          simp only [hnone]
          refine ⟨fun hle => ?_, fun _ => trivial⟩
          have := allocatedFrom_length_le l (acc ++ [a])
          simp only [List.length_append, List.length_singleton] at this
          omega

end RecompilationEngine

namespace RecompilationEngine

/-- C4: ordinals are assigned once per distinct address, in order, and never
reused.  Let `allocated l` be the distinct addresses for which the calls `l`
(of `AllocateOrdinal`, `CompileBlock`, `FreeExecutable`) request an ordinal,
in the order of first request.  If they are no more than the capacity, the
calls succeed on the fresh engine and in the resulting state: the counter is
their number; the address at position `k` has ordinal `k` and nothing else
has (so the map is injective and its range is exactly the ordinals below the
counter); every ordinal returned by a further `AllocateOrdinal` is below the
capacity; a further `AllocateOrdinal` of an unknown address on a full table
fails its assertion; and `FreeExecutable` leaves map and counter alone.  If
they are more than the capacity, the sequence of calls fails an assertion. -/
theorem ordinals_assigned_in_order (llvm : Backend) (capacity : Nat) (l : List EngineCall) :
    ((allocated l).length ≤ capacity →
      ∃ s, calls llvm capacity fresh l = some s ∧
        s.m_next_ordinal = (allocated l).length ∧
        (∀ k a, (allocated l)[k]? = some a ↔ findOrdinal s.m_address_to_ordinal a = some k) ∧
        (∀ k a, (allocated l)[k]? = some a → GetOrdinal s a = k) ∧
        (∀ a b o, findOrdinal s.m_address_to_ordinal a = some o →
          findOrdinal s.m_address_to_ordinal b = some o → a = b) ∧
        (∀ o, o < s.m_next_ordinal ↔ ∃ a, findOrdinal s.m_address_to_ordinal a = some o) ∧
        (∀ a f s1 o, AllocateOrdinal capacity s a f = some (s1, o) → o < capacity) ∧
        (∀ a f, findOrdinal s.m_address_to_ordinal a = none → s.m_next_ordinal = capacity →
          AllocateOrdinal capacity s a f = none) ∧
        (∀ o, (FreeExecutable s o).m_address_to_ordinal = s.m_address_to_ordinal ∧
          (FreeExecutable s o).m_next_ordinal = s.m_next_ordinal)) ∧
    (capacity < (allocated l).length → calls llvm capacity fresh l = none) := by
  obtain ⟨hok, hfail⟩ :=
    ordInv_calls llvm capacity l [] fresh ordInv_fresh (Nat.zero_le capacity)
  refine ⟨fun hle => ?_, hfail⟩
  obtain ⟨s, hs, hm, hn, hnd⟩ := hok hle
  have hiff : ∀ k a, (allocated l)[k]? = some a ↔
      findOrdinal s.m_address_to_ordinal a = some k := by
    intro k a
    rw [hm]
    have := findOrdinal_zip_eq_some a (allocatedFrom [] l) 0 k hnd
    simp only [Nat.zero_le, true_and, Nat.sub_zero] at this
    exact this.symm
  have hlt : ∀ a o, findOrdinal s.m_address_to_ordinal a = some o → o < s.m_next_ordinal := by
    intro a o h
    rw [← hiff] at h
    rw [hn]
    by_contra hge
    rw [List.getElem?_eq_none (by unfold allocated at *; omega)] at h
    cases h
  refine ⟨s, hs, hn, hiff, ?_, ?_, ?_, ?_, ?_, ?_⟩
  · intro k a h
    simp [GetOrdinal, (hiff k a).1 h]
  · intro a b o ha hb
    rw [← hiff] at ha hb
    rw [ha] at hb
    exact Option.some.inj hb
  · intro o
    constructor
    · intro ho
      rw [hn] at ho
      exact ⟨(allocated l)[o], (hiff o _).1 (List.getElem?_eq_getElem ho)⟩
    · rintro ⟨a, ha⟩
      exact hlt a o ha
  · intro a f s1 o h
    rcases AllocateOrdinal_spec h with ⟨h1, _⟩ | ⟨_, h2, rfl, _⟩
    · have := hlt a o h1
      unfold allocated at hle
      omega
    · exact h2
  · intro a f h1 h2
    simp [AllocateOrdinal, h1, h2]
  · intro o
    exact ⟨rfl, rfl⟩

/-- C4 at a concrete input: on a fresh engine with two slots, allocating
`0x1000`, compiling the block `(0x2000, 0x1000)`, freeing ordinal 0 and
allocating `0x1000` again gives `0x1000` ordinal 0 and `0x2000` ordinal 1;
the table is then full and a third address fails the assertion. -/
theorem ordinals_assigned_in_order_witness :
    ∃ s, calls ⟨fun _ _ => false⟩ 2 fresh
        [.AllocateOrdinal 0x1000 true, .CompileBlock (BlockEntry.new 0x2000 0x1000),
         .FreeExecutable 0, .AllocateOrdinal 0x1000 false] = some s ∧
      s.m_next_ordinal = 2 ∧ GetOrdinal s 0x1000 = 0 ∧ GetOrdinal s 0x2000 = 1 ∧
      AllocateOrdinal 2 s 0x3000 true = none :=
  match (ordinals_assigned_in_order ⟨fun _ _ => false⟩ 2
      [.AllocateOrdinal 0x1000 true, .CompileBlock (BlockEntry.new 0x2000 0x1000),
       .FreeExecutable 0, .AllocateOrdinal 0x1000 false]).1 (by decide) with
  | ⟨s, hs, hn, hiff, hget, _, _, _, hfull, _⟩ =>
    ⟨s, hs, hn, hget 0 0x1000 (by decide), hget 1 0x2000 (by decide),
      hfull 0x3000 true (by
        cases h : findOrdinal s.m_address_to_ordinal 0x3000 with
        | none => rfl
        | some k =>
          have h2 := (hiff k 0x3000).2 h
          have : k < 2 := by
            by_contra hk
            rw [List.getElem?_eq_none (by
              have : (allocated
                [.AllocateOrdinal 0x1000 true, .CompileBlock (BlockEntry.new 0x2000 0x1000),
                 .FreeExecutable 0, .AllocateOrdinal 0x1000 false]).length = 2 := by decide
              omega)] at h2
            cases h2
          interval_cases k
          · revert h2; decide
          · revert h2; decide) hn⟩

end RecompilationEngine

namespace RecompilationEngine

theorem scanInv_scanBlock {seen : List BlockEntry} {acc : Option BlockEntry × Nat}
    (h : scanInv seen acc) (block : BlockEntry) :
    scanInv (seen ++ [block]) (scanBlock acc block) := by
  obtain ⟨h1, h2, h3⟩ := h
  unfold scanBlock
  by_cases hc : (block.IsFunction && block.is_compiled) = true
  · have hc2 : block.IsFunction = true ∧ block.is_compiled = true := by simpa using hc
    rw [if_pos hc]
    by_cases hd : growth block > acc.2
    · simp only [hd, if_true]
      refine ⟨?_, ?_, ?_⟩
      · intro b hb
        simp only [Option.some.injEq] at hb
        subst hb
        exact ⟨by simp, hc2.1, hc2.2, rfl, by omega⟩
      · intro hn; cases hn
      · intro b hb hf hcomp
        rcases List.mem_append.1 hb with hb | hb
        · have := h3 b hb hf hcomp
          show growth b ≤ growth block
          omega
        · simp only [List.mem_singleton] at hb
          subst hb
          exact le_refl _
    · simp only [hd, if_false]
      refine ⟨?_, h2, ?_⟩
      · intro b hb
        obtain ⟨k1, k2⟩ := h1 b hb
        exact ⟨List.mem_append_left _ k1, k2⟩
      · intro b hb hf hcomp
        rcases List.mem_append.1 hb with hb | hb
        · exact h3 b hb hf hcomp
        · simp only [List.mem_singleton] at hb
          subst hb
          omega
  · rw [if_neg hc]
    refine ⟨?_, h2, ?_⟩
    · intro b hb
      obtain ⟨k1, k2⟩ := h1 b hb
      exact ⟨List.mem_append_left _ k1, k2⟩
    · intro b hb hf hcomp
      rcases List.mem_append.1 hb with hb | hb
      · exact h3 b hb hf hcomp
      · simp only [List.mem_singleton] at hb
        subst hb
        rw [hf, hcomp] at hc
        exact absurd rfl hc

theorem scanInv_foldl (l : List BlockEntry) :
    ∀ (seen : List BlockEntry) (acc : Option BlockEntry × Nat), scanInv seen acc →
      scanInv (seen ++ l) (l.foldl scanBlock acc) := by
  induction l with
  | nil => intro seen acc h; simpa using h
  | cons b l ih =>
    intro seen acc h
    have := ih (seen ++ [b]) (scanBlock acc b) (scanInv_scanBlock h b)
    simpa using this

theorem scanInv_idle (table : List BlockEntry) :
    scanInv table (table.foldl scanBlock (none, 0)) := by
  have h0 : scanInv [] ((none : Option BlockEntry), 0) := by
    refine ⟨?_, ?_, ?_⟩
    · intro b hb; simp at hb
    · intro _; rfl
    · intro b hb; simp at hb
  simpa using scanInv_foldl table [] (none, 0) h0

/-- C7: idle recompilation selection.  For every registry, the candidate left
by the scan of `Task` is an entry of the registry that is a function entry,
is compiled, and whose growth `cfg.GetSize() - last_compiled_cfg_size` is
positive and at least the growth of every compiled function entry; there is
no candidate exactly when every compiled function entry has growth 0, and
then the idle iteration leaves the engine unchanged; otherwise the idle
iteration is `CompileBlock` on the candidate.  The growth is the plain
difference whenever the size at the last compile does not exceed the size. -/
theorem idle_scan_picks_largest_growth (llvm : Backend) (capacity : Nat)
    (s : RecompilationEngine) :
    (∀ b, idleCandidate s.m_block_table = some b →
      b ∈ s.m_block_table ∧ b.IsFunction = true ∧ b.is_compiled = true ∧ 0 < growth b ∧
      (∀ b2 ∈ s.m_block_table, b2.IsFunction = true → b2.is_compiled = true →
        growth b2 ≤ growth b) ∧
      idleRecompile llvm capacity s =
        (CompileBlock llvm capacity (s.Log (.Recompiling b.key)) b).map fun r =>
          { r.1 with m_block_table := modifyBlock (fun _ => r.2) r.1.m_block_table b.key }) ∧
    (idleCandidate s.m_block_table = none ↔
      ∀ b ∈ s.m_block_table, b.IsFunction = true → b.is_compiled = true → growth b = 0) ∧
    (idleCandidate s.m_block_table = none → idleRecompile llvm capacity s = some s) ∧
    (∀ b : BlockEntry, b.last_compiled_cfg_size ≤ b.cfg.GetSize → b.cfg.GetSize < 2 ^ 64 →
      growth b = b.cfg.GetSize - b.last_compiled_cfg_size) := by
  obtain ⟨h1, h2, h3⟩ := scanInv_idle s.m_block_table
  refine ⟨?_, ?_, ?_, ?_⟩
  · intro b hb
    obtain ⟨k1, k2, k3, k4, k5⟩ := h1 b hb
    refine ⟨k1, k2, k3, by omega, ?_, ?_⟩
    · intro b2 hb2 hf hc
      have := h3 b2 hb2 hf hc
      omega
    · unfold idleRecompile
      rw [hb]
      cases hcb : CompileBlock llvm capacity (s.Log (.Recompiling b.key)) b with
      | none => simp [hcb]
      | some r => obtain ⟨s1, b1⟩ := r; simp [hcb]
  · constructor
    · intro hn b hb hf hc
      have := h3 b hb hf hc
      have := h2 hn
      omega
    · intro hall
      cases hcand : idleCandidate s.m_block_table with
      | none => rfl
      | some b =>
        obtain ⟨k1, k2, k3, k4, k5⟩ := h1 b hcand
        have := hall b k1 k2 k3
        omega
  · intro hn
    unfold idleRecompile
    rw [hn]
  · intro b hle hlt
    unfold growth size_t_sub
    have h64 : (2 : Nat) ^ 64 = 18446744073709551616 := by norm_num
    rw [h64] at hlt ⊢
    omega

/-- C7 at the input of the specification: with two compiled functions of
growth 5 and 12 in the registry the candidate is the one of growth 12, and
the idle iteration compiles it: its revision goes from 1 to 2 and its growth
to 0, the other function is untouched. -/
theorem idle_scan_picks_largest_growth_witness :
    growth (exampleFunction 0x1000 8 3) = 5 ∧ growth (exampleFunction 0x2000 14 2) = 12 ∧
    idleCandidate exampleIdleEngine.m_block_table = some (exampleFunction 0x2000 14 2) ∧
    idleRecompile ⟨fun _ _ => false⟩ 4 exampleIdleEngine =
      (CompileBlock ⟨fun _ _ => false⟩ 4
          (exampleIdleEngine.Log (.Recompiling (0x2000, 0x2000)))
          (exampleFunction 0x2000 14 2)).map (fun r =>
        { r.1 with
          m_block_table := modifyBlock (fun _ => r.2) r.1.m_block_table (0x2000, 0x2000) }) ∧
    (idleRecompile ⟨fun _ _ => false⟩ 4 exampleIdleEngine).map (fun s =>
        s.m_block_table.map fun b => (b.key, b.revision, growth b)) =
      some [((0x1000, 0x1000), 1, 5), ((0x2000, 0x2000), 2, 0)] :=
  ⟨by decide, by decide, by decide,
    ((idle_scan_picks_largest_growth ⟨fun _ _ => false⟩ 4 exampleIdleEngine).1
      (exampleFunction 0x2000 14 2) (by decide)).2.2.2.2.2, by decide!⟩

end RecompilationEngine

theorem UpdateControlFlowGraph_addresses (g : ControlFlowGraph) (e : ExecutionTraceEntry)
    (n : Option ExecutionTraceEntry) :
    (UpdateControlFlowGraph g e n).start_address = g.start_address ∧
    (UpdateControlFlowGraph g e n).function_address = g.function_address := by
  rcases e with a | a | ⟨a, x⟩
  · exact ⟨rfl, rfl⟩
  · rcases n with _ | (t | q | ⟨q, y⟩)
    · exact ⟨rfl, rfl⟩
    · exact ⟨rfl, rfl⟩
    · simp only [UpdateControlFlowGraph]; split <;> exact ⟨rfl, rfl⟩
    · simp only [UpdateControlFlowGraph]; split <;> exact ⟨rfl, rfl⟩
  · rcases n with _ | (t | q | ⟨q, y⟩) <;> exact ⟨rfl, rfl⟩

namespace RecompilationEngine

theorem findBlock_key {table : List BlockEntry} {key : Nat × Nat} {b : BlockEntry}
    (h : findBlock table key = some b) : b.key = key := by
  induction table with
  | nil => simp [findBlock] at h
  | cons b0 table ih =>
    by_cases h0 : b0.key = key
    · simp only [findBlock, h0, if_true, Option.some.injEq] at h
      subst h; exact h0
    · simp only [findBlock, h0, if_false] at h
      exact ih h

theorem findBlock_mem {table : List BlockEntry} {key : Nat × Nat} {b : BlockEntry}
    (h : findBlock table key = some b) : b ∈ table := by
  induction table with
  | nil => simp [findBlock] at h
  | cons b0 table ih =>
    by_cases h0 : b0.key = key
    · simp only [findBlock, h0, if_true, Option.some.injEq] at h
      subst h; exact List.mem_cons_self _ _
    · simp only [findBlock, h0, if_false] at h
      exact List.mem_cons_of_mem _ (ih h)

theorem findBlock_modifyBlock (f : BlockEntry → BlockEntry) (key2 : Nat × Nat)
    (hf : ∀ b, b.key = key2 → (f b).key = key2) (key : Nat × Nat) :
    ∀ table : List BlockEntry,
      findBlock (modifyBlock f table key2) key =
        if key = key2 then (findBlock table key).map f else findBlock table key := by
  intro table
  induction table with
  | nil => simp [modifyBlock, findBlock]
  | cons b0 table ih =>
    by_cases h0 : b0.key = key2
    · simp only [modifyBlock, h0, if_true, findBlock, hf b0 h0]
      by_cases hk : key = key2
      · subst hk; simp
      · have hk2 : ¬ key2 = key := fun e => hk e.symm
        simp [hk, hk2]
    · simp only [modifyBlock, h0, if_false, findBlock, ih]
      by_cases hk : key = key2
      · subst hk; simp [h0]
      · simp only [hk, if_false]

theorem findBlock_findOrInsertBlock (key2 key : Nat × Nat) (table : List BlockEntry) :
    findBlock (findOrInsertBlock table key2) key =
      match findBlock table key with
      | some b => some b
      | none => if key = key2 then some (BlockEntry.new key2.1 key2.2) else none := by
  have happ : ∀ (t : List BlockEntry) (b1 : BlockEntry),
      findBlock (t ++ [b1]) key =
        match findBlock t key with
        | some b => some b
        | none => if b1.key = key then some b1 else none := by
    intro t b1
    induction t with
    | nil => simp [findBlock]
    | cons b0 t ih =>
      by_cases h0 : b0.key = key
      · simp [findBlock, h0]
      · simp [findBlock, h0, ih]
  unfold findOrInsertBlock
  cases h2 : findBlock table key2 with
  | some b2 =>
    simp only []
    cases h : findBlock table key with
    | some b => rfl
    | none =>
      by_cases hk : key = key2
      · subst hk; rw [h] at h2; cases h2
      · simp [hk]
  | none =>
    simp only [happ]
    cases h : findBlock table key with
    | some b => rfl
    | none =>
      have hnk : (BlockEntry.new key2.1 key2.2).key = key2 := rfl
      by_cases hk : key = key2
      · subst hk; simp [hnk]
      · have hk2 : ¬ key2 = key := fun e => hk e.symm
        simp [hnk, hk, hk2]

end RecompilationEngine

namespace RecompilationEngine

theorem sameCounters_refl (b : BlockEntry) : sameCounters b b := ⟨rfl, rfl, rfl, rfl⟩

theorem sameCounters_trans {a b c : BlockEntry} (h1 : sameCounters a b)
    (h2 : sameCounters b c) : sameCounters a c :=
  ⟨h2.1.trans h1.1, h2.2.1.trans h1.2.1, h2.2.2.1.trans h1.2.2.1, h2.2.2.2.trans h1.2.2.2⟩

theorem mergedFrom_refl (t : List BlockEntry) : mergedFrom t t :=
  fun _ => ⟨fun b h => ⟨b, h, sameCounters_refl b⟩, fun h => Or.inl h⟩

theorem mergedFrom_trans {t t1 t2 : List BlockEntry} (h1 : mergedFrom t t1)
    (h2 : mergedFrom t1 t2) : mergedFrom t t2 := by
  intro key
  constructor
  · intro b hb
    obtain ⟨b1, hb1, c1⟩ := (h1 key).1 b hb
    obtain ⟨b2, hb2, c2⟩ := (h2 key).1 b1 hb1
    exact ⟨b2, hb2, sameCounters_trans c1 c2⟩
  · intro hn
    rcases (h1 key).2 hn with h | ⟨b1, hb1, c1⟩
    · exact (h2 key).2 h
    · obtain ⟨b2, hb2, c2⟩ := (h2 key).1 b1 hb1
      exact Or.inr ⟨b2, hb2, sameCounters_trans c1 c2⟩

theorem mergedFrom_findOrInsertBlock (t : List BlockEntry) (key2 : Nat × Nat) :
    mergedFrom t (findOrInsertBlock t key2) := by
  intro key
  rw [findBlock_findOrInsertBlock]
  constructor
  · intro b hb
    rw [hb]
    exact ⟨b, rfl, sameCounters_refl b⟩
  · intro hn
    rw [hn]
    by_cases hk : key = key2
    · subst hk
      simp only [if_true]
      exact Or.inr ⟨_, rfl, sameCounters_refl _⟩
    · simp only [hk, if_false]
      exact Or.inl trivial

theorem mergedFrom_modifyBlock_cfg (t : List BlockEntry) (key2 : Nat × Nat)
    (e : ExecutionTraceEntry) (n : Option ExecutionTraceEntry) :
    mergedFrom t
      (modifyBlock (fun b => { b with cfg := UpdateControlFlowGraph b.cfg e n }) t key2) := by
  intro key
  have hf : ∀ b : BlockEntry, b.key = key2 →
      ({ b with cfg := UpdateControlFlowGraph b.cfg e n } : BlockEntry).key = key2 := by
    intro b hb
    simp only [BlockEntry.key, (UpdateControlFlowGraph_addresses b.cfg e n).1,
      (UpdateControlFlowGraph_addresses b.cfg e n).2]
    exact hb
  rw [findBlock_modifyBlock _ key2 hf]
  constructor
  · intro b hb
    rw [hb]
    by_cases hk : key = key2
    · simp only [hk, if_true, Option.map_some']
      exact ⟨_, rfl, rfl, rfl, rfl, rfl⟩
    · simp only [hk, if_false]
      exact ⟨b, rfl, sameCounters_refl b⟩
  · intro hn
    rw [hn]
    by_cases hk : key = key2
    · simp only [hk, if_true, Option.map_none']
      exact Or.inl trivial
    · simp only [hk, if_false]
      exact Or.inl trivial

theorem mergedFrom_ite (c : Prop) [Decidable c] (t : List BlockEntry) (key2 : Nat × Nat) :
    mergedFrom t (if c then findOrInsertBlock t key2 else t) := by
  split
  · exact mergedFrom_findOrInsertBlock _ _
  · exact mergedFrom_refl _

theorem mergedFrom_step (c1 c2 : Prop) [Decidable c1] [Decidable c2] (t : List BlockEntry)
    (key1 key2 key3 : Nat × Nat) (e : ExecutionTraceEntry) (n : Option ExecutionTraceEntry) :
    mergedFrom t
      (if c2 then
        modifyBlock (fun b => { b with cfg := UpdateControlFlowGraph b.cfg e n })
          (modifyBlock (fun b => { b with cfg := UpdateControlFlowGraph b.cfg e n })
            (if c1 then findOrInsertBlock t key1 else t) key2) key3
      else
        modifyBlock (fun b => { b with cfg := UpdateControlFlowGraph b.cfg e n })
          (if c1 then findOrInsertBlock t key1 else t) key2) := by
  by_cases h2 : c2
  · rw [if_pos h2]
    exact mergedFrom_trans
      (mergedFrom_trans (mergedFrom_ite _ _ _) (mergedFrom_modifyBlock_cfg _ _ _ _))
      (mergedFrom_modifyBlock_cfg _ _ _ _)
  · rw [if_neg h2]
    exact mergedFrom_trans (mergedFrom_ite _ _ _) (mergedFrom_modifyBlock_cfg _ _ _ _)

theorem mergedFrom_mergeEntry (execution_trace : ExecutionTrace) (st : MergeState)
    (e : ExecutionTraceEntry) (rest : List ExecutionTraceEntry) :
    mergedFrom st.table (mergeEntry execution_trace st e rest).table := by
  unfold mergeEntry
  exact mergedFrom_step _ _ _ _ _ _ _ _

theorem mergedFrom_mergeEntries (execution_trace : ExecutionTrace) :
    ∀ (l : List ExecutionTraceEntry) (st : MergeState),
      mergedFrom st.table (mergeEntries execution_trace st l).table := by
  intro l
  induction l with
  | nil => intro st; exact mergedFrom_refl _
  | cons e rest ih =>
    intro st
    simp only [mergeEntries]
    exact mergedFrom_trans (mergedFrom_mergeEntry execution_trace st e rest) (ih _)

/-- The merge phase of `ProcessExecutionTrace` changes the registry only by
CFG merges and new entries, logs at most a `Trace:` line and leaves the
ordinal table alone. -/
theorem mergeTrace_spec (GetId : ExecutionTrace → Nat) (s : RecompilationEngine)
    (t : ExecutionTrace) (key : Nat × Nat) :
    mergedFrom s.m_block_table (mergeTrace GetId s t).1.m_block_table ∧
    compileCount (mergeTrace GetId s t).1 key = compileCount s key := by
  unfold mergeTrace
  simp only []
  cases findProcessed s.m_processed_execution_traces (GetId t) with
  | some bl => exact ⟨mergedFrom_refl _, rfl⟩
  | none =>
    simp only [Log]
    refine ⟨mergedFrom_trans
      (mergedFrom_findOrInsertBlock s.m_block_table (t.function_address, t.function_address))
      (mergedFrom_mergeEntries t t.entries
        { table := findOrInsertBlock s.m_block_table (t.function_address, t.function_address),
          block_i := none, split_trace := false, tmp_block_list := [] }), ?_⟩
    simp [compileCount, List.count_append]

end RecompilationEngine

namespace RecompilationEngine

/-- The three ways one visit of the loop of lines 478-485 can go. -/
theorem hitBlock_spec {llvm : Backend} {capacity : Nat} {s s1 : RecompilationEngine}
    {k : Nat × Nat} (h : hitBlock llvm capacity s k = some s1) :
    ∃ b, findBlock s.m_block_table k = some b ∧
      ((b.is_compiled = true ∧ s1 = s) ∨
       (b.is_compiled = false ∧ (b.num_hits + 1) % 2 ^ 32 < 1000 ∧
          s1 = { s with
            m_block_table :=
              modifyBlock (fun _ => { b with num_hits := (b.num_hits + 1) % 2 ^ 32 })
                s.m_block_table k }) ∨
       (b.is_compiled = false ∧ 1000 ≤ (b.num_hits + 1) % 2 ^ 32 ∧
          ∃ s2 b2, CompileBlock llvm capacity s
              { b with num_hits := (b.num_hits + 1) % 2 ^ 32 } = some (s2, b2) ∧
            s1 = { s2 with m_block_table := modifyBlock (fun _ => b2) s2.m_block_table k })) := by
  unfold hitBlock at h
  cases hb : findBlock s.m_block_table k with
  | none => rw [hb] at h; cases h
  | some b =>
    rw [hb] at h
    obtain ⟨nh, rev, last, cfg, comp⟩ := b
    refine ⟨_, rfl, ?_⟩
    cases comp with
    | true =>
      simp only [Bool.not_true, Bool.false_eq_true, if_false, Option.some.injEq] at h
      exact Or.inl ⟨rfl, h.symm⟩
    | false =>
      simp only [Bool.not_false, if_true] at h
      by_cases hge : 1000 ≤ (nh + 1) % 2 ^ 32
      · simp only [ge_iff_le, hge, if_true] at h
        cases hcb : CompileBlock llvm capacity s ⟨(nh + 1) % 2 ^ 32, rev, last, cfg, false⟩ with
        | none => rw [hcb] at h; cases h
        | some r =>
          obtain ⟨s2, b2⟩ := r
          rw [hcb] at h
          simp only [Option.some.injEq] at h
          exact Or.inr (Or.inr ⟨rfl, hge, s2, b2, rfl, h.symm⟩)
      · simp only [ge_iff_le, hge, if_false, Option.some.injEq] at h
        exact Or.inr (Or.inl ⟨rfl, by show (nh + 1) % 2 ^ 32 < 1000; omega, h.symm⟩)

theorem compileCount_CompileBlock {llvm : Backend} {capacity : Nat}
    {s s2 : RecompilationEngine} {b b2 : BlockEntry}
    (h : CompileBlock llvm capacity s b = some (s2, b2)) (key : Nat × Nat) :
    compileCount s2 key = compileCount s key + (if b.key = key then 1 else 0) := by
  obtain ⟨_, _, _, _, _, _, _, _, _, _, _, hlog, _⟩ := CompileBlock_spec h
  unfold compileCount
  rw [hlog]
  by_cases hk : b.key = key
  · by_cases hv : llvm.verifyFunction (b.cfg.start_address, b.revision) b.cfg = true
    · simp [List.count_append, List.count_cons, hk, hv]
    · simp [List.count_append, List.count_cons, hk, hv]
  · by_cases hv : llvm.verifyFunction (b.cfg.start_address, b.revision) b.cfg = true
    · simp [List.count_append, List.count_cons, hk, hv]
    · simp [List.count_append, List.count_cons, hk, hv]

theorem findBlock_modifyBlock_const (b2 : BlockEntry) (k key : Nat × Nat)
    (table : List BlockEntry) (hk : b2.key = k) :
    findBlock (modifyBlock (fun _ => b2) table k) key =
      if key = k then (findBlock table key).map (fun _ => b2) else findBlock table key :=
  findBlock_modifyBlock (fun _ => b2) k (fun _ _ => hk) key table

/-- The effect of one visit to the block `k` on the bookkeeping of the block
`key`. -/
theorem hitBlock_effect {llvm : Backend} {capacity : Nat} {s s1 : RecompilationEngine}
    {k : Nat × Nat} (h : hitBlock llvm capacity s k = some s1) (key : Nat × Nat) :
    ∃ b, findBlock s.m_block_table k = some b ∧
      (k ≠ key → findBlock s1.m_block_table key = findBlock s.m_block_table key ∧
        compileCount s1 key = compileCount s key) ∧
      (b.is_compiled = true → s1 = s) ∧
      (b.is_compiled = false → b.num_hits + 1 < 1000 →
        (∃ b1, findBlock s1.m_block_table k = some b1 ∧ b1.is_compiled = false ∧
          b1.num_hits = b.num_hits + 1) ∧ compileCount s1 k = compileCount s k) ∧
      (b.is_compiled = false → b.num_hits + 1 = 1000 →
        (∃ b1, findBlock s1.m_block_table k = some b1 ∧ b1.is_compiled = true ∧
          b1.num_hits = 1000) ∧ compileCount s1 k = compileCount s k + 1) := by
  obtain ⟨b, hb, hcases⟩ := hitBlock_spec h
  have hbk : b.key = k := findBlock_key hb
  refine ⟨b, hb, ?_, ?_, ?_, ?_⟩
  · intro hne
    have hne2 : ¬ key = k := fun e => hne e.symm
    rcases hcases with ⟨_, rfl⟩ | ⟨_, _, rfl⟩ | ⟨_, _, s2, b2, hcb, rfl⟩
    · exact ⟨rfl, rfl⟩
    · refine ⟨?_, rfl⟩
      simp only []
      rw [findBlock_modifyBlock_const, if_neg hne2]
      exact hbk
    · obtain ⟨_, _, _, _, _, _, _, htab, _, _, _, _, hb2⟩ := CompileBlock_spec hcb
      have hb2k : b2.key = k := by rw [hb2]; exact hbk
      refine ⟨?_, ?_⟩
      · simp only []
        rw [findBlock_modifyBlock_const _ _ _ _ hb2k, if_neg hne2, htab]
      · have := compileCount_CompileBlock hcb key
        have hk2 : ¬ ({ b with num_hits := (b.num_hits + 1) % 2 ^ 32 } : BlockEntry).key = key := by
          show ¬ b.key = key
          rw [hbk]; exact hne
        rw [if_neg hk2] at this
        exact this
  · intro hc
    rcases hcases with ⟨_, rfl⟩ | ⟨hf, _⟩ | ⟨hf, _⟩
    · rfl
    · exact absurd (hc.symm.trans hf) (by decide)
    · exact absurd (hc.symm.trans hf) (by decide)
  · intro hc hlt
    have hmod : (b.num_hits + 1) % 2 ^ 32 = b.num_hits + 1 :=
      Nat.mod_eq_of_lt (by norm_num; omega)
    rcases hcases with ⟨ht, _⟩ | ⟨_, _, rfl⟩ | ⟨_, hge, _⟩
    · exact absurd (ht.symm.trans hc) (by decide)
    · refine ⟨⟨{ b with num_hits := (b.num_hits + 1) % 2 ^ 32 }, ?_, hc, hmod⟩, rfl⟩
      simp only []
      rw [findBlock_modifyBlock_const, if_pos rfl, hb]
      · rfl
      · exact hbk
    · omega
  · intro hc heq
    have hmod : (b.num_hits + 1) % 2 ^ 32 = 1000 := by
      rw [heq]; norm_num
    rcases hcases with ⟨ht, _⟩ | ⟨_, hlt, _⟩ | ⟨_, _, s2, b2, hcb, rfl⟩
    · exact absurd (ht.symm.trans hc) (by decide)
    · omega
    · obtain ⟨_, _, _, _, _, _, _, htab, _, _, _, _, hb2⟩ := CompileBlock_spec hcb
      have hb2k : b2.key = k := by rw [hb2]; exact hbk
      refine ⟨⟨b2, ?_, by rw [hb2], by rw [hb2]; exact hmod⟩, ?_⟩
      · simp only []
        rw [findBlock_modifyBlock_const _ _ _ _ hb2k, if_pos rfl, htab, hb]
        rfl
      · have := compileCount_CompileBlock hcb k
        have hk2 : ({ b with num_hits := (b.num_hits + 1) % 2 ^ 32 } : BlockEntry).key = k := hbk
        rw [if_pos hk2] at this
        exact this

end RecompilationEngine

namespace RecompilationEngine

theorem tracks_hitBlock {llvm : Backend} {capacity : Nat} {s s1 : RecompilationEngine}
    {k key : Nat × Nat} {h0 c0 T : Nat} (h : hitBlock llvm capacity s k = some s1)
    (ht : tracks key h0 c0 s T) : tracks key h0 c0 s1 (T + if k = key then 1 else 0) := by
  obtain ⟨b, hb, hother, hcomp, hlow, hhit⟩ := hitBlock_effect h key
  by_cases hk : k = key
  · subst hk
    simp only [if_true]
    obtain ⟨_, hsome⟩ := ht
    obtain ⟨hlt, hge⟩ := hsome b hb
    by_cases hT : h0 + T < 1000
    · obtain ⟨hc, hn, hcc⟩ := hlt hT
      by_cases hT1 : h0 + T + 1 < 1000
      · obtain ⟨⟨b1, hb1, hc1, hn1⟩, hcc1⟩ := hlow hc (by omega)
        refine ⟨fun hnone => (by rw [hb1] at hnone; cases hnone), fun b2 hb2 => ?_⟩
        rw [hb1] at hb2
        cases hb2
        exact ⟨fun _ => ⟨hc1, by omega, by omega⟩, fun _ => by omega⟩
      · obtain ⟨⟨b1, hb1, hc1, hn1⟩, hcc1⟩ := hhit hc (by omega)
        refine ⟨fun hnone => (by rw [hb1] at hnone; cases hnone), fun b2 hb2 => ?_⟩
        rw [hb1] at hb2
        cases hb2
        exact ⟨fun _ => by omega, fun _ => ⟨hc1, by omega⟩⟩
    · obtain ⟨hc, hcc⟩ := hge (by omega)
      have := hcomp hc
      subst this
      refine ⟨fun hnone => (by rw [hb] at hnone; cases hnone), fun b2 hb2 => ?_⟩
      rw [hb] at hb2
      cases hb2
      exact ⟨fun _ => by omega, fun _ => ⟨hc, hcc⟩⟩
  · simp only [hk, if_false, Nat.add_zero]
    obtain ⟨e1, e2⟩ := hother hk
    unfold tracks
    rw [e1, e2]
    exact ht

theorem tracks_hitBlocks {llvm : Backend} {capacity : Nat} {key : Nat × Nat} {h0 c0 : Nat}
    (bl : List (Nat × Nat)) :
    ∀ {s s1 : RecompilationEngine} {T : Nat}, hitBlocks llvm capacity s bl = some s1 →
      tracks key h0 c0 s T → tracks key h0 c0 s1 (T + bl.count key) := by
  induction bl with
  | nil =>
    intro s s1 T h ht
    simp only [hitBlocks, Option.some.injEq] at h
    subst h
    simpa using ht
  | cons k bl ih =>
    intro s s1 T h ht
    simp only [hitBlocks] at h
    cases hk : hitBlock llvm capacity s k with
    | none => rw [hk] at h; cases h
    | some s2 =>
      rw [hk] at h
      have h2 := ih h (tracks_hitBlock hk ht)
      have hcount : T + (k :: bl).count key = T + (if k = key then 1 else 0) + bl.count key := by
        rw [List.count_cons]
        by_cases hkk : k = key
        · simp [hkk]; omega
        · simp [hkk]
      rw [hcount]
      exact h2

theorem tracks_mergeTrace (GetId : ExecutionTrace → Nat) (s : RecompilationEngine)
    (t : ExecutionTrace) {key : Nat × Nat} {h0 c0 T : Nat} (ht : tracks key h0 c0 s T) :
    tracks key h0 c0 (mergeTrace GetId s t).1 T := by
  obtain ⟨hm, hcc⟩ := mergeTrace_spec GetId s t key
  obtain ⟨hnone, hsome⟩ := ht
  obtain ⟨m1, m2⟩ := hm key
  cases hb : findBlock s.m_block_table key with
  | none =>
    obtain ⟨z1, z2, z3⟩ := hnone hb
    rcases m2 hb with hn | ⟨b1, hb1, c1, c2, _, _⟩
    · exact ⟨fun _ => ⟨z1, z2, by rw [hcc]; exact z3⟩, fun b2 hb2 => by
        rw [hn] at hb2; cases hb2⟩
    · refine ⟨fun h => (by rw [hb1] at h; cases h), fun b2 hb2 => ?_⟩
      rw [hb1] at hb2
      cases hb2
      subst z1 z2
      exact ⟨fun _ => ⟨c2, c1, by rw [hcc]; exact z3⟩, fun h => by omega⟩
  | some b =>
    obtain ⟨b1, hb1, c1, c2, _, _⟩ := m1 b hb
    obtain ⟨hlt, hge⟩ := hsome b hb
    refine ⟨fun h => (by rw [hb1] at h; cases h), fun b2 hb2 => ?_⟩
    rw [hb1] at hb2
    cases hb2
    rw [hcc, c1, c2]
    exact ⟨hlt, hge⟩

theorem tracks_ProcessExecutionTrace {llvm : Backend} {capacity : Nat}
    {GetId : ExecutionTrace → Nat} {s s1 : RecompilationEngine} {t : ExecutionTrace}
    {key : Nat × Nat} {h0 c0 T : Nat}
    (h : ProcessExecutionTrace llvm capacity GetId s t = some s1)
    (ht : tracks key h0 c0 s T) :
    tracks key h0 c0 s1 (T + (mergeTrace GetId s t).2.count key) := by
  unfold ProcessExecutionTrace at h
  simp only [] at h
  cases hh : hitBlocks llvm capacity (mergeTrace GetId s t).1 (mergeTrace GetId s t).2 with
  | none => rw [hh] at h; cases h
  | some s2 =>
    rw [hh] at h
    simp only [Option.some.injEq] at h
    subst h
    have h3 := tracks_hitBlocks (mergeTrace GetId s t).2 hh (tracks_mergeTrace GetId s t ht)
    exact h3

theorem tracks_processAll {llvm : Backend} {capacity : Nat} {GetId : ExecutionTrace → Nat}
    {key : Nat × Nat} {h0 c0 : Nat} (ts : List ExecutionTrace) :
    ∀ {s s1 : RecompilationEngine} {T : Nat},
      processAll llvm capacity GetId s ts = some s1 → tracks key h0 c0 s T →
        tracks key h0 c0 s1 (T + touches llvm capacity GetId key s ts) := by
  induction ts with
  | nil =>
    intro s s1 T h ht
    simp only [processAll, Option.some.injEq] at h
    subst h
    simpa [touches] using ht
  | cons t ts ih =>
    intro s s1 T h ht
    simp only [processAll] at h
    cases hp : ProcessExecutionTrace llvm capacity GetId s t with
    | none => rw [hp] at h; cases h
    | some s2 =>
      rw [hp] at h
      have h2 := ih h (tracks_ProcessExecutionTrace hp ht)
      simp only [touches, hp]
      rw [← Nat.add_assoc]
      exact h2

end RecompilationEngine

namespace RecompilationEngine

/-- C6 (amended): hit-count promotion, a touch of a block being one visit of
the loop of lines 478-485 to it, that is one per occurrence of the block in
the block list of a processed trace.  Take a block that is absent from the
registry (`h0 = 0`) or present, not compiled, with `h0 < 1000` hits, and
process any traces `ts`, with `T` touches of the block in all.  While
`h0 + T < 1000` the block (if it exists) is not compiled, its counter is
`h0 + T` and `CompileBlock` has not been invoked for it; once
`h0 + T >= 1000` the block is compiled and `CompileBlock` has been invoked
for it exactly once, however many touches followed. -/
theorem hit_count_promotion (llvm : Backend) (capacity : Nat) (GetId : ExecutionTrace → Nat)
    (key : Nat × Nat) (s0 s : RecompilationEngine) (ts : List ExecutionTrace) (h0 : Nat)
    (hnew : findBlock s0.m_block_table key = none → h0 = 0)
    (hold : ∀ b, findBlock s0.m_block_table key = some b →
      b.is_compiled = false ∧ b.num_hits = h0 ∧ h0 < 1000)
    (hrun : processAll llvm capacity GetId s0 ts = some s) :
    (h0 + touches llvm capacity GetId key s0 ts < 1000 →
      compileCount s key = compileCount s0 key ∧
      (∀ b, findBlock s.m_block_table key = some b →
        b.is_compiled = false ∧ b.num_hits = h0 + touches llvm capacity GetId key s0 ts) ∧
      (0 < touches llvm capacity GetId key s0 ts →
        ∃ b, findBlock s.m_block_table key = some b)) ∧
    (1000 ≤ h0 + touches llvm capacity GetId key s0 ts →
      compileCount s key = compileCount s0 key + 1 ∧
      ∃ b, findBlock s.m_block_table key = some b ∧ b.is_compiled = true) := by
  have hinit : tracks key h0 (compileCount s0 key) s0 0 := by
    constructor
    · intro hn
      exact ⟨hnew hn, rfl, rfl⟩
    · intro b hb
      obtain ⟨k1, k2, k3⟩ := hold b hb
      exact ⟨fun _ => ⟨k1, (by omega), rfl⟩, fun h => (by omega)⟩
  have hfin := tracks_processAll ts hrun hinit
  rw [Nat.zero_add] at hfin
  obtain ⟨hnone, hsome⟩ := hfin
  constructor
  · intro hlt
    cases hb : findBlock s.m_block_table key with
    | none =>
      obtain ⟨z1, z2, z3⟩ := hnone hb
      exact ⟨z3, fun b h => (by cases h), fun hpos => (by omega)⟩
    | some b =>
      obtain ⟨k1, k2, k3⟩ := (hsome b hb).1 hlt
      refine ⟨k3, fun b2 h2 => ?_, fun _ => ⟨b, rfl⟩⟩
      cases h2
      exact ⟨k1, k2⟩
  · intro hge
    cases hb : findBlock s.m_block_table key with
    | none =>
      obtain ⟨z1, z2, z3⟩ := hnone hb
      omega
    | some b =>
      obtain ⟨k1, k2⟩ := (hsome b hb).2 hge
      exact ⟨k2, b, rfl, k1⟩

/-- C6 (amended) at a concrete input: the entry of function `0x100` has 998
hits and is not compiled.  Processing a trace that lists it once brings it to
999 hits, not compiled, no `CompileBlock`; processing the trace a second time
is the 1000th touch and compiles it, `CompileBlock` being invoked once. -/
theorem hit_count_promotion_witness :
    (∃ s, processAll ⟨fun _ _ => false⟩ 4 exampleGetId exampleWarmEngine
        [exampleEntryTrace] = some s ∧
      compileCount s (0x100, 0x100) = 0 ∧
      ∀ b, findBlock s.m_block_table (0x100, 0x100) = some b →
        b.is_compiled = false ∧ b.num_hits = 999) ∧
    (∃ s, processAll ⟨fun _ _ => false⟩ 4 exampleGetId exampleWarmEngine
        [exampleEntryTrace, exampleEntryTrace] = some s ∧
      compileCount s (0x100, 0x100) = 1 ∧
      ∃ b, findBlock s.m_block_table (0x100, 0x100) = some b ∧ b.is_compiled = true) := by
  have t1 : touches ⟨fun _ _ => false⟩ 4 exampleGetId (0x100, 0x100) exampleWarmEngine
      [exampleEntryTrace] = 1 := by decide!
  have t2 : touches ⟨fun _ _ => false⟩ 4 exampleGetId (0x100, 0x100) exampleWarmEngine
      [exampleEntryTrace, exampleEntryTrace] = 2 := by decide!
  have c0 : compileCount exampleWarmEngine (0x100, 0x100) = 0 := by decide
  have hnew : findBlock exampleWarmEngine.m_block_table (0x100, 0x100) = none → 998 = 0 := by
    intro h; revert h; decide
  have hold : ∀ b, findBlock exampleWarmEngine.m_block_table (0x100, 0x100) = some b →
      b.is_compiled = false ∧ b.num_hits = 998 ∧ 998 < 1000 := by
    intro b h
    have hb : findBlock exampleWarmEngine.m_block_table (0x100, 0x100) =
        some { BlockEntry.new 0x100 0x100 with num_hits := 998 } := by decide
    rw [hb] at h
    cases h
    exact ⟨rfl, rfl, by decide⟩
  have r1 : (processAll ⟨fun _ _ => false⟩ 4 exampleGetId exampleWarmEngine
      [exampleEntryTrace]).isSome = true := by decide!
  have r2 : (processAll ⟨fun _ _ => false⟩ 4 exampleGetId exampleWarmEngine
      [exampleEntryTrace, exampleEntryTrace]).isSome = true := by decide!
  obtain ⟨s1, hs1⟩ := Option.isSome_iff_exists.1 r1
  obtain ⟨s2, hs2⟩ := Option.isSome_iff_exists.1 r2
  refine ⟨⟨s1, hs1, ?_⟩, ⟨s2, hs2, ?_⟩⟩
  · have h := (hit_count_promotion ⟨fun _ _ => false⟩ 4 exampleGetId (0x100, 0x100)
      exampleWarmEngine s1 [exampleEntryTrace] 998 hnew hold hs1).1 (by rw [t1]; decide)
    rw [t1, c0] at h
    exact ⟨h.1, h.2.1⟩
  · have h := (hit_count_promotion ⟨fun _ _ => false⟩ 4 exampleGetId (0x100, 0x100)
      exampleWarmEngine s2 [exampleEntryTrace, exampleEntryTrace] 998 hnew hold hs2).2
      (by rw [t2])
    rw [c0] at h
    exact h

/-- C6 as stated fails: the trace `exampleRevisitTrace` lists the block
`(0x200, 0x100)` twice, so every call of `ProcessExecutionTrace` on it counts
two hits.  On a fresh engine, after 499 calls the block has 998 hits and is
not compiled, and the 500th call invokes `CompileBlock` for it: a block
touched by 500 calls is compiled, long before the 999th. -/
theorem hit_count_promotion_counterexample :
    ((processAll ⟨fun _ _ => false⟩ 8 exampleGetId fresh
        (List.replicate 499 exampleRevisitTrace)).bind fun s =>
      (ProcessExecutionTrace ⟨fun _ _ => false⟩ 8 exampleGetId s exampleRevisitTrace).map
        fun s1 =>
          ((findBlock s.m_block_table (0x200, 0x100)).map fun b => (b.num_hits, b.is_compiled),
           compileCount s (0x200, 0x100),
           (findBlock s1.m_block_table (0x200, 0x100)).map fun b => (b.num_hits, b.is_compiled),
           compileCount s1 (0x200, 0x100))) =
      some (some (998, false), 0, some (1000, true), 1) := by
  decide!

end RecompilationEngine

namespace RecompilationEngine

theorem map_cfg_modifyBlock (f : BlockEntry → BlockEntry) (k : Nat × Nat) :
    ∀ (table : List BlockEntry) (b : BlockEntry), findBlock table k = some b →
      (f b).cfg = b.cfg →
      (modifyBlock f table k).map (fun x => x.cfg) = table.map (fun x => x.cfg) := by
  intro table
  induction table with
  | nil => intro b h; simp [findBlock] at h
  | cons b0 table ih =>
    intro b h hf
    by_cases h0 : b0.key = k
    · simp only [findBlock, h0, if_true, Option.some.injEq] at h
      subst h
      simp [modifyBlock, h0, hf]
    · simp only [findBlock, h0, if_false] at h
      simp [modifyBlock, h0, ih b h hf]

/-- What one visit of the loop of lines 478-485 leaves alone. -/
theorem hitBlock_frame {llvm : Backend} {capacity : Nat} {s s1 : RecompilationEngine}
    {k : Nat × Nat} (h : hitBlock llvm capacity s k = some s1) :
    s1.m_block_table.map (fun x => x.cfg) = s.m_block_table.map (fun x => x.cfg) ∧
    s1.m_processed_execution_traces = s.m_processed_execution_traces ∧
    (∀ key, key ≠ k → findBlock s1.m_block_table key = findBlock s.m_block_table key) ∧
    (∀ key b, findBlock s.m_block_table key = some b →
      ∃ b1, findBlock s1.m_block_table key = some b1 ∧ hitFrom b b1) ∧
    (∀ key, findBlock s.m_block_table key = none → findBlock s1.m_block_table key = none) ∧
    (∀ t, LogRecord.Trace t ∈ s1.m_log → LogRecord.Trace t ∈ s.m_log) := by
  obtain ⟨b, hb, hcases⟩ := hitBlock_spec h
  have hbk : b.key = k := findBlock_key hb
  rcases hcases with ⟨_, rfl⟩ | ⟨hc, _, rfl⟩ | ⟨hc, _, s2, b2, hcb, rfl⟩
  · exact ⟨rfl, rfl, fun _ _ => rfl, fun key b1 h1 => ⟨b1, h1, rfl, fun _ => rfl⟩,
      fun _ h1 => h1, fun _ h1 => h1⟩
  · have hb1k : ({ b with num_hits := (b.num_hits + 1) % 2 ^ 32 } : BlockEntry).key = k := hbk
    refine ⟨?_, rfl, ?_, ?_, ?_, fun _ h1 => h1⟩
    · exact map_cfg_modifyBlock _ k _ b hb rfl
    · intro key hne
      simp only []
      rw [findBlock_modifyBlock_const _ _ _ _ hb1k, if_neg hne]
    · intro key b1 h1
      simp only []
      rw [findBlock_modifyBlock_const _ _ _ _ hb1k]
      by_cases hk : key = k
      · subst hk
        rw [hb] at h1
        cases h1
        rw [if_pos rfl, hb]
        exact ⟨_, rfl, rfl, fun hc2 => absurd (hc2.symm.trans hc) (by decide)⟩
      · rw [if_neg hk]
        exact ⟨b1, h1, rfl, fun _ => rfl⟩
    · intro key h1
      simp only []
      rw [findBlock_modifyBlock_const _ _ _ _ hb1k]
      by_cases hk : key = k
      · rw [if_pos hk, h1]; rfl
      · rw [if_neg hk]; exact h1
  · obtain ⟨_, _, _, _, _, _, _, htab, hproc, _, _, hlog, hb2⟩ := CompileBlock_spec hcb
    have hb2k : b2.key = k := by rw [hb2]; exact hbk
    have hb2c : b2.cfg = b.cfg := by rw [hb2]
    refine ⟨?_, hproc, ?_, ?_, ?_, ?_⟩
    · simp only []
      rw [htab]
      exact map_cfg_modifyBlock _ k _ b hb hb2c
    · intro key hne
      simp only []
      rw [findBlock_modifyBlock_const _ _ _ _ hb2k, if_neg hne, htab]
    · intro key b1 h1
      simp only []
      rw [findBlock_modifyBlock_const _ _ _ _ hb2k, htab]
      by_cases hk : key = k
      · subst hk
        rw [hb] at h1
        cases h1
        rw [if_pos rfl, hb]
        exact ⟨_, rfl, hb2c, fun hc2 => absurd (hc2.symm.trans hc) (by decide)⟩
      · rw [if_neg hk]
        exact ⟨b1, h1, rfl, fun _ => rfl⟩
    · intro key h1
      simp only []
      rw [findBlock_modifyBlock_const _ _ _ _ hb2k, htab]
      by_cases hk : key = k
      · rw [if_pos hk, h1]; rfl
      · rw [if_neg hk]; exact h1
    · intro t ht
      simp only [] at ht
      rw [hlog] at ht
      simp only [List.mem_append, List.mem_cons, List.mem_singleton, List.not_mem_nil,
        or_false] at ht
      rcases ht with (ht | ht | ht | ht) | ht
      · exact ht
      · cases ht
      · cases ht
      · cases ht
      · split at ht
        · simp at ht
        · simp at ht

theorem hitFrom_trans {a b c : BlockEntry} (h1 : hitFrom a b) (h2 : hitFrom b c) :
    hitFrom a c := by
  refine ⟨h2.1.trans h1.1, fun ha => ?_⟩
  have hab := h1.2 ha
  subst hab
  exact h2.2 ha

theorem hitBlocks_frame {llvm : Backend} {capacity : Nat} (bl : List (Nat × Nat)) :
    ∀ {s s1 : RecompilationEngine}, hitBlocks llvm capacity s bl = some s1 →
      s1.m_block_table.map (fun x => x.cfg) = s.m_block_table.map (fun x => x.cfg) ∧
      s1.m_processed_execution_traces = s.m_processed_execution_traces ∧
      (∀ key, key ∉ bl → findBlock s1.m_block_table key = findBlock s.m_block_table key) ∧
      (∀ key b, findBlock s.m_block_table key = some b →
        ∃ b1, findBlock s1.m_block_table key = some b1 ∧ hitFrom b b1) ∧
      (∀ key, findBlock s.m_block_table key = none → findBlock s1.m_block_table key = none) ∧
      (∀ t, LogRecord.Trace t ∈ s1.m_log → LogRecord.Trace t ∈ s.m_log) := by
  induction bl with
  | nil =>
    intro s s1 h
    simp only [hitBlocks, Option.some.injEq] at h
    subst h
    exact ⟨rfl, rfl, fun _ _ => rfl, fun key b1 h1 => ⟨b1, h1, rfl, fun _ => rfl⟩,
      fun _ h1 => h1, fun _ h1 => h1⟩
  | cons k bl ih =>
    intro s s1 h
    simp only [hitBlocks] at h
    cases hk : hitBlock llvm capacity s k with
    | none => rw [hk] at h; cases h
    | some s2 =>
      rw [hk] at h
      obtain ⟨a1, a2, a3, a4, a5, a6⟩ := hitBlock_frame hk
      obtain ⟨b1, b2, b3, b4, b5, b6⟩ := ih h
      refine ⟨b1.trans a1, b2.trans a2, ?_, ?_, ?_, fun t ht => a6 t (b6 t ht)⟩
      · intro key hkey
        simp only [List.mem_cons, not_or] at hkey
        rw [b3 key hkey.2, a3 key hkey.1]
      · intro key b hb
        obtain ⟨c1, hc1, r1⟩ := a4 key b hb
        obtain ⟨c2, hc2, r2⟩ := b4 key c1 hc1
        exact ⟨c2, hc2, hitFrom_trans r1 r2⟩
      · intro key hn
        exact b5 key (a5 key hn)

theorem map_fst_setProcessed (l1 : List (Nat × Nat)) (id : Nat) :
    ∀ m : List (Nat × List (Nat × Nat)),
      (setProcessed l1 m id).map Prod.fst = m.map Prod.fst := by
  intro m
  induction m with
  | nil => rfl
  | cons p m ih =>
    obtain ⟨id1, l⟩ := p
    by_cases h : id1 = id
    · simp [setProcessed, h]
    · simp [setProcessed, h, ih]

/-- C8 as stated fails: hit counters and compile state are not all that
changes.  On a fresh engine `exampleTwoBlockTrace` is processed once and
`exampleEntryTrace` 998 times, which leaves the entry `(0x100, 0x100)` with
999 hits; the id of `exampleTwoBlockTrace` is recorded with the block list
`[(0x100, 0x100), (0x200, 0x100)]`.  Processing `exampleTwoBlockTrace` again
compiles `(0x100, 0x100)`, and line 489 then rewrites the list recorded for
the id to `[(0x200, 0x100), (0x200, 0x100)]`. -/
theorem duplicate_trace_skips_merge_counterexample :
    ((processAll ⟨fun _ _ => false⟩ 8 exampleGetId fresh
        (exampleTwoBlockTrace :: List.replicate 998 exampleEntryTrace)).bind fun s =>
      (ProcessExecutionTrace ⟨fun _ _ => false⟩ 8 exampleGetId s exampleTwoBlockTrace).map
        fun s1 =>
          (findProcessed s.m_processed_execution_traces (exampleGetId exampleTwoBlockTrace),
           findProcessed s1.m_processed_execution_traces (exampleGetId exampleTwoBlockTrace))) =
      some (some [(0x100, 0x100), (0x200, 0x100)], some [(0x200, 0x100), (0x200, 0x100)]) := by
  decide!

end RecompilationEngine

namespace RecompilationEngine

/-- C9, the code at the failing input: on a fresh engine the function block
at `0x1000` is compiled (ordinal 0, entry point inside execution engine 0)
and `FreeExecutable(0)` is called.  The execution engine 0 is deleted and
the slot of `m_executable_engine` is null, but `m_executable_lookup[0]` was
not reset: `GetExecutable(GetOrdinal(0x1000))` still returns the entry point
inside the deleted engine. -/
theorem GetExecutable_after_FreeExecutable :
    ((calls ⟨fun _ _ => false⟩ 4 fresh
        [.CompileBlock (BlockEntry.new 0x1000 0x1000), .FreeExecutable 0]).map fun s =>
      (GetOrdinal s 0x1000, GetExecutable s (GetOrdinal s 0x1000), s.m_executable_engine 0,
       s.deleted)) =
      some (0, .native 0, none, [0]) := by
  decide

/-- C10 (amended): a verification failure does not stop publication.  When
`verifyFunction` reports the generated function as broken, a successful
`CompileBlock` has logged the failure and has nevertheless stored the entry
point built by this compilation in the slot of the block's ordinal, exactly
as it does when verification passes; the block is marked compiled, and a
lookup of the block's address returns the new entry point. -/
theorem CompileBlock_publishes_despite_verification_failure (llvm : Backend) (capacity : Nat)
    (s s1 : RecompilationEngine) (b b1 : BlockEntry)
    (hv : llvm.verifyFunction (b.cfg.start_address, b.revision) b.cfg = true)
    (h : CompileBlock llvm capacity s b = some (s1, b1)) :
    LogRecord.VerificationFailed (b.cfg.start_address, b.revision) ∈ s1.m_log ∧
    (∃ o, findOrdinal s1.m_address_to_ordinal b.cfg.start_address = some o ∧
      s1.m_executable_lookup o = .native s.created ∧
      s1.m_executable_engine o = some s.created) ∧
    (GetOrdinal s1 b.cfg.start_address ≠ 0xFFFFFFFF →
      GetExecutable s1 (GetOrdinal s1 b.cfg.start_address) = .native s.created) ∧
    b1.is_compiled = true ∧
    (∀ llvm2 : Backend, ∃ s2, CompileBlock llvm2 capacity s b = some (s2, b1) ∧
      s2.m_executable_lookup = s1.m_executable_lookup ∧
      s2.m_address_to_ordinal = s1.m_address_to_ordinal) := by
  obtain ⟨s2, o, ha, e1, e2, e3, e4, e5, e6, e7, e8, hlog, hb1⟩ := CompileBlock_spec h
  have hf : findOrdinal s1.m_address_to_ordinal b.cfg.start_address = some o := by
    rw [e2]; exact findOrdinal_AllocateOrdinal ha
  refine ⟨?_, ⟨o, hf, ?_, ?_⟩, ?_, ?_, ?_⟩
  · rw [hlog, hv]; simp
  · rw [e3]; simp
  · rw [e4]; simp
  · intro _
    simp only [GetOrdinal, GetExecutable, hf]
    rw [e3]; simp
  · rw [hb1]
  · intro llvm2
    obtain ⟨s3, b3, h3⟩ := (CompileBlock_of_AllocateOrdinal llvm2 capacity s b).2 s2 o ha
    obtain ⟨s4, o4, ha4, f1, f2, f3, f4, f5, f6, f7, f8, hlog4, hb3⟩ := CompileBlock_spec h3
    rw [ha] at ha4
    cases ha4
    refine ⟨s3, ?_, ?_, ?_⟩
    · rw [h3, hb3, hb1]
    · rw [f3, e3]
    · rw [f2, e2]

/-- C10 (amended) at a concrete input: with a backend whose verification
always fails, address `0x1000` is allocated as a function on a fresh engine;
`CompileBlock` on the function block then logs the verification failure and
stores the native entry point in the slot of the block's ordinal. -/
theorem CompileBlock_publishes_despite_verification_failure_witness :
    ∃ s1 b1, CompileBlock ⟨fun _ _ => true⟩ 4 (insertOrdinal (storeDefault fresh true) 0x1000)
        (BlockEntry.new 0x1000 0x1000) = some (s1, b1) ∧
      LogRecord.VerificationFailed (0x1000, 0) ∈ s1.m_log ∧
      ∃ o, findOrdinal s1.m_address_to_ordinal 0x1000 = some o ∧
        s1.m_executable_lookup o = .native 0 ∧ s1.m_executable_engine o = some 0 :=
  ⟨_, _, rfl,
    (CompileBlock_publishes_despite_verification_failure ⟨fun _ _ => true⟩ 4
      (insertOrdinal (storeDefault fresh true) 0x1000) _ (BlockEntry.new 0x1000 0x1000) _
      rfl rfl).1,
    (CompileBlock_publishes_despite_verification_failure ⟨fun _ _ => true⟩ 4
      (insertOrdinal (storeDefault fresh true) 0x1000) _ (BlockEntry.new 0x1000 0x1000) _
      rfl rfl).2.1⟩

/-- C10 as stated fails: with a backend whose verification always fails,
`CompileBlock` on the function block at `0x1000`, whose slot 0 holds the
default handler `ExecuteFunction`, logs the verification failure and leaves
the native entry point in slot 0, not the default handler. -/
theorem CompileBlock_verification_failure_counterexample :
    (insertOrdinal (storeDefault fresh true) 0x1000).m_executable_lookup 0 = .ExecuteFunction ∧
    ((CompileBlock ⟨fun _ _ => true⟩ 4 (insertOrdinal (storeDefault fresh true) 0x1000)
        (BlockEntry.new 0x1000 0x1000)).map fun r =>
      (decide (LogRecord.VerificationFailed (0x1000, 0) ∈ r.1.m_log),
       GetOrdinal r.1 0x1000, GetExecutable r.1 (GetOrdinal r.1 0x1000))) =
      some (true, 0, .native 0) := by
  decide

end RecompilationEngine

/-- C11, the code at the failing input.  The merge of the compiled-block entry
`(entry 0x100, exit 0x108)` followed by the instruction entry `0x10C` into an
empty CFG records `0x10C = 0x108 + 4` as a branch target of `0x108`: lines
506-508 insert the successor without the comparison with `+ 4` that lines
497-499 make for an instruction entry.  The tracer produces this trace from
the events `exampleBlockExitEvents`, and `ProcessExecutionTrace` leaves the
edge in the CFG of function `0x100`.  The sibling path does filter: merging
an instruction entry into a CFG without fallthrough edges leaves it without
fallthrough edges. -/
theorem UpdateControlFlowGraph_records_fallthrough :
    ((UpdateControlFlowGraph (ControlFlowGraph.new 0x100 0x100) (.CompiledBlock 0x100 0x108)
        (some (.Instruction 0x10C))).branches.targets 0x108 = {0x10C} ∧
      (0x108 + 4) % 2 ^ 32 = 0x10C) ∧
    Tracer.run [] exampleBlockExitEvents =
      some ([], [ExecutionTrace.mk (some .Linear) 0x100
        [.CompiledBlock 0x100 0x108, .Instruction 0x10C]]) ∧
    ((RecompilationEngine.ProcessExecutionTrace ⟨fun _ _ => false⟩ 4 exampleGetId
        RecompilationEngine.fresh
        (ExecutionTrace.mk (some .Linear) 0x100
          [.CompiledBlock 0x100 0x108, .Instruction 0x10C])).map fun s =>
      (RecompilationEngine.findBlock s.m_block_table (0x100, 0x100)).map fun b =>
        b.cfg.branches.targets 0x108) = some (some {0x10C}) ∧
    (∀ (g : ControlFlowGraph) (a : Nat) (n : Option ExecutionTraceEntry),
      g.noFallthrough → (UpdateControlFlowGraph g (.Instruction a) n).noFallthrough) := by
  refine ⟨by decide, by decide, by decide, ?_⟩
  intro g a n hg k
  rcases n with _ | (t | q | ⟨q, y⟩)
  · exact hg k
  · exact hg k
  · simp only [UpdateControlFlowGraph]
    split
    · rename_i hne
      simp only []
      rw [AddressMap.targets_insertAt]
      by_cases hk : k = a
      · subst hk
        simp only [if_true, Finset.mem_insert, not_or]
        exact ⟨fun e => hne e.symm, hg k⟩
      · simp only [hk, if_false]
        exact hg k
    · exact hg k
  · simp only [UpdateControlFlowGraph]
    split
    · rename_i hne
      simp only []
      rw [AddressMap.targets_insertAt]
      by_cases hk : k = a
      · subst hk
        simp only [if_true, Finset.mem_insert, not_or]
        exact ⟨fun e => hne e.symm, hg k⟩
      · simp only [hk, if_false]
        exact hg k
    · exact hg k

/-- C16: branch classification is total and defaults to non-branch.  With
`op = w >> 26`, `lk = w & 1` and `xo = (w >> 1) & 0x3FF` (and these are the
quotient by `2^26`, the parity, and the quotient by 2 reduced modulo `2^10`):
op 16 or 18 gives FunctionCall if `lk` else LocalBranch; op 19 with xo 16
gives FunctionCall if `lk` else Return; op 19 with xo 528 gives FunctionCall
if `lk` else LocalBranch; op 19 with another xo gives NonBranch; op 1 with the
`EIF_PERFORM_BLR` bit gives FunctionCall if the `EIF_USE_BRANCH` bit is set
else Return; op 1 with only the `EIF_USE_BRANCH` bit gives LocalBranch; every
other word, in particular every word whose op is not 1, 16, 18 or 19, gives
NonBranch. -/
theorem GetBranchTypeFromInstruction_classifies (EIF_PERFORM_BLR EIF_USE_BRANCH w : Nat) :
    (w >>> 26 = w / 2 ^ 26 ∧ w &&& 1 = w % 2 ∧ (w >>> 1) &&& 0x3FF = w / 2 % 2 ^ 10) ∧
    ((w >>> 26 = 16 ∨ w >>> 26 = 18) →
      GetBranchTypeFromInstruction EIF_PERFORM_BLR EIF_USE_BRANCH w =
        if w &&& 1 = 1 then .FunctionCall else .LocalBranch) ∧
    (w >>> 26 = 19 → (w >>> 1) &&& 0x3FF = 16 →
      GetBranchTypeFromInstruction EIF_PERFORM_BLR EIF_USE_BRANCH w =
        if w &&& 1 = 1 then .FunctionCall else .Return) ∧
    (w >>> 26 = 19 → (w >>> 1) &&& 0x3FF = 528 →
      GetBranchTypeFromInstruction EIF_PERFORM_BLR EIF_USE_BRANCH w =
        if w &&& 1 = 1 then .FunctionCall else .LocalBranch) ∧
    (w >>> 26 = 19 → (w >>> 1) &&& 0x3FF ≠ 16 → (w >>> 1) &&& 0x3FF ≠ 528 →
      GetBranchTypeFromInstruction EIF_PERFORM_BLR EIF_USE_BRANCH w = .NonBranch) ∧
    (w >>> 26 = 1 → w &&& EIF_PERFORM_BLR ≠ 0 →
      GetBranchTypeFromInstruction EIF_PERFORM_BLR EIF_USE_BRANCH w =
        if w &&& EIF_USE_BRANCH ≠ 0 then .FunctionCall else .Return) ∧
    (w >>> 26 = 1 → w &&& EIF_PERFORM_BLR = 0 → w &&& EIF_USE_BRANCH ≠ 0 →
      GetBranchTypeFromInstruction EIF_PERFORM_BLR EIF_USE_BRANCH w = .LocalBranch) ∧
    (w >>> 26 = 1 → w &&& EIF_PERFORM_BLR = 0 → w &&& EIF_USE_BRANCH = 0 →
      GetBranchTypeFromInstruction EIF_PERFORM_BLR EIF_USE_BRANCH w = .NonBranch) ∧
    (w >>> 26 ≠ 1 → w >>> 26 ≠ 16 → w >>> 26 ≠ 18 → w >>> 26 ≠ 19 →
      GetBranchTypeFromInstruction EIF_PERFORM_BLR EIF_USE_BRANCH w = .NonBranch) := by
  have hlk : w &&& 1 = w % 2 := Nat.and_one_is_mod w
  have hlk2 : w &&& 1 = 0 ∨ w &&& 1 = 1 := by omega
  refine ⟨⟨Nat.shiftRight_eq_div_pow w 26, hlk, ?_⟩, ?_, ?_, ?_, ?_, ?_, ?_, ?_, ?_⟩
  · rw [Nat.shiftRight_eq_div_pow, Nat.pow_one]
    exact Nat.and_pow_two_sub_one_eq_mod (w / 2) 10
  · intro h
    unfold GetBranchTypeFromInstruction
    simp only [h, if_true]
    rcases hlk2 with h0 | h1
    · simp [h0]
    · simp [h1]
  · intro h1 h2
    unfold GetBranchTypeFromInstruction
    simp only [h1, h2]
    rcases hlk2 with h0 | h1
    · simp [h0]
    · simp [h1]
  · intro h1 h2
    unfold GetBranchTypeFromInstruction
    simp only [h1, h2]
    rcases hlk2 with h0 | h1
    · simp [h0]
    · simp [h1]
  · intro h1 h2 h3
    unfold GetBranchTypeFromInstruction
    simp [h1, h2, h3]
  · intro h1 h2
    unfold GetBranchTypeFromInstruction
    simp [h1, h2]
  · intro h1 h2 h3
    unfold GetBranchTypeFromInstruction
    simp [h1, h2, h3]
  · intro h1 h2 h3
    unfold GetBranchTypeFromInstruction
    simp [h1, h2, h3]
  · intro h1 h2 h3 h4
    unfold GetBranchTypeFromInstruction
    simp [h1, h2, h3, h4]

/-- C16 at concrete PowerPC words, with the masks `2` and `4`: `blr` is a
Return, `bl` a FunctionCall, `b` and `bctr` are LocalBranch, `bctrl` is a
FunctionCall, `addi` and `isync` (op 19, xo 150) are NonBranch. -/
theorem GetBranchTypeFromInstruction_classifies_witness :
    GetBranchTypeFromInstruction 2 4 0x4E800020 = .Return ∧
    GetBranchTypeFromInstruction 2 4 0x48000011 = .FunctionCall ∧
    GetBranchTypeFromInstruction 2 4 0x48000010 = .LocalBranch ∧
    GetBranchTypeFromInstruction 2 4 0x4E800420 = .LocalBranch ∧
    GetBranchTypeFromInstruction 2 4 0x4E800421 = .FunctionCall ∧
    GetBranchTypeFromInstruction 2 4 0x38600001 = .NonBranch ∧
    GetBranchTypeFromInstruction 2 4 0x4C00012C = .NonBranch :=
  ⟨((GetBranchTypeFromInstruction_classifies 2 4 0x4E800020).2.2.1 (by decide)
      (by decide)).trans (by decide),
    by decide, by decide, by decide, by decide, by decide, by decide⟩

namespace Tracer

/-- C17: trace finalisation.  On a stack whose top trace is `top`,
`Trace(Return)` hands exactly `top` to the engine with type Linear and its
entries unchanged, and leaves the traces below as the stack.
`Trace(ExitFromCompiledBlock, e, x)` appends `CompiledBlock(e, x)` to `top`;
if `x = 0` the result is that of `Return` on the extended trace (the Linear
trace handed over ends with the new entry, the stack is the traces below), and
if `x != 0` nothing is handed over and the stack keeps its depth, with the
extended trace on top. -/
theorem Trace_finalises (below : List ExecutionTrace) (top : ExecutionTrace)
    (arg1 arg2 e x : Nat) :
    Trace (below ++ [top]) .Return arg1 arg2 =
      some (below, some { top with type := some .Linear }) ∧
    (x = 0 →
      Trace (below ++ [top]) .ExitFromCompiledBlock e x =
        some (below, some { top with type := some .Linear,
                                     entries := top.entries ++ [.CompiledBlock e 0] }) ∧
      Trace (below ++ [top]) .ExitFromCompiledBlock e x =
        Trace (below ++ [{ top with entries := top.entries ++ [.CompiledBlock e x] }])
          .Return arg1 arg2) ∧
    (x ≠ 0 →
      Trace (below ++ [top]) .ExitFromCompiledBlock e x =
        some (below ++ [{ top with entries := top.entries ++ [.CompiledBlock e x] }], none) ∧
      (below ++ [({ top with entries := top.entries ++ [.CompiledBlock e x] } :
          ExecutionTrace)]).length = (below ++ [top]).length) := by
  refine ⟨by simp [Trace], fun hx => ?_, fun hx => ?_⟩
  · subst hx
    simp [Trace]
  · simp [Trace, setBack, hx]

/-- C17 at a concrete input: with the traces of functions `0x1000` and
`0x2000` on the stack, `Return` hands over the trace of `0x2000` as Linear,
and so does the exit of a compiled block with exit address 0, after its
entry; an exit with address `0x2010` hands nothing over. -/
theorem Trace_finalises_witness :
    Trace ([ExecutionTrace.mk none 0x1000 [.Instruction 0x1000]] ++
        [ExecutionTrace.mk none 0x2000 [.Instruction 0x2000]]) .Return 0 0 =
      some ([ExecutionTrace.mk none 0x1000 [.Instruction 0x1000]],
        some (ExecutionTrace.mk (some .Linear) 0x2000 [.Instruction 0x2000])) ∧
    Trace ([ExecutionTrace.mk none 0x1000 [.Instruction 0x1000]] ++
        [ExecutionTrace.mk none 0x2000 [.Instruction 0x2000]]) .ExitFromCompiledBlock 0x2004 0 =
      some ([ExecutionTrace.mk none 0x1000 [.Instruction 0x1000]],
        some (ExecutionTrace.mk (some .Linear) 0x2000
          [.Instruction 0x2000, .CompiledBlock 0x2004 0])) ∧
    Trace ([ExecutionTrace.mk none 0x1000 [.Instruction 0x1000]] ++
        [ExecutionTrace.mk none 0x2000 [.Instruction 0x2000]])
        .ExitFromCompiledBlock 0x2004 0x2010 =
      some ([ExecutionTrace.mk none 0x1000 [.Instruction 0x1000]] ++
        [ExecutionTrace.mk none 0x2000 [.Instruction 0x2000, .CompiledBlock 0x2004 0x2010]],
        none) :=
  ⟨(Trace_finalises _ _ 0 0 0 0).1,
   ((Trace_finalises _ _ 0 0 0x2004 0).2.1 rfl).1,
   ((Trace_finalises _ _ 0 0 0x2004 0x2010).2.2 (by decide)).1⟩

/-- C18: `Trace(ExitFromCompiledFunction, f, x)` on any stack.  With `x != 0`
exactly one trace is pushed, for function `f`, whose only entry is
`CompiledBlock(f, x)`, on top of the unchanged stack; with `x = 0` the stack
is unchanged; in neither case is a trace handed to the engine. -/
theorem Trace_ExitFromCompiledFunction (m_stack : List ExecutionTrace) (f x : Nat) :
    (x ≠ 0 →
      Trace m_stack .ExitFromCompiledFunction f x =
        some (m_stack ++ [{ type := none, function_address := f,
                            entries := [.CompiledBlock f x] }], none)) ∧
    (x = 0 → Trace m_stack .ExitFromCompiledFunction f x = some (m_stack, none)) ∧
    (∃ m_stack1, Trace m_stack .ExitFromCompiledFunction f x = some (m_stack1, none)) := by
  by_cases hx : x = 0
  · subst hx
    exact ⟨fun h => absurd rfl h, fun _ => by simp [Trace], ⟨m_stack, by simp [Trace]⟩⟩
  · refine ⟨fun _ => ?_, fun h => absurd h hx,
      ⟨m_stack ++ [{ type := none, function_address := f, entries := [.CompiledBlock f x] }],
        ?_⟩⟩
    · simp [Trace, hx, ExecutionTrace.new]
    · simp [Trace, hx, ExecutionTrace.new]

/-- C18 at a concrete input: on the empty stack, the exit of compiled function
`0x1000` at `0x1040` pushes the trace `[CompiledBlock(0x1000, 0x1040)]`, and an
exit with address 0 leaves the stack empty. -/
theorem Trace_ExitFromCompiledFunction_witness :
    Trace [] .ExitFromCompiledFunction 0x1000 0x1040 =
      some ([] ++ [ExecutionTrace.mk none 0x1000 [.CompiledBlock 0x1000 0x1040]], none) ∧
    Trace [] .ExitFromCompiledFunction 0x1000 0 = some ([], none) :=
  ⟨(Trace_ExitFromCompiledFunction [] 0x1000 0x1040).1 (by decide),
   (Trace_ExitFromCompiledFunction [] 0x1000 0).2.1 rfl⟩

end Tracer

namespace RecompilationEngine

theorem moduleNames_append (l1 l2 : List LogRecord) :
    moduleNames (l1 ++ l2) = moduleNames l1 ++ moduleNames l2 := by
  simp [moduleNames, List.filterMap_append]

theorem moduleNames_CompileBlock {llvm : Backend} {capacity : Nat}
    {s s1 : RecompilationEngine} {b b1 : BlockEntry}
    (h : CompileBlock llvm capacity s b = some (s1, b1)) :
    moduleNames s1.m_log = moduleNames s.m_log ++ [(b.cfg.start_address, b.revision)] := by
  obtain ⟨_, _, _, _, _, _, _, _, _, _, _, hlog, _⟩ := CompileBlock_spec h
  rw [hlog, moduleNames_append, moduleNames_append]
  by_cases hv : llvm.verifyFunction (b.cfg.start_address, b.revision) b.cfg = true
  · simp [moduleNames, hv]
  · simp [moduleNames, hv]

theorem moduleNames_compileRepeatedly {llvm : Backend} {capacity : Nat} (n : Nat) :
    ∀ {s s1 : RecompilationEngine} {b b1 : BlockEntry},
      compileRepeatedly llvm capacity n s b = some (s1, b1) → b.revision < 2 ^ 32 →
        moduleNames s1.m_log = moduleNames s.m_log ++
          (List.range n).map fun i => (b.cfg.start_address, (b.revision + i) % 2 ^ 32) := by
  induction n with
  | zero =>
    intro s s1 b b1 h _
    simp only [compileRepeatedly, Option.some.injEq, Prod.mk.injEq] at h
    obtain ⟨rfl, rfl⟩ := h
    simp
  | succ n ih =>
    intro s s1 b b1 h hlt
    simp only [compileRepeatedly] at h
    cases hc : CompileBlock llvm capacity s b with
    | none => rw [hc] at h; cases h
    | some r =>
      obtain ⟨s2, b2⟩ := r
      rw [hc] at h
      simp only [] at h
      have hb2 := (CompileBlock_spec hc).choose_spec.choose_spec.2.2.2.2.2.2.2.2.2.2
      have hstart : b2.cfg.start_address = b.cfg.start_address := by rw [hb2]
      have hrev : b2.revision = (b.revision + 1) % 2 ^ 32 := by rw [hb2]
      have h2 := ih h (by rw [hrev]; exact Nat.mod_lt _ (by norm_num))
      rw [h2, moduleNames_CompileBlock hc, hstart, hrev, List.range_succ_eq_map,
        List.append_assoc]
      congr 1
      simp only [List.map_cons, List.map_map, List.singleton_append, Nat.add_zero]
      rw [Nat.mod_eq_of_lt hlt]
      congr 1
      apply List.map_congr_left
      intro i _
      simp only [Function.comp, Nat.succ_eq_add_one]
      congr 1
      omega

/-- C19: compilation bookkeeping.  A successful `CompileBlock(b)` leaves the
block compiled, with `last_compiled_cfg_size` equal to the size of its CFG (so
its growth is 0), with its CFG and hit counter unchanged and its revision
increased by one (in `u32`); the slot of the ordinal of the block's start
address holds the entry point returned by the code generator.  In `n <= 2^32`
successive compilations of the same entry the symbol names handed to the code
generator are the start address paired with the revisions `r, r + 1, ...` and
are pairwise distinct. -/
theorem CompileBlock_bookkeeping (llvm : Backend) (capacity : Nat)
    (s s1 sn : RecompilationEngine) (b b1 bn : BlockEntry) (n : Nat)
    (h : CompileBlock llvm capacity s b = some (s1, b1))
    (hrev : b.revision < 2 ^ 32)
    (hn : compileRepeatedly llvm capacity n s b = some (sn, bn)) (hle : n ≤ 2 ^ 32) :
    (b1.is_compiled = true ∧ b1.last_compiled_cfg_size = b1.cfg.GetSize ∧ growth b1 = 0 ∧
      b1.cfg = b.cfg ∧ b1.num_hits = b.num_hits ∧
      b1.revision = (b.revision + 1) % 2 ^ 32 ∧
      (b.revision + 1 < 2 ^ 32 → b1.revision = b.revision + 1)) ∧
    (∃ o, findOrdinal s1.m_address_to_ordinal b.cfg.start_address = some o ∧
      GetOrdinal s1 b.cfg.start_address = o ∧
      s1.m_executable_lookup o =
        (Compiler.Compile llvm s (b.cfg.start_address, b.revision) b.cfg b.IsFunction).2.1) ∧
    (moduleNames sn.m_log = moduleNames s.m_log ++
        (List.range n).map (fun i => (b.cfg.start_address, (b.revision + i) % 2 ^ 32)) ∧
      ((List.range n).map
        fun i => (b.cfg.start_address, (b.revision + i) % 2 ^ 32)).Nodup) := by
  obtain ⟨s2, o, ha, e1, e2, e3, e4, e5, e6, e7, e8, hlog, hb1⟩ := CompileBlock_spec h
  refine ⟨?_, ⟨o, ?_, ?_, ?_⟩, moduleNames_compileRepeatedly n hn hrev, ?_⟩
  · subst hb1
    refine ⟨rfl, rfl, ?_, rfl, rfl, rfl, fun hlt => Nat.mod_eq_of_lt hlt⟩
    simp only [growth, size_t_sub]
    have h64 : (2 : Nat) ^ 64 = 18446744073709551616 := by norm_num
    rw [h64]
    omega
  · rw [e2]; exact findOrdinal_AllocateOrdinal ha
  · have hf : findOrdinal s1.m_address_to_ordinal b.cfg.start_address = some o := by
      rw [e2]; exact findOrdinal_AllocateOrdinal ha
    simp [GetOrdinal, hf]
  · rw [e3]
    simp [Compiler.Compile]
  · refine List.Nodup.map_on ?_ (List.nodup_range n)
    intro i hi j hj hij
    simp only [List.mem_range] at hi hj
    simp only [Prod.mk.injEq, true_and] at hij
    have h32 : (2 : Nat) ^ 32 = 4294967296 := by norm_num
    rw [h32] at hij hle hrev
    omega

end RecompilationEngine

namespace RecompilationEngine

/-- C19 at a concrete input: on a fresh engine the new function block at
`0x1000` is compiled; after one compilation it is compiled with revision 1
and growth 0, and three successive compilations hand the names with revisions
0, 1 and 2 to the code generator. -/
theorem CompileBlock_bookkeeping_witness :
    ∃ s1 b1 sn bn,
      CompileBlock ⟨fun _ _ => false⟩ 4 fresh (BlockEntry.new 0x1000 0x1000) = some (s1, b1) ∧
      compileRepeatedly ⟨fun _ _ => false⟩ 4 3 fresh (BlockEntry.new 0x1000 0x1000) =
        some (sn, bn) ∧
      b1.is_compiled = true ∧ growth b1 = 0 ∧ b1.revision = 1 ∧
      moduleNames sn.m_log = [(0x1000, 0), (0x1000, 1), (0x1000, 2)] := by
  have r1 : (CompileBlock ⟨fun _ _ => false⟩ 4 fresh (BlockEntry.new 0x1000 0x1000)).isSome =
      true := by decide!
  have rn : (compileRepeatedly ⟨fun _ _ => false⟩ 4 3 fresh
      (BlockEntry.new 0x1000 0x1000)).isSome = true := by decide!
  obtain ⟨⟨s1, b1⟩, h1⟩ := Option.isSome_iff_exists.1 r1
  obtain ⟨⟨sn, bn⟩, hn⟩ := Option.isSome_iff_exists.1 rn
  have h := CompileBlock_bookkeeping ⟨fun _ _ => false⟩ 4 fresh s1 sn
    (BlockEntry.new 0x1000 0x1000) b1 bn 3 h1 (by decide) hn (by decide)
  obtain ⟨⟨k1, _, k3, _, _, _, k7⟩, _, k8, _⟩ := h
  refine ⟨s1, b1, sn, bn, h1, hn, k1, k3, k7 (by decide), ?_⟩
  rw [k8]
  decide

end RecompilationEngine

namespace AddressMap

theorem insertAt_mono {m m1 : AddressMap} (hk : keys m ⊆ keys m1)
    (ht : ∀ k, targets m k ⊆ targets m1 k) (k v : Nat) :
    keys (insertAt m k v) ⊆ keys (insertAt m1 k v) ∧
    ∀ k2, targets (insertAt m k v) k2 ⊆ targets (insertAt m1 k v) k2 := by
  constructor
  · rw [keys_insertAt, keys_insertAt]
    exact Finset.insert_subset_insert k hk
  · intro k2
    rw [targets_insertAt, targets_insertAt]
    by_cases h : k2 = k
    · simp only [h, if_true]
      exact Finset.insert_subset_insert v (ht k)
    · simp only [h, if_false]
      exact ht k2

end AddressMap

/-- The merge is monotone: merging the same transition into a CFG and into a
CFG that contains it keeps the containment. -/
theorem UpdateControlFlowGraph_mono {g h : ControlFlowGraph} (hc : g.contained h)
    (e : ExecutionTraceEntry) (n : Option ExecutionTraceEntry) :
    (UpdateControlFlowGraph g e n).contained (UpdateControlFlowGraph h e n) := by
  obtain ⟨h1, h2, h3, h4, h5⟩ := hc
  have hi : ∀ a : Nat, insert a g.instruction_addresses ⊆ insert a h.instruction_addresses :=
    fun a => Finset.insert_subset_insert a h1
  rcases e with a | a | ⟨a, x⟩
  · exact ⟨h1, h2, h3, h4, h5⟩
  · rcases n with _ | (t | q | ⟨q, y⟩)
    · exact ⟨hi a, h2, h3, h4, h5⟩
    · obtain ⟨m1, m2⟩ := AddressMap.insertAt_mono h3 h5 a t
      exact ⟨hi a, h2, m1, h4, m2⟩
    · simp only [UpdateControlFlowGraph]
      split
      · obtain ⟨m1, m2⟩ := AddressMap.insertAt_mono h2 h4 a q
        exact ⟨hi a, m1, h3, m2, h5⟩
      · exact ⟨hi a, h2, h3, h4, h5⟩
    · simp only [UpdateControlFlowGraph]
      split
      · obtain ⟨m1, m2⟩ := AddressMap.insertAt_mono h2 h4 a q
        exact ⟨hi a, m1, h3, m2, h5⟩
      · exact ⟨hi a, h2, h3, h4, h5⟩
  · rcases n with _ | (t | q | ⟨q, y⟩)
    · exact ⟨h1, h2, h3, h4, h5⟩
    · obtain ⟨m1, m2⟩ := AddressMap.insertAt_mono h3 h5 x t
      exact ⟨h1, h2, m1, h4, m2⟩
    · obtain ⟨m1, m2⟩ := AddressMap.insertAt_mono h2 h4 x q
      exact ⟨h1, m1, h3, m2, h5⟩
    · obtain ⟨m1, m2⟩ := AddressMap.insertAt_mono h2 h4 x q
      exact ⟨h1, m1, h3, m2, h5⟩

theorem ControlFlowGraph.new_contained (a f : Nat) (g : ControlFlowGraph) :
    (ControlFlowGraph.new a f).contained g := by
  refine ⟨?_, ?_, ?_, ?_, ?_⟩ <;> simp [ControlFlowGraph.new, AddressMap.keys,
    AddressMap.targets, AddressMap.find]

namespace RecompilationEngine

theorem findBlock_eq_none_iff (key : Nat × Nat) :
    ∀ table : List BlockEntry,
      findBlock table key = none ↔ key ∉ table.map BlockEntry.key := by
  intro table
  induction table with
  | nil => simp [findBlock]
  | cons b table ih =>
    by_cases h : b.key = key
    · simp [findBlock, h]
    · have h2 : ¬ key = b.key := fun e => h e.symm
      simp [findBlock, h, h2, ih]

theorem findBlock_of_mem :
    ∀ {table : List BlockEntry}, uniqueKeys table → ∀ {b : BlockEntry}, b ∈ table →
      findBlock table b.key = some b := by
  intro table
  induction table with
  | nil => intro _ b hb; cases hb
  | cons b0 table ih =>
    intro hu b hb
    unfold uniqueKeys at hu
    simp only [List.map_cons, List.nodup_cons] at hu
    rcases List.mem_cons.1 hb with rfl | hb
    · simp [findBlock]
    · have hne : ¬ b0.key = b.key := by
        intro e
        exact hu.1 (e ▸ List.mem_map_of_mem BlockEntry.key hb)
      simp only [findBlock, hne, if_false]
      exact ih hu.2 hb

theorem map_key_modifyBlock (f : BlockEntry → BlockEntry) (k : Nat × Nat)
    (hf : ∀ b, b.key = k → (f b).key = k) :
    ∀ table : List BlockEntry,
      (modifyBlock f table k).map BlockEntry.key = table.map BlockEntry.key := by
  intro table
  induction table with
  | nil => rfl
  | cons b table ih =>
    by_cases h : b.key = k
    · simp [modifyBlock, h, hf b h]
    · simp [modifyBlock, h, ih]

theorem uniqueKeys_findOrInsertBlock {table : List BlockEntry} (hu : uniqueKeys table)
    (key : Nat × Nat) : uniqueKeys (findOrInsertBlock table key) := by
  unfold findOrInsertBlock
  cases h : findBlock table key with
  | some b => exact hu
  | none =>
    simp only []
    unfold uniqueKeys
    rw [List.map_append]
    refine List.Nodup.append hu (List.nodup_singleton _) ?_
    have hk : (BlockEntry.new key.1 key.2).key = key := rfl
    simp only [List.map_cons, List.map_nil, hk, List.disjoint_singleton]
    exact (findBlock_eq_none_iff key table).1 h

end RecompilationEngine

namespace RecompilationEngine

theorem key_update_cfg (e : ExecutionTraceEntry) (n : Option ExecutionTraceEntry)
    (k : Nat × Nat) (b : BlockEntry) (hb : b.key = k) :
    ({ b with cfg := UpdateControlFlowGraph b.cfg e n } : BlockEntry).key = k := by
  simp only [BlockEntry.key, (UpdateControlFlowGraph_addresses b.cfg e n).1,
    (UpdateControlFlowGraph_addresses b.cfg e n).2]
  exact hb

/-- The registry lookups after the two CFG updates of one iteration of the
merge loop (lines 469-472). -/
theorem findBlock_merge_step (t1 : List BlockEntry) (key fkey : Nat × Nat)
    (e : ExecutionTraceEntry) (n : Option ExecutionTraceEntry) (k : Nat × Nat) :
    findBlock
      (if key ≠ fkey then
        modifyBlock (fun b => { b with cfg := UpdateControlFlowGraph b.cfg e n })
          (modifyBlock (fun b => { b with cfg := UpdateControlFlowGraph b.cfg e n }) t1 key) fkey
      else modifyBlock (fun b => { b with cfg := UpdateControlFlowGraph b.cfg e n }) t1 key) k =
      if k = key ∨ k = fkey then
        (findBlock t1 k).map fun b => { b with cfg := UpdateControlFlowGraph b.cfg e n }
      else findBlock t1 k := by
  by_cases hkf : key = fkey
  · subst hkf
    simp only [ne_eq, not_true_eq_false, if_false, or_self]
    exact findBlock_modifyBlock _ key (key_update_cfg e n key) k t1
  · simp only [ne_eq, hkf, not_false_eq_true, if_true]
    rw [findBlock_modifyBlock _ fkey (key_update_cfg e n fkey) k,
      findBlock_modifyBlock _ key (key_update_cfg e n key) k]
    by_cases h1 : k = fkey
    · subst h1
      have h2 : ¬ k = key := fun e2 => hkf e2.symm
      rw [if_pos rfl, if_neg h2, if_pos (Or.inr rfl)]
    · by_cases h2 : k = key
      · simp [h1, h2, hkf]
      · simp [h1, h2]

theorem uniqueKeys_merge_step {t1 : List BlockEntry} (hu : uniqueKeys t1) (key fkey : Nat × Nat)
    (e : ExecutionTraceEntry) (n : Option ExecutionTraceEntry) :
    uniqueKeys
      (if key ≠ fkey then
        modifyBlock (fun b => { b with cfg := UpdateControlFlowGraph b.cfg e n })
          (modifyBlock (fun b => { b with cfg := UpdateControlFlowGraph b.cfg e n }) t1 key) fkey
      else modifyBlock (fun b => { b with cfg := UpdateControlFlowGraph b.cfg e n }) t1 key) := by
  unfold uniqueKeys
  split
  · rw [map_key_modifyBlock _ fkey (key_update_cfg e n fkey),
      map_key_modifyBlock _ key (key_update_cfg e n key)]
    exact hu
  · rw [map_key_modifyBlock _ key (key_update_cfg e n key)]
    exact hu

theorem functionCovers_merge_step {t1 : List BlockEntry} (hc : functionCovers t1)
    (key : Nat × Nat) (f : Nat) (hkey : key.2 = f)
    (e : ExecutionTraceEntry) (n : Option ExecutionTraceEntry) :
    functionCovers
      (if key ≠ (f, f) then
        modifyBlock (fun b => { b with cfg := UpdateControlFlowGraph b.cfg e n })
          (modifyBlock (fun b => { b with cfg := UpdateControlFlowGraph b.cfg e n }) t1 key)
          (f, f)
      else modifyBlock (fun b => { b with cfg := UpdateControlFlowGraph b.cfg e n }) t1 key) := by
  intro k b3 hk
  rw [findBlock_merge_step] at hk ⊢
  by_cases h1 : k = key ∨ k = (f, f)
  · have hk2 : k.2 = f := by
      rcases h1 with h | h
      · rw [h]; exact hkey
      · rw [h]
    rw [if_pos h1] at hk
    cases hb1 : findBlock t1 k with
    | none => rw [hb1] at hk; cases hk
    | some b1 =>
      rw [hb1] at hk
      simp only [Option.map_some', Option.some.injEq] at hk
      obtain ⟨fb1, hfb1, hcont⟩ := hc k b1 hb1
      rw [hk2] at hfb1 ⊢
      rw [if_pos (Or.inr rfl), hfb1]
      refine ⟨_, rfl, ?_⟩
      rw [← hk]
      exact UpdateControlFlowGraph_mono hcont e n
  · rw [if_neg h1] at hk
    obtain ⟨fb1, hfb1, hcont⟩ := hc k b3 hk
    by_cases h2 : (k.2, k.2) = key ∨ (k.2, k.2) = (f, f)
    · rw [if_pos h2, hfb1]
      refine ⟨_, rfl, ?_⟩
      exact ControlFlowGraph.contained_trans hcont (UpdateControlFlowGraph_contains fb1.cfg e n).1
    · rw [if_neg h2]
      exact ⟨fb1, hfb1, hcont⟩

theorem functionCovers_findOrInsertBlock {t : List BlockEntry} (hc : functionCovers t)
    (key : Nat × Nat)
    (hf : key.1 = key.2 ∨ ∃ fb, findBlock t (key.2, key.2) = some fb) :
    functionCovers (findOrInsertBlock t key) := by
  intro k b hk
  rw [findBlock_findOrInsertBlock] at hk ⊢
  cases hb0 : findBlock t k with
  | some b0 =>
    rw [hb0] at hk
    simp only [Option.some.injEq] at hk
    subst hk
    obtain ⟨fb, hfb, hcont⟩ := hc k b0 hb0
    rw [hfb]
    exact ⟨fb, rfl, hcont⟩
  | none =>
    rw [hb0] at hk
    by_cases hkk : k = key
    · subst hkk
      simp only [if_true, Option.some.injEq] at hk
      subst hk
      cases hfb : findBlock t (k.2, k.2) with
      | some fb => exact ⟨fb, rfl, ControlFlowGraph.new_contained _ _ _⟩
      | none =>
        rcases hf with h1 | ⟨fb, h2⟩
        · have hself : (k.2, k.2) = k := by
            obtain ⟨a, b⟩ := k
            simp only at h1
            simp [h1]
          simp only [hself, if_true]
          exact ⟨_, rfl, ControlFlowGraph.new_contained _ _ _⟩
        · rw [hfb] at h2; cases h2
    · simp [hkk] at hk

end RecompilationEngine

namespace RecompilationEngine

theorem merge_step_inv (t : List BlockEntry) (f p : Nat) (bi : Option (Nat × Nat))
    (e : ExecutionTraceEntry) (n : Option ExecutionTraceEntry)
    (hu : uniqueKeys t) (hc : functionCovers t) (hf : ∃ fb, findBlock t (f, f) = some fb)
    (hbi : ∀ k, bi = some k → k.2 = f) :
    uniqueKeys
      (if bi.getD (p, f) ≠ (f, f) then
        modifyBlock (fun b => { b with cfg := UpdateControlFlowGraph b.cfg e n })
          (modifyBlock (fun b => { b with cfg := UpdateControlFlowGraph b.cfg e n })
            (if bi.isNone then findOrInsertBlock t (bi.getD (p, f)) else t) (bi.getD (p, f)))
          (f, f)
      else
        modifyBlock (fun b => { b with cfg := UpdateControlFlowGraph b.cfg e n })
          (if bi.isNone then findOrInsertBlock t (bi.getD (p, f)) else t) (bi.getD (p, f))) ∧
    functionCovers
      (if bi.getD (p, f) ≠ (f, f) then
        modifyBlock (fun b => { b with cfg := UpdateControlFlowGraph b.cfg e n })
          (modifyBlock (fun b => { b with cfg := UpdateControlFlowGraph b.cfg e n })
            (if bi.isNone then findOrInsertBlock t (bi.getD (p, f)) else t) (bi.getD (p, f)))
          (f, f)
      else
        modifyBlock (fun b => { b with cfg := UpdateControlFlowGraph b.cfg e n })
          (if bi.isNone then findOrInsertBlock t (bi.getD (p, f)) else t) (bi.getD (p, f))) ∧
    (∃ fb, findBlock
      (if bi.getD (p, f) ≠ (f, f) then
        modifyBlock (fun b => { b with cfg := UpdateControlFlowGraph b.cfg e n })
          (modifyBlock (fun b => { b with cfg := UpdateControlFlowGraph b.cfg e n })
            (if bi.isNone then findOrInsertBlock t (bi.getD (p, f)) else t) (bi.getD (p, f)))
          (f, f)
      else
        modifyBlock (fun b => { b with cfg := UpdateControlFlowGraph b.cfg e n })
          (if bi.isNone then findOrInsertBlock t (bi.getD (p, f)) else t) (bi.getD (p, f)))
      (f, f) = some fb) ∧
    (bi.getD (p, f)).2 = f := by
  have hkey : (bi.getD (p, f)).2 = f := by
    cases bi with
    | none => rfl
    | some k => exact hbi k rfl
  obtain ⟨fb, hfb⟩ := hf
  have h1 : uniqueKeys (if bi.isNone then findOrInsertBlock t (bi.getD (p, f)) else t) ∧
      functionCovers (if bi.isNone then findOrInsertBlock t (bi.getD (p, f)) else t) ∧
      findBlock (if bi.isNone then findOrInsertBlock t (bi.getD (p, f)) else t) (f, f) =
        some fb := by
    split
    · refine ⟨uniqueKeys_findOrInsertBlock hu _, functionCovers_findOrInsertBlock hc _ ?_, ?_⟩
      · rw [hkey]; exact Or.inr ⟨fb, hfb⟩
      · rw [findBlock_findOrInsertBlock, hfb]
    · exact ⟨hu, hc, hfb⟩
  obtain ⟨u1, c1, f1⟩ := h1
  refine ⟨uniqueKeys_merge_step u1 _ _ e n, functionCovers_merge_step c1 _ f hkey e n, ?_, hkey⟩
  rw [findBlock_merge_step, if_pos (Or.inr rfl), f1]
  exact ⟨_, rfl⟩

theorem mergeInv_mergeEntry (execution_trace : ExecutionTrace) (st : MergeState)
    (e : ExecutionTraceEntry) (rest : List ExecutionTraceEntry)
    (h : mergeInv execution_trace.function_address st) :
    mergeInv execution_trace.function_address (mergeEntry execution_trace st e rest) := by
  obtain ⟨hu, hc, hf, hbi⟩ := h
  have hbi2 : ∀ (c : Prop) [Decidable c] (k : Nat × Nat),
      (if c then none else st.block_i) = some k → k.2 = execution_trace.function_address := by
    intro c _ k hk
    split at hk
    · cases hk
    · exact hbi k hk
  unfold mergeEntry mergeInv
  refine ⟨?_, ?_, ?_, ?_⟩
  · exact (merge_step_inv _ _ _ _ _ _ hu hc hf (hbi2 _)).1
  · exact (merge_step_inv _ _ _ _ _ _ hu hc hf (hbi2 _)).2.1
  · exact (merge_step_inv _ _ _ _ _ _ hu hc hf (hbi2 _)).2.2.1
  · intro k hk
    simp only [Option.some.injEq] at hk
    rw [← hk]
    exact (merge_step_inv st.table _ e.GetPrimaryAddress _ e none hu hc hf (hbi2 _)).2.2.2

theorem mergeInv_mergeEntries (execution_trace : ExecutionTrace) :
    ∀ (l : List ExecutionTraceEntry) (st : MergeState),
      mergeInv execution_trace.function_address st →
        mergeInv execution_trace.function_address (mergeEntries execution_trace st l) := by
  intro l
  induction l with
  | nil => intro st h; exact h
  | cons e rest ih =>
    intro st h
    simp only [mergeEntries]
    exact ih _ (mergeInv_mergeEntry execution_trace st e rest h)

end RecompilationEngine

namespace RecompilationEngine

theorem registry_mergeTrace (GetId : ExecutionTrace → Nat) (s : RecompilationEngine)
    (t : ExecutionTrace) (hu : uniqueKeys s.m_block_table)
    (hc : functionCovers s.m_block_table) :
    uniqueKeys (mergeTrace GetId s t).1.m_block_table ∧
    functionCovers (mergeTrace GetId s t).1.m_block_table := by
  unfold mergeTrace
  simp only []
  cases findProcessed s.m_processed_execution_traces (GetId t) with
  | some bl => exact ⟨hu, hc⟩
  | none =>
    simp only [Log]
    have h0 : mergeInv t.function_address
        { table := findOrInsertBlock s.m_block_table (t.function_address, t.function_address),
          block_i := none, split_trace := false, tmp_block_list := [] } := by
      refine ⟨uniqueKeys_findOrInsertBlock hu _,
        functionCovers_findOrInsertBlock hc _ (Or.inl rfl), ?_, ?_⟩
      · simp only []
        rw [findBlock_findOrInsertBlock]
        cases findBlock s.m_block_table (t.function_address, t.function_address) with
        | some fb => exact ⟨fb, rfl⟩
        | none =>
          exact ⟨BlockEntry.new t.function_address t.function_address, by simp⟩
      · intro k hk; cases hk
    have h1 := mergeInv_mergeEntries t t.entries _ h0
    exact ⟨h1.1, h1.2.1⟩

theorem registry_hitBlocks {llvm : Backend} {capacity : Nat} {s s1 : RecompilationEngine}
    {bl : List (Nat × Nat)} (h : hitBlocks llvm capacity s bl = some s1)
    (hu : uniqueKeys s.m_block_table) (hc : functionCovers s.m_block_table) :
    uniqueKeys s1.m_block_table ∧ functionCovers s1.m_block_table := by
  obtain ⟨a1, _, _, a4, a5, _⟩ := hitBlocks_frame bl h
  constructor
  · unfold uniqueKeys at hu ⊢
    have hk : ∀ table : List BlockEntry,
        table.map BlockEntry.key =
          (table.map fun x => x.cfg).map fun g => (g.start_address, g.function_address) := by
      intro table
      simp [List.map_map, Function.comp, BlockEntry.key]
    rw [hk, a1, ← hk]
    exact hu
  · intro k b1 hb1
    cases hb : findBlock s.m_block_table k with
    | none => rw [a5 k hb] at hb1; cases hb1
    | some b =>
      obtain ⟨b2, hb2, hcfg, _⟩ := a4 k b hb
      rw [hb1] at hb2
      cases hb2
      obtain ⟨fb, hfb, hcont⟩ := hc k b hb
      obtain ⟨fb1, hfb1, hfcfg, _⟩ := a4 _ fb hfb
      refine ⟨fb1, hfb1, ?_⟩
      rw [hcfg, hfcfg]
      exact hcont

theorem registry_ProcessExecutionTrace {llvm : Backend} {capacity : Nat}
    {GetId : ExecutionTrace → Nat} {s s1 : RecompilationEngine} {t : ExecutionTrace}
    (h : ProcessExecutionTrace llvm capacity GetId s t = some s1)
    (hu : uniqueKeys s.m_block_table) (hc : functionCovers s.m_block_table) :
    uniqueKeys s1.m_block_table ∧ functionCovers s1.m_block_table := by
  unfold ProcessExecutionTrace at h
  simp only [] at h
  cases hh : hitBlocks llvm capacity (mergeTrace GetId s t).1 (mergeTrace GetId s t).2 with
  | none => rw [hh] at h; cases h
  | some s2 =>
    rw [hh] at h
    simp only [Option.some.injEq] at h
    subst h
    obtain ⟨m1, m2⟩ := registry_mergeTrace GetId s t hu hc
    have h3 := registry_hitBlocks hh m1 m2
    exact h3

theorem registry_processAll {llvm : Backend} {capacity : Nat} {GetId : ExecutionTrace → Nat}
    (ts : List ExecutionTrace) :
    ∀ {s s1 : RecompilationEngine}, processAll llvm capacity GetId s ts = some s1 →
      uniqueKeys s.m_block_table → functionCovers s.m_block_table →
        uniqueKeys s1.m_block_table ∧ functionCovers s1.m_block_table := by
  induction ts with
  | nil =>
    intro s s1 h hu hc
    simp only [processAll, Option.some.injEq] at h
    subst h
    exact ⟨hu, hc⟩
  | cons t ts ih =>
    intro s s1 h hu hc
    simp only [processAll] at h
    cases hp : ProcessExecutionTrace llvm capacity GetId s t with
    | none => rw [hp] at h; cases h
    | some s2 =>
      rw [hp] at h
      obtain ⟨u2, c2⟩ := registry_ProcessExecutionTrace hp hu hc
      exact ih h u2 c2

/-- C12: the function-level CFG accumulates the union of the block-level
observations.  In every state reached from an engine with an empty registry
by calls of `ProcessExecutionTrace`, every registry entry `b` (start address
`s`, owning function `f`) has the function entry `(f, f)` in the registry,
and the CFG of `b` is contained in the CFG of that entry: its instruction
addresses and, for every key, its branch targets and its call targets are
subsets of the function entry's.  The registry has one entry per key. -/
theorem function_cfg_covers_blocks (llvm : Backend) (capacity : Nat)
    (GetId : ExecutionTrace → Nat) (s0 s : RecompilationEngine) (ts : List ExecutionTrace)
    (h0 : s0.m_block_table = [])
    (hrun : processAll llvm capacity GetId s0 ts = some s) :
    (∀ b ∈ s.m_block_table, ∃ fb ∈ s.m_block_table,
      fb.cfg.start_address = b.cfg.function_address ∧
      fb.cfg.function_address = b.cfg.function_address ∧
      b.cfg.instruction_addresses ⊆ fb.cfg.instruction_addresses ∧
      (∀ k, b.cfg.branches.targets k ⊆ fb.cfg.branches.targets k) ∧
      (∀ k, b.cfg.calls.targets k ⊆ fb.cfg.calls.targets k)) ∧
    (s.m_block_table.map BlockEntry.key).Nodup := by
  have hu0 : uniqueKeys s0.m_block_table := by rw [h0]; exact List.nodup_nil
  have hc0 : functionCovers s0.m_block_table := by
    rw [h0]; intro k b hb; cases hb
  obtain ⟨hu, hc⟩ := registry_processAll ts hrun hu0 hc0
  refine ⟨?_, hu⟩
  intro b hb
  obtain ⟨fb, hfb, hcont⟩ := hc b.key b (findBlock_of_mem hu hb)
  have hkey := findBlock_key hfb
  simp only [BlockEntry.key, Prod.mk.injEq] at hkey
  exact ⟨fb, findBlock_mem hfb, hkey.1, hkey.2, hcont.1, hcont.2.2.2.1, hcont.2.2.2.2⟩

/-- C12 at a concrete input: after `exampleTwoBlockTrace` and
`exampleRevisitTrace` are processed on a fresh engine, the registry holds
the entry of function `0x100` and the blocks `0x200` and `0x300` of that
function, and each entry is covered by an entry of the registry that is its
function's entry. -/
theorem function_cfg_covers_blocks_witness :
    ∃ s, processAll ⟨fun _ _ => false⟩ 8 exampleGetId fresh
        [exampleTwoBlockTrace, exampleRevisitTrace] = some s ∧
      s.m_block_table.map BlockEntry.key = [(0x100, 0x100), (0x200, 0x100), (0x300, 0x100)] ∧
      ∀ b ∈ s.m_block_table, ∃ fb ∈ s.m_block_table,
        fb.cfg.start_address = b.cfg.function_address ∧
        fb.cfg.function_address = b.cfg.function_address ∧
        b.cfg.instruction_addresses ⊆ fb.cfg.instruction_addresses ∧
        (∀ k, b.cfg.branches.targets k ⊆ fb.cfg.branches.targets k) ∧
        (∀ k, b.cfg.calls.targets k ⊆ fb.cfg.calls.targets k) := by
  have r : ((processAll ⟨fun _ _ => false⟩ 8 exampleGetId fresh
      [exampleTwoBlockTrace, exampleRevisitTrace]).map fun s =>
        s.m_block_table.map BlockEntry.key) =
      some [(0x100, 0x100), (0x200, 0x100), (0x300, 0x100)] := by decide!
  cases hs : processAll ⟨fun _ _ => false⟩ 8 exampleGetId fresh
      [exampleTwoBlockTrace, exampleRevisitTrace] with
  | none => rw [hs] at r; cases r
  | some s =>
    rw [hs] at r
    simp only [Option.map_some', Option.some.injEq] at r
    exact ⟨s, rfl, r,
      (function_cfg_covers_blocks ⟨fun _ _ => false⟩ 8 exampleGetId fresh s
        [exampleTwoBlockTrace, exampleRevisitTrace] rfl hs).1⟩

end RecompilationEngine

namespace CPUHybridDecoderRecompiler

theorem findCached_eq_none_iff (a : Nat) :
    ∀ c : List (Nat × Nat × Nat), findCached c a = none ↔ a ∉ c.map Prod.fst := by
  intro c
  induction c with
  | nil => simp [findCached]
  | cons p c ih =>
    obtain ⟨a0, v⟩ := p
    by_cases h : a0 = a
    · simp [findCached, h]
    · have h2 : ¬ a = a0 := fun e => h e.symm
      simp [findCached, h, h2, ih]

theorem findCached_mem {a : Nat} {v : Nat × Nat} :
    ∀ {c : List (Nat × Nat × Nat)}, findCached c a = some v → (a, v) ∈ c := by
  intro c
  induction c with
  | nil => intro h; simp [findCached] at h
  | cons p c ih =>
    intro h
    obtain ⟨a0, v0⟩ := p
    by_cases h0 : a0 = a
    · simp only [findCached, h0, if_true, Option.some.injEq] at h
      subst h h0
      exact List.mem_cons_self _ _
    · simp only [findCached, h0, if_false] at h
      exact List.mem_cons_of_mem _ (ih h)

theorem findCached_setCached (v : Nat × Nat) (a a2 : Nat) :
    ∀ c : List (Nat × Nat × Nat),
      findCached (setCached v c a) a2 =
        if a2 = a then (findCached c a2).map (fun _ => v) else findCached c a2 := by
  intro c
  induction c with
  | nil => simp [setCached, findCached]
  | cons p c ih =>
    obtain ⟨a0, v0⟩ := p
    by_cases h0 : a0 = a
    · subst h0
      by_cases h2 : a2 = a0
      · subst h2; simp [setCached, findCached]
      · have h3 : ¬ a0 = a2 := fun e => h2 e.symm
        simp [setCached, findCached, h2, h3]
    · by_cases h2 : a2 = a
      · subst h2
        simp [setCached, findCached, h0, ih]
      · by_cases h3 : a0 = a2
        · simp [setCached, findCached, h0, h2, h3]
        · simp [setCached, findCached, h0, h2, h3, ih]

theorem findCached_append (a v) (a2 : Nat) :
    ∀ c : List (Nat × Nat × Nat),
      findCached (c ++ [(a, v)]) a2 =
        match findCached c a2 with
        | some x => some x
        | none => if a = a2 then some v else none := by
  intro c
  induction c with
  | nil => simp [findCached]
  | cons p c ih =>
    obtain ⟨a0, v0⟩ := p
    by_cases h0 : a0 = a2
    · simp [findCached, h0]
    · simp [findCached, h0, ih]

/-- The three cases of the resolution of lines 662-675. -/
theorem resolve_spec (d : CPUHybridDecoderRecompiler) (e : RecompilationEngine) (a : Nat)
    (dflt : Executable) :
    (findCached d.m_address_to_ordinal a = none → e.GetOrdinal a = 0xFFFFFFFF →
      resolve d e a dflt = (d, dflt)) ∧
    (∀ o c, findCached d.m_address_to_ordinal a = some (o, c) →
      resolve d e a dflt =
        ({ d with
           m_address_to_ordinal := setCached (o, (c + 1) % 2 ^ 32) d.m_address_to_ordinal a },
         e.GetExecutable o)) ∧
    (findCached d.m_address_to_ordinal a = none → e.GetOrdinal a ≠ 0xFFFFFFFF →
      resolve d e a dflt =
        ({ d with
           m_address_to_ordinal :=
             setCached (e.GetOrdinal a, (0 + 1) % 2 ^ 32)
               (d.m_address_to_ordinal ++ [(a, e.GetOrdinal a, 0)]) a },
         e.GetExecutable (e.GetOrdinal a))) := by
  refine ⟨fun h1 h2 => ?_, fun o c h => ?_, fun h1 h2 => ?_⟩
  · simp [resolve, h1, h2]
  · simp [resolve, h]
  · simp [resolve, h1, h2, findCached_append]

theorem map_fst_setCached (v : Nat × Nat) (a : Nat) :
    ∀ c : List (Nat × Nat × Nat), (setCached v c a).map Prod.fst = c.map Prod.fst := by
  intro c
  induction c with
  | nil => rfl
  | cons p c ih =>
    obtain ⟨a0, v0⟩ := p
    by_cases h : a0 = a
    · simp [setCached, h]
    · simp [setCached, h, ih]

theorem mem_setCached {v : Nat × Nat} {a : Nat} {p : Nat × Nat × Nat} :
    ∀ {c : List (Nat × Nat × Nat)}, p ∈ setCached v c a → p ∈ c ∨ p = (a, v) := by
  intro c
  induction c with
  | nil => intro h; simp [setCached] at h
  | cons q c ih =>
    intro h
    obtain ⟨a0, v0⟩ := q
    by_cases h0 : a0 = a
    · simp only [setCached, h0, if_true, List.mem_cons] at h
      rcases h with h | h
      · exact Or.inr h
      · exact Or.inl (List.mem_cons_of_mem _ h)
    · simp only [setCached, h0, if_false, List.mem_cons] at h
      rcases h with h | h
      · exact Or.inl (by rw [h]; exact List.mem_cons_self _ _)
      · rcases ih h with h1 | h1
        · exact Or.inl (List.mem_cons_of_mem _ h1)
        · exact Or.inr h1

theorem GetOrdinal_of_findOrdinal {e : RecompilationEngine} {a o : Nat}
    (h : RecompilationEngine.findOrdinal e.m_address_to_ordinal a = some o) :
    e.GetOrdinal a = o := by
  unfold RecompilationEngine.GetOrdinal
  rw [h]

theorem findOrdinal_of_GetOrdinal {e : RecompilationEngine} {a : Nat}
    (h : e.GetOrdinal a ≠ 0xFFFFFFFF) :
    RecompilationEngine.findOrdinal e.m_address_to_ordinal a = some (e.GetOrdinal a) := by
  unfold RecompilationEngine.GetOrdinal at h ⊢
  cases hx : RecompilationEngine.findOrdinal e.m_address_to_ordinal a with
  | none => rw [hx] at h; exact absurd rfl h
  | some o => rfl

theorem cacheAgrees_fresh (now : Int) : cacheAgrees (fresh now) RecompilationEngine.fresh :=
  ⟨List.nodup_nil, fun p hp => by simp [fresh] at hp⟩

theorem cacheAgrees_engine {d : CPUHybridDecoderRecompiler} {e e2 : RecompilationEngine}
    (hmap : ∀ a o, RecompilationEngine.findOrdinal e.m_address_to_ordinal a = some o →
      RecompilationEngine.findOrdinal e2.m_address_to_ordinal a = some o)
    (h : cacheAgrees d e) : cacheAgrees d e2 :=
  ⟨h.1, fun p hp => ⟨hmap _ _ (h.2 p hp).1, (h.2 p hp).2⟩⟩

theorem cacheAgrees_resolve {d : CPUHybridDecoderRecompiler} {e : RecompilationEngine}
    (a : Nat) (dflt : Executable) (h : cacheAgrees d e) :
    cacheAgrees (resolve d e a dflt).1 e := by
  obtain ⟨r1, r2, r3⟩ := resolve_spec d e a dflt
  cases hf : findCached d.m_address_to_ordinal a with
  | some v =>
    obtain ⟨o, c⟩ := v
    rw [r2 o c hf]
    refine ⟨?_, ?_⟩
    · show ((setCached _ _ _).map Prod.fst).Nodup
      rw [map_fst_setCached]; exact h.1
    · intro p hp
      rcases mem_setCached hp with hp | hp
      · exact h.2 p hp
      · subst hp
        exact h.2 (a, o, c) (findCached_mem hf)
  | none =>
    by_cases hg : e.GetOrdinal a = 0xFFFFFFFF
    · rw [r1 hf hg]; exact h
    · rw [r3 hf hg]
      have hnew : RecompilationEngine.findOrdinal e.m_address_to_ordinal a =
          some (e.GetOrdinal a) := findOrdinal_of_GetOrdinal hg
      refine ⟨?_, ?_⟩
      · show ((setCached _ _ _).map Prod.fst).Nodup
        rw [map_fst_setCached, List.map_append]
        refine List.Nodup.append h.1 (List.nodup_singleton _) ?_
        intro x hx1 hx2
        simp only [List.map_cons, List.map_nil, List.mem_singleton] at hx2
        subst hx2
        exact (findCached_eq_none_iff _ _).1 hf hx1
      · intro p hp
        rcases mem_setCached hp with hp | hp
        · rcases List.mem_append.1 hp with hp | hp
          · exact h.2 p hp
          · simp only [List.mem_singleton] at hp
            subst hp
            exact ⟨hnew, hg⟩
        · subst hp
          exact ⟨hnew, hg⟩

/-- The cache entry of the address after the resolution of lines 662-675, in
the two cases in which the address has an ordinal. -/
theorem findCached_resolve {d : CPUHybridDecoderRecompiler} {e : RecompilationEngine}
    {a o c : Nat} (dflt : Executable)
    (h : findCached d.m_address_to_ordinal a = some (o, c) ∨
      (findCached d.m_address_to_ordinal a = none ∧ e.GetOrdinal a = o ∧
        o ≠ 0xFFFFFFFF ∧ c = 0)) :
    findCached (resolve d e a dflt).1.m_address_to_ordinal a = some (o, (c + 1) % 2 ^ 32) ∧
    (resolve d e a dflt).2 = e.m_executable_lookup o := by
  obtain ⟨_, r2, r3⟩ := resolve_spec d e a dflt
  rcases h with h | ⟨h1, h2, h3, h4⟩
  · rw [r2 o c h]
    refine ⟨?_, rfl⟩
    show findCached (setCached _ _ _) a = _
    rw [findCached_setCached, h]
    simp
  · subst h2 h4
    rw [r3 h1 h3]
    refine ⟨?_, rfl⟩
    show findCached (setCached _ _ _) a = _
    rw [findCached_setCached, findCached_append, h1]
    simp

theorem findCached_erase (a : Nat) :
    ∀ c : List (Nat × Nat × Nat), findCached (erase c a) a = none := by
  intro c
  rw [findCached_eq_none_iff]
  simp [erase]

theorem sweep_eq_none :
    ∀ (visit : List Nat) (cache : List (Nat × Nat × Nat)) (e : RecompilationEngine),
      (∃ a ∈ visit, ∃ o, findCached cache a = some (o, 0)) →
        sweep visit cache e = none := by
  intro visit
  induction visit with
  | nil => intro cache e h; obtain ⟨a, ha, _⟩ := h; simp at ha
  | cons a0 rest ih =>
    intro cache e h
    obtain ⟨a, ha, o, hf⟩ := h
    unfold sweep
    cases h0 : findCached cache a0 with
    | none => rfl
    | some v =>
      obtain ⟨o0, c0⟩ := v
      by_cases hc : c0 = 0
      · simp only [hc, if_true, findCached_erase]
      · simp only [hc, if_false]
        have hne : a ≠ a0 := by
          intro heq
          subst heq
          rw [hf] at h0
          simp only [Option.some.injEq, Prod.mk.injEq] at h0
          exact hc h0.2.symm
        refine ih _ e ⟨a, ?_, o, ?_⟩
        · rcases List.mem_cons.1 ha with h1 | h1
          · exact absurd h1 hne
          · exact h1
        · rw [findCached_setCached, if_neg hne]
          exact hf

theorem findCached_append_of_none {a : Nat} (l : List (Nat × Nat × Nat)) :
    ∀ {c : List (Nat × Nat × Nat)}, findCached c a = none →
      findCached (c ++ l) a = findCached l a := by
  intro c
  induction c with
  | nil => intro _; rfl
  | cons p c ih =>
    intro h
    obtain ⟨a0, v0⟩ := p
    by_cases h0 : a0 = a
    · simp [findCached, h0] at h
    · simp only [findCached, h0, if_false] at h
      simp only [List.cons_append, findCached, h0, if_false]
      exact ih h

theorem setCached_append_of_none {a : Nat} (v : Nat × Nat) (l : List (Nat × Nat × Nat)) :
    ∀ {c : List (Nat × Nat × Nat)}, findCached c a = none →
      setCached v (c ++ l) a = c ++ setCached v l a := by
  intro c
  induction c with
  | nil => intro _; rfl
  | cons p c ih =>
    intro h
    obtain ⟨a0, v0⟩ := p
    by_cases h0 : a0 = a
    · simp [findCached, h0] at h
    · simp only [findCached, h0, if_false] at h
      simp only [List.cons_append, setCached, h0, if_false]
      exact congrArg _ (ih h)

/-- When no counter is 0 the loop resets every counter, erases nothing and
calls nothing. -/
theorem sweep_all_used (e : RecompilationEngine) :
    ∀ (suf pre : List (Nat × Nat × Nat)), ((pre ++ suf).map Prod.fst).Nodup →
      (∀ p ∈ suf, p.2.2 ≠ 0) →
        sweep (suf.map Prod.fst) (pre ++ suf) e =
          some (pre ++ suf.map fun p => (p.1, p.2.1, 0), e) := by
  intro suf
  induction suf with
  | nil => intro pre _ _; simp [sweep]
  | cons p suf ih =>
    intro pre hnd hall
    obtain ⟨a, o, c⟩ := p
    have hc : c ≠ 0 := hall (a, o, c) (List.mem_cons_self _ _)
    have hpre : findCached pre a = none := by
      rw [findCached_eq_none_iff]
      intro hmem
      rw [List.map_append, List.nodup_append] at hnd
      exact hnd.2.2 hmem (by simp)
    simp only [List.map_cons, sweep]
    rw [findCached_append_of_none _ hpre]
    simp only [findCached, if_true, hc, if_false]
    rw [setCached_append_of_none _ _ hpre]
    simp only [setCached, if_true]
    have h2 := ih (pre ++ [(a, o, 0)])
      (by
        have : (pre ++ [(a, o, 0)] ++ suf).map Prod.fst =
            (pre ++ (a, o, c) :: suf).map Prod.fst := by simp
        rw [this]; exact hnd)
      (fun q hq => hall q (List.mem_cons_of_mem _ hq))
    simp only [List.append_assoc, List.singleton_append] at h2
    exact h2

theorem findCached_resolve_other {a b : Nat} (hne : b ≠ a) (d : CPUHybridDecoderRecompiler)
    (e : RecompilationEngine) (dflt : Executable) :
    findCached (resolve d e b dflt).1.m_address_to_ordinal a =
      findCached d.m_address_to_ordinal a := by
  obtain ⟨r1, r2, r3⟩ := resolve_spec d e b dflt
  have hne2 : a ≠ b := fun h => hne h.symm
  cases hf : findCached d.m_address_to_ordinal b with
  | some v =>
    obtain ⟨o, c⟩ := v
    rw [r2 o c hf]
    show findCached (setCached _ _ _) a = _
    rw [findCached_setCached, if_neg hne2]
  | none =>
    by_cases hg : e.GetOrdinal b = 0xFFFFFFFF
    · rw [r1 hf hg]
    · rw [r3 hf hg]
      show findCached (setCached _ _ _) a = _
      rw [findCached_setCached, if_neg hne2, findCached_append]
      cases findCached d.m_address_to_ordinal a with
      | some x => rfl
      | none => simp [hne]

end CPUHybridDecoderRecompiler

namespace RecompilationEngine

theorem AllocateOrdinal_events_Log (capacity : Nat) (s : RecompilationEngine) (r : LogRecord)
    (a : Nat) (f : Bool) :
    AllocateOrdinal_events capacity (s.Log r) a f = AllocateOrdinal_events capacity s a f := rfl

theorem AllocateOrdinal_events_fenced (capacity : Nat) (s : RecompilationEngine) (a : Nat)
    (f : Bool) : fenceAfterEveryStore (AllocateOrdinal_events capacity s a f) = true := by
  unfold AllocateOrdinal_events
  cases findOrdinal s.m_address_to_ordinal a with
  | some o => rfl
  | none =>
    by_cases hc : s.m_next_ordinal < capacity
    · simp [hc, fenceAfterEveryStore]
    · simp [hc, fenceAfterEveryStore]

/-- The stores listed for `AllocateOrdinal` are the writes that the call
makes to the table. -/
theorem AllocateOrdinal_events_replay {capacity : Nat} {s s1 : RecompilationEngine}
    {a o : Nat} {f : Bool} (h : AllocateOrdinal capacity s a f = some (s1, o)) :
    replay (AllocateOrdinal_events capacity s a f) s.m_executable_lookup =
      s1.m_executable_lookup := by
  unfold AllocateOrdinal_events
  rcases AllocateOrdinal_spec h with ⟨hf, rfl⟩ | ⟨hf, hc, _, rfl⟩
  · rw [hf]; rfl
  · rw [hf]
    simp only [hc, if_true]
    rfl

/-- The accesses of a successful `CompileBlock`: those of `AllocateOrdinal`,
then the store of the entry point that `Compile` returned, into the slot of
the ordinal. -/
theorem CompileBlock_events_spec {llvm : Backend} {capacity : Nat}
    {s s1 : RecompilationEngine} {b b1 : BlockEntry}
    (h : CompileBlock llvm capacity s b = some (s1, b1)) :
    ∃ s2 o, AllocateOrdinal capacity s b.cfg.start_address b.IsFunction = some (s2, o) ∧
      CompileBlock_events llvm capacity s b =
        AllocateOrdinal_events capacity s b.cfg.start_address b.IsFunction ++
          [.store o (.native s.created)] ∧
      s1.m_executable_lookup = Function.update s2.m_executable_lookup o (.native s.created) := by
  obtain ⟨s2, o, ha, _, _, hl, _⟩ := CompileBlock_spec h
  refine ⟨s2, o, ha, ?_, hl⟩
  have hcr : s2.created = s.created := by
    rcases AllocateOrdinal_spec ha with ⟨_, rfl⟩ | ⟨_, _, _, rfl⟩ <;> rfl
  unfold CompileBlock_events
  simp only [AllocateOrdinal_Log, AllocateOrdinal_events_Log, ha, Option.map_some']
  show _ ++ [MemoryEvent.store o (.native s2.created)] = _
  rw [hcr]

theorem replay_append (l1 l2 : List MemoryEvent) :
    ∀ table, replay (l1 ++ l2) table = replay l2 (replay l1 table) := by
  induction l1 with
  | nil => intro table; rfl
  | cons x l1 ih =>
    intro table
    cases x <;> exact ih _

theorem fenceAfterEveryStore_append_store (o : Nat) (x : Executable) :
    ∀ l : List MemoryEvent, fenceAfterEveryStore (l ++ [.store o x]) = false := by
  intro l
  induction l with
  | nil => simp [fenceAfterEveryStore]
  | cons y l ih =>
    cases y <;> simp [fenceAfterEveryStore, ih]

/-- C20: the accesses to the ordinal table and their fences.  In
`AllocateOrdinal` the store of the default handler is followed by a release
fence, and in `GetExecutable` the read comes after an acquire fence.  In a
successful `CompileBlock` the listed stores are the writes of the call to the
table, the last access of the call is the store of the compiled entry point
into the slot of the ordinal, so no release fence follows this store; and
when the address already has an ordinal, the call locks, unlocks and stores
the entry point, without any release fence. -/
theorem CompileBlock_store_not_fenced (llvm : Backend) (capacity : Nat)
    (s s1 : RecompilationEngine) (b b1 : BlockEntry)
    (h : CompileBlock llvm capacity s b = some (s1, b1)) :
    (∀ a f, fenceAfterEveryStore (AllocateOrdinal_events capacity s a f) = true) ∧
    (∀ o, fenceBeforeEveryLoad (GetExecutable_events o) = true) ∧
    replay (CompileBlock_events llvm capacity s b) s.m_executable_lookup =
      s1.m_executable_lookup ∧
    (∃ o, (CompileBlock_events llvm capacity s b).getLast? = some (.store o (.native s.created)) ∧
      s1.m_executable_lookup o = .native s.created ∧ s1.GetOrdinal b.cfg.start_address = o) ∧
    fenceAfterEveryStore (CompileBlock_events llvm capacity s b) = false ∧
    (∀ o, findOrdinal s.m_address_to_ordinal b.cfg.start_address = some o →
      CompileBlock_events llvm capacity s b = [.lock, .unlock, .store o (.native s.created)] ∧
      MemoryEvent.release_fence ∉ CompileBlock_events llvm capacity s b) := by
  obtain ⟨s2, o, ha, hev, hl⟩ := CompileBlock_events_spec h
  obtain ⟨s2x, ox, hax, _, hm, _⟩ := CompileBlock_spec h
  rw [ha] at hax
  simp only [Option.some.injEq, Prod.mk.injEq] at hax
  obtain ⟨rfl, rfl⟩ := hax
  refine ⟨fun a f => AllocateOrdinal_events_fenced capacity s a f, fun _ => rfl, ?_, ⟨o, ?_, ?_, ?_⟩,
    ?_, fun o2 hf => ?_⟩
  · rw [hev, replay_append, AllocateOrdinal_events_replay ha, hl]
    rfl
  · rw [hev]; simp
  · rw [hl]; simp
  · unfold GetOrdinal
    rw [hm, findOrdinal_AllocateOrdinal ha]
  · rw [hev]; exact fenceAfterEveryStore_append_store _ _ _
  · have ho : o = o2 := by
      rcases AllocateOrdinal_spec ha with ⟨hf2, _⟩ | ⟨hf2, _⟩
      · rw [hf] at hf2
        simp only [Option.some.injEq] at hf2
        exact hf2.symm
      · rw [hf] at hf2; simp at hf2
    subst ho
    have hev2 : CompileBlock_events llvm capacity s b =
        [.lock, .unlock, .store o (.native s.created)] := by
      rw [hev]
      unfold AllocateOrdinal_events
      rw [hf]
      rfl
    refine ⟨hev2, ?_⟩
    rw [hev2]
    simp

theorem CompileBlock_store_not_fenced_witness :
    CompileBlock_events ⟨fun _ _ => false⟩ 8 exampleAllocatedEngine (BlockEntry.new 0x100 0x100) =
      [.lock, .unlock, .store 0 (.native 0)] ∧
    fenceAfterEveryStore (CompileBlock_events ⟨fun _ _ => false⟩ 8 exampleAllocatedEngine
      (BlockEntry.new 0x100 0x100)) = false := by
  have hs : (CompileBlock ⟨fun _ _ => false⟩ 8 exampleAllocatedEngine
      (BlockEntry.new 0x100 0x100)).isSome = true := by decide!
  cases hc : CompileBlock ⟨fun _ _ => false⟩ 8 exampleAllocatedEngine
      (BlockEntry.new 0x100 0x100) with
  | none => rw [hc] at hs; simp at hs
  | some p =>
    have h := CompileBlock_store_not_fenced ⟨fun _ _ => false⟩ 8 exampleAllocatedEngine p.1
      (BlockEntry.new 0x100 0x100) p.2 hc
    exact ⟨(h.2.2.2.2.2 0 (by decide)).1, h.2.2.2.2.1⟩

end RecompilationEngine

/-- C21: the edge recording rule of `UpdateControlFlowGraph(g, e, n)`.  For an
instruction entry at `p`, `p` joins the instruction addresses; a successor
that is an instruction or compiled-block entry with primary address
`q != p + 4` (in `u32`) makes `branches[p].insert(q)`, with `q = p + 4`
nothing more is recorded, and a call successor with target `t` makes
`calls[p].insert(t)`, keyed by the call site.  For a compiled-block entry
with exit address `x` the instruction addresses stay, and the successor's
address is inserted into `branches[x]` (instruction or compiled-block
successor) or `calls[x]` (call successor).  A call entry, and a compiled-block
entry without successor, leave `g` as it is; every field not named is
unchanged.  The insertion `m[k].insert(v)` adds `v` to the set under `k`,
creates the key `k` if needed and leaves every other key alone. -/
theorem UpdateControlFlowGraph_edge_rule (g : ControlFlowGraph) :
    (∀ p, UpdateControlFlowGraph g (.Instruction p) none =
      { g with instruction_addresses := insert p g.instruction_addresses }) ∧
    (∀ p n, (∀ t, n ≠ .FunctionCall t) → n.GetPrimaryAddress ≠ (p + 4) % 2 ^ 32 →
      UpdateControlFlowGraph g (.Instruction p) (some n) =
        { g with instruction_addresses := insert p g.instruction_addresses,
                 branches := g.branches.insertAt p n.GetPrimaryAddress }) ∧
    (∀ p n, (∀ t, n ≠ .FunctionCall t) → n.GetPrimaryAddress = (p + 4) % 2 ^ 32 →
      UpdateControlFlowGraph g (.Instruction p) (some n) =
        { g with instruction_addresses := insert p g.instruction_addresses }) ∧
    (∀ p t, UpdateControlFlowGraph g (.Instruction p) (some (.FunctionCall t)) =
      { g with instruction_addresses := insert p g.instruction_addresses,
               calls := g.calls.insertAt p t }) ∧
    (∀ a x, UpdateControlFlowGraph g (.CompiledBlock a x) none = g) ∧
    (∀ a x n, (∀ t, n ≠ .FunctionCall t) →
      UpdateControlFlowGraph g (.CompiledBlock a x) (some n) =
        { g with branches := g.branches.insertAt x n.GetPrimaryAddress }) ∧
    (∀ a x t, UpdateControlFlowGraph g (.CompiledBlock a x) (some (.FunctionCall t)) =
      { g with calls := g.calls.insertAt x t }) ∧
    (∀ a n, UpdateControlFlowGraph g (.FunctionCall a) n = g) ∧
    (∀ (m : AddressMap) (k v k2 : Nat),
      (m.insertAt k v).targets k2 = if k2 = k then insert v (m.targets k) else m.targets k2) ∧
    (∀ (m : AddressMap) (k v : Nat), (m.insertAt k v).keys = insert k m.keys) := by
  refine ⟨fun p => rfl, fun p n hn hq => ?_, fun p n hn hq => ?_, fun p t => rfl,
    fun a x => rfl, fun a x n hn => ?_, fun a x t => rfl, fun a n => rfl,
    fun m k v k2 => AddressMap.targets_insertAt m k v k2,
    fun m k v => AddressMap.keys_insertAt m k v⟩
  · cases n with
    | FunctionCall t => exact absurd rfl (hn t)
    | Instruction a =>
      simp only [ExecutionTraceEntry.GetPrimaryAddress] at hq
      simp only [UpdateControlFlowGraph, ExecutionTraceEntry.GetPrimaryAddress, ne_eq, hq,
        not_false_eq_true, if_true]
    | CompiledBlock a x =>
      simp only [ExecutionTraceEntry.GetPrimaryAddress] at hq
      simp only [UpdateControlFlowGraph, ExecutionTraceEntry.GetPrimaryAddress, ne_eq, hq,
        not_false_eq_true, if_true]
  · cases n with
    | FunctionCall t => exact absurd rfl (hn t)
    | Instruction a =>
      simp only [ExecutionTraceEntry.GetPrimaryAddress] at hq
      simp only [UpdateControlFlowGraph, ne_eq, hq, not_true_eq_false, if_false]
    | CompiledBlock a x =>
      simp only [ExecutionTraceEntry.GetPrimaryAddress] at hq
      simp only [UpdateControlFlowGraph, ne_eq, hq, not_true_eq_false, if_false]
  · cases n with
    | FunctionCall t => exact absurd rfl (hn t)
    | Instruction a => rfl
    | CompiledBlock a x => rfl

theorem UpdateControlFlowGraph_edge_rule_witness :
    (UpdateControlFlowGraph (ControlFlowGraph.new 0x100 0x100) (.Instruction 0x100)
      (some (.Instruction 0x200))).branches.targets 0x100 = {0x200} ∧
    (UpdateControlFlowGraph (ControlFlowGraph.new 0x100 0x100) (.Instruction 0x100)
      (some (.CompiledBlock 0x104 0x110))).branches = [] ∧
    (UpdateControlFlowGraph (ControlFlowGraph.new 0x100 0x100) (.CompiledBlock 0x100 0x110)
      (some (.Instruction 0x114))).branches.targets 0x110 = {0x114} :=
  ⟨by
    rw [(UpdateControlFlowGraph_edge_rule (ControlFlowGraph.new 0x100 0x100)).2.1 0x100
      (.Instruction 0x200) (fun t h => by cases h) (by decide)]
    decide,
   by
    rw [(UpdateControlFlowGraph_edge_rule (ControlFlowGraph.new 0x100 0x100)).2.2.1 0x100
      (.CompiledBlock 0x104 0x110) (fun t h => by cases h) (by decide)]
    rfl,
   by
    rw [(UpdateControlFlowGraph_edge_rule (ControlFlowGraph.new 0x100 0x100)).2.2.2.2.2.1
      0x100 0x110 (.Instruction 0x114) (fun t h => by cases h)]
    decide⟩

namespace Tracer

theorem noRepeat_append_singleton {entries : List ExecutionTraceEntry}
    {e : ExecutionTraceEntry} (h : noRepeat entries)
    (he : ∀ a, e = .Instruction a → ∀ y ∈ entries, isLoopHead a y = false) :
    noRepeat (entries ++ [e]) := by
  unfold noRepeat at h ⊢
  rw [List.pairwise_append]
  refine ⟨h, List.pairwise_singleton _ _, ?_⟩
  intro y hy z hz a hza
  simp only [List.mem_singleton] at hz
  subst hz
  exact he a hza y hy

theorem mem_of_getLast? {α : Type} {l : List α} {x : α} (h : l.getLast? = some x) : x ∈ l :=
  List.mem_of_getLast?_eq_some h

/-- One event keeps the traces of the stack free of repeated addresses, and
the trace it hands over is free of them as well. -/
theorem noRepeat_Trace {m_stack m_stack1 : List ExecutionTrace} {trace_type : TraceType}
    {arg1 arg2 : Nat} {handed : Option ExecutionTrace}
    (h : Trace m_stack trace_type arg1 arg2 = some (m_stack1, handed))
    (hinv : ∀ t ∈ m_stack, noRepeat t.entries) :
    (∀ t ∈ m_stack1, noRepeat t.entries) ∧ (∀ t, handed = some t → noRepeat t.entries) := by
  have hdrop : ∀ t ∈ m_stack.dropLast, noRepeat t.entries :=
    fun t ht => hinv t (List.mem_of_mem_dropLast ht)
  have hset : ∀ top : ExecutionTrace, noRepeat top.entries →
      ∀ t ∈ setBack m_stack top, noRepeat t.entries := by
    intro top htop t ht
    unfold setBack at ht
    rcases List.mem_append.1 ht with h1 | h1
    · exact hdrop t h1
    · simp only [List.mem_singleton] at h1
      subst h1; exact htop
  cases trace_type with
  | CallFunction =>
    simp only [Trace] at h
    cases hb : m_stack.getLast? with
    | none => rw [hb] at h; simp at h
    | some back =>
      rw [hb] at h
      simp only [Option.some.injEq, Prod.mk.injEq] at h
      obtain ⟨rfl, rfl⟩ := h
      refine ⟨hset _ ?_, fun t ht => by cases ht⟩
      exact noRepeat_append_singleton (hinv back (mem_of_getLast? hb))
        (fun a ha => by cases ha)
  | EnterFunction =>
    simp only [Trace, Option.some.injEq, Prod.mk.injEq] at h
    obtain ⟨rfl, rfl⟩ := h
    refine ⟨fun t ht => ?_, fun t ht => by cases ht⟩
    rcases List.mem_append.1 ht with h1 | h1
    · exact hinv t h1
    · simp only [List.mem_singleton] at h1
      subst h1
      exact List.Pairwise.nil
  | ExitFromCompiledFunction =>
    simp only [Trace] at h
    by_cases h2 : arg2 = 0
    · simp only [h2, ne_eq, not_true_eq_false, if_false, Option.some.injEq,
        Prod.mk.injEq] at h
      obtain ⟨rfl, rfl⟩ := h
      exact ⟨hinv, fun t ht => by cases ht⟩
    · simp only [ne_eq, h2, not_false_eq_true, if_true, Option.some.injEq,
        Prod.mk.injEq] at h
      obtain ⟨rfl, rfl⟩ := h
      refine ⟨fun t ht => ?_, fun t ht => by cases ht⟩
      rcases List.mem_append.1 ht with h1 | h1
      · exact hinv t h1
      · simp only [List.mem_singleton] at h1
        subst h1
        exact List.pairwise_singleton _ _
  | Return =>
    simp only [Trace] at h
    cases hb : m_stack.getLast? with
    | none => rw [hb] at h; simp at h
    | some back =>
      rw [hb] at h
      simp only [Option.some.injEq, Prod.mk.injEq] at h
      obtain ⟨rfl, rfl⟩ := h
      refine ⟨hdrop, fun t ht => ?_⟩
      simp only [Option.some.injEq] at ht
      subst ht
      exact hinv back (mem_of_getLast? hb)
  | Instruction =>
    simp only [Trace] at h
    cases hb : m_stack.getLast? with
    | none => rw [hb] at h; simp at h
    | some back =>
      rw [hb] at h
      dsimp only at h
      have hback : noRepeat back.entries := hinv back (mem_of_getLast? hb)
      cases hf : findLoop back.entries arg1 back.entries.length with
      | some i =>
        rw [hf] at h
        simp only [Option.some.injEq, Prod.mk.injEq] at h
        obtain ⟨rfl, rfl⟩ := h
        refine ⟨hset _ ?_, fun t ht => ?_⟩
        · exact List.Pairwise.sublist (List.take_sublist _ _) hback
        · simp only [Option.some.injEq] at ht
          subst ht
          exact List.Pairwise.sublist (List.drop_sublist _ _) hback
      | none =>
        rw [hf] at h
        simp only [Option.some.injEq, Prod.mk.injEq] at h
        obtain ⟨rfl, rfl⟩ := h
        refine ⟨hset _ ?_, fun t ht => by cases ht⟩
        refine noRepeat_append_singleton hback ?_
        intro a ha y hy
        simp only [ExecutionTraceEntry.Instruction.injEq] at ha
        subst ha
        obtain ⟨j, hj, hjy⟩ := List.getElem_of_mem hy
        exact (findLoop_eq_none back.entries arg1 back.entries.length).1 hf j y hj
          (by rw [List.getElem?_eq_getElem hj, hjy])
  | ExitFromCompiledBlock =>
    simp only [Trace] at h
    cases hb : m_stack.getLast? with
    | none => rw [hb] at h; simp at h
    | some back =>
      rw [hb] at h
      have hnew : noRepeat (back.entries ++ [.CompiledBlock arg1 arg2]) :=
        noRepeat_append_singleton (hinv back (mem_of_getLast? hb)) (fun a ha => by cases ha)
      by_cases h2 : arg2 = 0
      · simp only [h2, if_true, Option.some.injEq, Prod.mk.injEq] at h
        obtain ⟨rfl, rfl⟩ := h
        refine ⟨hdrop, fun t ht => ?_⟩
        simp only [Option.some.injEq] at ht
        subst ht
        rw [h2] at hnew
        exact hnew
      · simp only [h2, if_false, Option.some.injEq, Prod.mk.injEq] at h
        obtain ⟨rfl, rfl⟩ := h
        exact ⟨hset _ hnew, fun t ht => by cases ht⟩

theorem noRepeat_run (events : List (TraceType × Nat × Nat)) :
    ∀ {m_stack m_stack1 handed : List ExecutionTrace},
      run m_stack events = some (m_stack1, handed) →
      (∀ t ∈ m_stack, noRepeat t.entries) →
      ∀ t ∈ m_stack1 ++ handed, noRepeat t.entries := by
  induction events with
  | nil =>
    intro m_stack m_stack1 handed h hinv
    simp only [run, Option.some.injEq, Prod.mk.injEq] at h
    obtain ⟨rfl, rfl⟩ := h
    simpa using hinv
  | cons ev rest ih =>
    intro m_stack m_stack1 handed h hinv
    simp only [run] at h
    cases ht : Trace m_stack ev.1 ev.2.1 ev.2.2 with
    | none => rw [ht] at h; simp at h
    | some p =>
      obtain ⟨m_stack2, hd⟩ := p
      rw [ht] at h
      simp only at h
      cases hr : run m_stack2 rest with
      | none => rw [hr] at h; simp at h
      | some q =>
        obtain ⟨m_stack3, later⟩ := q
        rw [hr] at h
        simp only [Option.some.injEq, Prod.mk.injEq] at h
        obtain ⟨rfl, rfl⟩ := h
        obtain ⟨h1, h2⟩ := noRepeat_Trace ht hinv
        have h3 := ih hr h1
        intro t htm
        rcases List.mem_append.1 htm with h4 | h4
        · exact h3 t (List.mem_append_left _ h4)
        · rcases List.mem_append.1 h4 with h5 | h5
          · exact h2 t (by simpa using h5)
          · exact h3 t (List.mem_append_right _ h5)

theorem noRepeat_nodup {entries : List ExecutionTraceEntry} (h : noRepeat entries) :
    (instructionAddresses entries).Nodup := by
  unfold noRepeat at h
  unfold instructionAddresses List.Nodup
  refine List.Pairwise.filterMap _ ?_ h
  intro e1 e2 hr a ha b hb
  cases e2 with
  | FunctionCall t => simp at hb
  | CompiledBlock x y => simp at hb
  | Instruction a2 =>
    cases e1 with
    | FunctionCall t => simp at ha
    | CompiledBlock x y => simp at ha
    | Instruction a1 =>
      simp only [Option.mem_def, Option.some.injEq] at ha hb
      subst ha hb
      have := hr a2 rfl
      simp only [isLoopHead, beq_eq_false_iff_ne, ne_eq] at this
      exact this

theorem noRepeat_get {entries : List ExecutionTraceEntry} (h : noRepeat entries)
    {i j a : Nat} {e : ExecutionTraceEntry} (hij : i < j) (hi : entries[i]? = some e)
    (hj : entries[j]? = some (.Instruction a)) : isLoopHead a e = false := by
  unfold noRepeat at h
  rw [List.pairwise_iff_getElem] at h
  obtain ⟨hi1, hi2⟩ := List.getElem?_eq_some_iff.1 hi
  obtain ⟨hj1, hj2⟩ := List.getElem?_eq_some_iff.1 hj
  have := h i j hi1 hj1 hij a hj2
  rw [hi2] at this
  exact this

end Tracer

namespace Tracer

/-- C23: no repeated instruction inside a trace.  After any sequence of
events applied to a tracer with an empty stack on which every event is
defined, every trace on the stack and every trace handed to the engine has
instruction entries with pairwise distinct addresses, and no instruction
entry has the entry address of a compiled-block entry before it in the
trace; this covers every Loop trace handed over.  An event is defined exactly
when the stack is not empty or the event is `EnterFunction` or
`ExitFromCompiledFunction`. -/
theorem run_no_repeated_instruction (events : List (TraceType × Nat × Nat))
    (m_stack handed : List ExecutionTrace)
    (h : run [] events = some (m_stack, handed)) :
    (∀ t ∈ m_stack ++ handed,
      (instructionAddresses t.entries).Nodup ∧
      (∀ i j a : Nat, i < j → t.entries[i]? = some (ExecutionTraceEntry.Instruction a) →
        t.entries[j]? ≠ some (ExecutionTraceEntry.Instruction a)) ∧
      (∀ i j a x : Nat, i < j → t.entries[i]? = some (ExecutionTraceEntry.CompiledBlock a x) →
        t.entries[j]? ≠ some (ExecutionTraceEntry.Instruction a))) ∧
    (∀ (stack : List ExecutionTrace) (trace_type : TraceType) (arg1 arg2 : Nat),
      (Trace stack trace_type arg1 arg2).isSome = true ↔
        (stack ≠ [] ∨ trace_type = .EnterFunction ∨
          trace_type = .ExitFromCompiledFunction)) := by
  refine ⟨fun t ht => ?_, fun stack trace_type arg1 arg2 => ?_⟩
  · have hn : noRepeat t.entries :=
      noRepeat_run events h (fun t ht => by cases ht) t ht
    refine ⟨noRepeat_nodup hn, fun i j a hij hi hj => ?_, fun i j a x hij hi hj => ?_⟩
    · have := noRepeat_get hn hij hi hj
      simp [isLoopHead] at this
    · have := noRepeat_get hn hij hi hj
      simp [isLoopHead] at this
  · by_cases hs : stack = []
    · subst hs
      cases trace_type <;> simp [Trace]
      by_cases h2 : arg2 = 0 <;> simp [h2]
    · obtain ⟨back, hb⟩ : ∃ back, stack.getLast? = some back := by
        cases hl : stack.getLast? with
        | none => exact absurd (List.getLast?_eq_none_iff.1 hl) hs
        | some b => exact ⟨b, rfl⟩
      cases trace_type
      · simp [Trace, hb, hs]
      · simp [Trace]
      · by_cases h2 : arg2 = 0 <;> simp [Trace, h2]
      · simp [Trace, hb, hs]
      · cases hf : findLoop back.entries arg1 back.entries.length <;> simp [Trace, hb, hs, hf]
      · by_cases h2 : arg2 = 0 <;> simp [Trace, hb, hs, h2]

theorem run_no_repeated_instruction_witness :
    run [] exampleLoopEvents =
      some ([ExecutionTrace.mk none 0x100 [.Instruction 0x100]],
            [ExecutionTrace.mk (some .Loop) 0x100 [.Instruction 0x100, .Instruction 0x104]]) ∧
    (instructionAddresses [.Instruction 0x100, .Instruction 0x104]).Nodup :=
  ⟨by decide,
   ((run_no_repeated_instruction exampleLoopEvents
      [ExecutionTrace.mk none 0x100 [.Instruction 0x100]]
      [ExecutionTrace.mk (some .Loop) 0x100 [.Instruction 0x100, .Instruction 0x104]]
      (by decide)).1
      (ExecutionTrace.mk (some .Loop) 0x100 [.Instruction 0x100, .Instruction 0x104])
      (by simp)).1⟩

end Tracer

namespace RecompilationEngine

theorem mergeEntry_split (tr : ExecutionTrace) (st : MergeState) (e : ExecutionTraceEntry)
    (rest : List ExecutionTraceEntry) :
    (mergeEntry tr st e rest).split_trace = (e.isCompiledBlock || st.split_trace) := by
  cases e <;> rfl

/-- One iteration of the merge loop in terms of its parts: the block of the
entry is the current one or is looked up (and created when missing), and the
entry is merged into it and into the function entry with the successor that
`nextTrace` gives. -/
theorem mergeEntry_table (tr : ExecutionTrace) (st : MergeState) (e : ExecutionTraceEntry)
    (rest : List ExecutionTraceEntry) :
    ∃ key table1, (table1 = st.table ∨ table1 = findOrInsertBlock st.table key) ∧
      (mergeEntry tr st e rest).table =
        mergeInto table1 key (tr.function_address, tr.function_address) e
          (nextTrace tr (e.isCompiledBlock || st.split_trace) rest) := by
  cases e with
  | CompiledBlock a x =>
    exact ⟨(a, tr.function_address), findOrInsertBlock st.table (a, tr.function_address),
      Or.inr rfl, rfl⟩
  | Instruction a =>
    cases hb : st.block_i with
    | none =>
      refine ⟨(a, tr.function_address), findOrInsertBlock st.table (a, tr.function_address),
        Or.inr rfl, ?_⟩
      simp only [mergeEntry, hb]
      rfl
    | some k =>
      refine ⟨k, st.table, Or.inl rfl, ?_⟩
      simp only [mergeEntry, hb]
      rfl
  | FunctionCall a =>
    cases hb : st.block_i with
    | none =>
      refine ⟨(a, tr.function_address), findOrInsertBlock st.table (a, tr.function_address),
        Or.inr rfl, ?_⟩
      simp only [mergeEntry, hb]
      rfl
    | some k =>
      refine ⟨k, st.table, Or.inl rfl, ?_⟩
      simp only [mergeEntry, hb]
      rfl

theorem mergeUpTo_split (tr : ExecutionTrace) (tail : List ExecutionTraceEntry) :
    ∀ (init : List ExecutionTraceEntry) (st : MergeState),
      (mergeUpTo tr st init tail).split_trace =
        (st.split_trace || init.any ExecutionTraceEntry.isCompiledBlock) := by
  intro init
  induction init with
  | nil => intro st; simp [mergeUpTo]
  | cons e init ih =>
    intro st
    simp only [mergeUpTo, ih, mergeEntry_split, List.any_cons]
    cases e.isCompiledBlock <;> cases st.split_trace <;> simp

theorem mergeEntries_append (tr : ExecutionTrace) (tail : List ExecutionTraceEntry) :
    ∀ (init : List ExecutionTraceEntry) (st : MergeState),
      mergeEntries tr st (init ++ tail) = mergeEntries tr (mergeUpTo tr st init tail) tail := by
  intro init
  induction init with
  | nil => intro st; rfl
  | cons e init ih =>
    intro st
    simp only [List.cons_append, mergeEntries, mergeUpTo]
    exact ih _

theorem findBlock_mergeInto (t1 : List BlockEntry) (key fkey : Nat × Nat)
    (e : ExecutionTraceEntry) (n : Option ExecutionTraceEntry) (k : Nat × Nat) :
    findBlock (mergeInto t1 key fkey e n) k =
      if k = key ∨ k = fkey then
        (findBlock t1 k).map fun b => { b with cfg := UpdateControlFlowGraph b.cfg e n }
      else findBlock t1 k :=
  findBlock_merge_step t1 key fkey e n k

theorem map_modifyBlock_of_eq {β : Type} (g : BlockEntry → β) (f : BlockEntry → BlockEntry)
    (hf : ∀ b, g (f b) = g b) (k : Nat × Nat) :
    ∀ table : List BlockEntry, (modifyBlock f table k).map g = table.map g := by
  intro table
  induction table with
  | nil => rfl
  | cons b table ih =>
    by_cases h : b.key = k
    · simp [modifyBlock, h, hf]
    · simp [modifyBlock, h, ih]

/-- Merging an entry without successor records no edge: the branch and call
maps of every registry entry stay as they are. -/
theorem mergeInto_none_edges (t1 : List BlockEntry) (key fkey : Nat × Nat)
    (e : ExecutionTraceEntry) :
    (mergeInto t1 key fkey e none).map (fun b => (b.cfg.branches, b.cfg.calls)) =
      t1.map (fun b => (b.cfg.branches, b.cfg.calls)) := by
  have hf : ∀ b : BlockEntry,
      (fun b : BlockEntry => (b.cfg.branches, b.cfg.calls))
        { b with cfg := UpdateControlFlowGraph b.cfg e none } =
      (fun b : BlockEntry => (b.cfg.branches, b.cfg.calls)) b := by
    intro b
    cases e <;> rfl
  unfold mergeInto
  by_cases hk : key = fkey
  · simp only [ne_eq, hk, not_true_eq_false, if_false]
    exact map_modifyBlock_of_eq _ _ hf _ _
  · simp only [ne_eq, hk, not_false_eq_true, if_true]
    rw [map_modifyBlock_of_eq _ _ hf, map_modifyBlock_of_eq _ _ hf]

theorem hasFunction_mergeEntry (tr : ExecutionTrace) (st : MergeState)
    (e : ExecutionTraceEntry) (rest : List ExecutionTraceEntry) (fkey : Nat × Nat)
    (h : ∃ fb, findBlock st.table fkey = some fb) :
    ∃ fb, findBlock (mergeEntry tr st e rest).table fkey = some fb := by
  obtain ⟨fb, hfb⟩ := h
  obtain ⟨key, table1, ht, heq⟩ := mergeEntry_table tr st e rest
  have h1 : findBlock table1 fkey = some fb := by
    rcases ht with rfl | rfl
    · exact hfb
    · rw [findBlock_findOrInsertBlock, hfb]
  rw [heq, findBlock_mergeInto, h1]
  split <;> exact ⟨_, rfl⟩

theorem hasFunction_mergeUpTo (tr : ExecutionTrace) (tail : List ExecutionTraceEntry)
    (fkey : Nat × Nat) :
    ∀ (init : List ExecutionTraceEntry) (st : MergeState),
      (∃ fb, findBlock st.table fkey = some fb) →
      ∃ fb, findBlock (mergeUpTo tr st init tail).table fkey = some fb := by
  intro init
  induction init with
  | nil => intro st h; exact h
  | cons e init ih =>
    intro st h
    simp only [mergeUpTo]
    exact ih _ (hasFunction_mergeEntry tr st e _ fkey h)

/-- The successor of the last entry of a trace that starts the merge loop
with `split_trace = false`. -/
theorem nextTrace_last (tr : ExecutionTrace) (init : List ExecutionTraceEntry)
    (last : ExecutionTraceEntry) :
    nextTrace tr
      (last.isCompiledBlock || (false || init.any ExecutionTraceEntry.isCompiledBlock)) [] =
      if tr.type = some .Loop ∧ ∀ e ∈ init ++ [last], e.isCompiledBlock = false
      then tr.entries.head? else none := by
  show (if (!(last.isCompiledBlock ||
      (false || init.any ExecutionTraceEntry.isCompiledBlock)) &&
      tr.type == some .Loop) = true then tr.entries.head? else none) = _
  by_cases hl : tr.type = some .Loop
  · by_cases hc : ∀ e ∈ init ++ [last], e.isCompiledBlock = false
    · have h1 : last.isCompiledBlock = false := hc last (by simp)
      have h2 : init.any ExecutionTraceEntry.isCompiledBlock = false := by
        rw [List.any_eq_false]
        intro e he
        simp [hc e (List.mem_append_left _ he)]
      rw [if_pos (by simp [h1, h2, hl]), if_pos ⟨hl, hc⟩]
    · have h3 : (last.isCompiledBlock ||
          (false || init.any ExecutionTraceEntry.isCompiledBlock)) = true := by
        by_contra hn
        apply hc
        intro e he
        simp only [Bool.false_or, Bool.or_eq_true, List.any_eq_true, not_or, not_exists,
          not_and, Bool.not_eq_true] at hn
        rcases List.mem_append.1 he with h4 | h4
        · exact hn.2 e h4
        · simp only [List.mem_singleton] at h4
          subst h4; exact hn.1
      rw [if_neg (by rw [h3]; simp), if_neg (fun h => hc h.2)]
  · rw [if_neg (by simp [hl]), if_neg (fun h => hl h.1)]

end RecompilationEngine

namespace RecompilationEngine

/-- C24: the loop back-edge.  When `ProcessExecutionTrace` merges a trace that
is not yet processed, with last entry `last`, the last iteration of the merge
loop merges `last` into its block and into the function entry with this
successor: the first entry of the trace if the trace is a Loop and none of
its entries is a compiled block, and none otherwise.  Without successor the
merge of `last` leaves the branch and call maps of every registry entry as
they are.  For a Loop trace without compiled blocks whose last entry is the
instruction `p` and whose first entry is the instruction `q != p + 4`, the
CFG of the owning function holds the branch edge from `p` to `q` after the
merge and after the call. -/
theorem loop_back_edge (GetId : ExecutionTrace → Nat) (s : RecompilationEngine)
    (tr : ExecutionTrace) (init : List ExecutionTraceEntry) (last : ExecutionTraceEntry)
    (hnew : findProcessed s.m_processed_execution_traces (GetId tr) = none)
    (hent : tr.entries = init ++ [last]) :
    ∃ key table1,
      (table1 =
          (mergeUpTo tr
            { table := findOrInsertBlock s.m_block_table
                (tr.function_address, tr.function_address),
              block_i := none, split_trace := false, tmp_block_list := [] }
            init [last]).table ∨
        table1 = findOrInsertBlock
          (mergeUpTo tr
            { table := findOrInsertBlock s.m_block_table
                (tr.function_address, tr.function_address),
              block_i := none, split_trace := false, tmp_block_list := [] }
            init [last]).table key) ∧
      (mergeTrace GetId s tr).1.m_block_table =
        mergeInto table1 key (tr.function_address, tr.function_address) last
          (if tr.type = some .Loop ∧ ∀ e ∈ tr.entries, e.isCompiledBlock = false
           then tr.entries.head? else none) ∧
      ((tr.type ≠ some .Loop ∨ ∃ e ∈ tr.entries, e.isCompiledBlock = true) →
        (mergeTrace GetId s tr).1.m_block_table =
          mergeInto table1 key (tr.function_address, tr.function_address) last none ∧
        (mergeTrace GetId s tr).1.m_block_table.map (fun b => (b.cfg.branches, b.cfg.calls)) =
          table1.map (fun b => (b.cfg.branches, b.cfg.calls))) ∧
      (∀ p q : Nat, tr.type = some .Loop → (∀ e ∈ tr.entries, e.isCompiledBlock = false) →
        last = .Instruction p → tr.entries.head? = some (.Instruction q) →
        q ≠ (p + 4) % 2 ^ 32 →
        (∃ fb, findBlock (mergeTrace GetId s tr).1.m_block_table
            (tr.function_address, tr.function_address) = some fb ∧
          q ∈ fb.cfg.branches.targets p) ∧
        ∀ (llvm : Backend) (capacity : Nat) (s1 : RecompilationEngine),
          ProcessExecutionTrace llvm capacity GetId s tr = some s1 →
          ∃ fb, findBlock s1.m_block_table (tr.function_address, tr.function_address) =
              some fb ∧
            q ∈ fb.cfg.branches.targets p) := by
  have hst : ∀ st0 : MergeState, mergeEntries tr st0 tr.entries =
      mergeEntry tr (mergeUpTo tr st0 init [last]) last [] := by
    intro st0
    rw [hent, mergeEntries_append]
    rfl
  have htab : ∀ st0 : MergeState,
      (mergeTrace GetId s tr).1.m_block_table =
        (mergeEntries tr
          { table := findOrInsertBlock s.m_block_table
              (tr.function_address, tr.function_address),
            block_i := none, split_trace := false, tmp_block_list := [] } tr.entries).table := by
    intro _
    unfold mergeTrace
    simp only [hnew]
    rfl
  obtain ⟨key, table1, ht1, heq⟩ := mergeEntry_table tr
    (mergeUpTo tr
      { table := findOrInsertBlock s.m_block_table (tr.function_address, tr.function_address),
        block_i := none, split_trace := false, tmp_block_list := [] } init [last]) last []
  rw [mergeUpTo_split] at heq
  have hnext : nextTrace tr
      (last.isCompiledBlock || (false || init.any ExecutionTraceEntry.isCompiledBlock)) [] =
      if tr.type = some .Loop ∧ ∀ e ∈ tr.entries, e.isCompiledBlock = false
      then tr.entries.head? else none := by
    rw [nextTrace_last, hent]
  have hmerged : (mergeTrace GetId s tr).1.m_block_table =
      mergeInto table1 key (tr.function_address, tr.function_address) last
        (if tr.type = some .Loop ∧ ∀ e ∈ tr.entries, e.isCompiledBlock = false
         then tr.entries.head? else none) := by
    rw [htab ⟨[], none, false, []⟩, hst, heq, hnext]
  have hfun : ∃ fb0, findBlock table1 (tr.function_address, tr.function_address) = some fb0 := by
    have h0 : ∃ fb, findBlock (findOrInsertBlock s.m_block_table
        (tr.function_address, tr.function_address))
        (tr.function_address, tr.function_address) = some fb := by
      rw [findBlock_findOrInsertBlock]
      cases findBlock s.m_block_table (tr.function_address, tr.function_address) with
      | some b => exact ⟨b, rfl⟩
      | none => exact ⟨BlockEntry.new tr.function_address tr.function_address, by simp⟩
    obtain ⟨fb, hfb⟩ := hasFunction_mergeUpTo tr [last]
      (tr.function_address, tr.function_address) init
      { table := findOrInsertBlock s.m_block_table (tr.function_address, tr.function_address),
        block_i := none, split_trace := false, tmp_block_list := [] } h0
    rcases ht1 with rfl | rfl
    · exact ⟨fb, hfb⟩
    · rw [findBlock_findOrInsertBlock, hfb]
      exact ⟨fb, rfl⟩
  refine ⟨key, table1, ht1, hmerged, fun hno => ?_, fun p q hl hc hp hq hne => ?_⟩
  · have hcond : ¬ (tr.type = some .Loop ∧ ∀ e ∈ tr.entries, e.isCompiledBlock = false) := by
      rintro ⟨h1, h2⟩
      rcases hno with h3 | ⟨e, he, hcb⟩
      · exact h3 h1
      · rw [h2 e he] at hcb
        cases hcb
    rw [if_neg hcond] at hmerged
    refine ⟨hmerged, ?_⟩
    rw [hmerged]
    exact mergeInto_none_edges _ _ _ _
  · obtain ⟨fb0, hfb0⟩ := hfun
    rw [if_pos ⟨hl, hc⟩, hq, hp] at hmerged
    have hedge : ∃ fb, findBlock (mergeTrace GetId s tr).1.m_block_table
        (tr.function_address, tr.function_address) = some fb ∧
        q ∈ fb.cfg.branches.targets p := by
      rw [hmerged, findBlock_mergeInto, if_pos (Or.inr rfl), hfb0]
      refine ⟨_, rfl, ?_⟩
      show q ∈ (UpdateControlFlowGraph fb0.cfg (.Instruction p)
        (some (.Instruction q))).branches.targets p
      simp only [UpdateControlFlowGraph, ne_eq, hne, not_false_eq_true, if_true]
      rw [AddressMap.targets_insertAt, if_pos rfl]
      exact Finset.mem_insert_self _ _
    refine ⟨hedge, fun llvm capacity s1 hproc => ?_⟩
    obtain ⟨fb, hfb, hq2⟩ := hedge
    unfold ProcessExecutionTrace at hproc
    simp only [] at hproc
    cases hh : hitBlocks llvm capacity (mergeTrace GetId s tr).1 (mergeTrace GetId s tr).2 with
    | none => rw [hh] at hproc; simp at hproc
    | some s2 =>
      rw [hh] at hproc
      simp only [Option.some.injEq] at hproc
      subst hproc
      obtain ⟨b1, hb1, hcfg, _⟩ := (hitBlocks_frame _ hh).2.2.2.1 _ fb hfb
      refine ⟨b1, hb1, ?_⟩
      rw [hcfg]
      exact hq2

theorem loop_back_edge_witness :
    ∃ fb, findBlock (mergeTrace exampleGetId fresh exampleLoopTrace).1.m_block_table
        (0x100, 0x100) = some fb ∧
      0x100 ∈ fb.cfg.branches.targets 0x104 := by
  obtain ⟨key, table1, _, _, _, h⟩ := loop_back_edge exampleGetId fresh exampleLoopTrace
    [.Instruction 0x100] (.Instruction 0x104) rfl rfl
  exact (h 0x104 0x100 rfl (by decide) rfl rfl (by decide)).1

end RecompilationEngine

namespace Tracer

/-- A Loop trace that the tracer hands over starts with the loop head: the
instruction entry at the address that closed the loop, or the compiled-block
entry entered at it; it never starts with a call entry. -/
theorem handed_Loop_head {m_stack m_stack1 : List ExecutionTrace} {trace_type : TraceType}
    {arg1 arg2 : Nat} {t : ExecutionTrace}
    (h : Trace m_stack trace_type arg1 arg2 = some (m_stack1, some t))
    (hl : t.type = some .Loop) :
    ∃ e, t.entries.head? = some e ∧ isLoopHead arg1 e = true := by
  cases trace_type with
  | CallFunction =>
    simp only [Trace] at h
    cases hb : m_stack.getLast? with
    | none => rw [hb] at h; simp at h
    | some back => rw [hb] at h; simp at h
  | EnterFunction => simp [Trace] at h
  | ExitFromCompiledFunction =>
    simp only [Trace] at h
    by_cases h2 : arg2 = 0 <;> simp [h2] at h
  | Return =>
    simp only [Trace] at h
    cases hb : m_stack.getLast? with
    | none => rw [hb] at h; simp at h
    | some back =>
      rw [hb] at h
      simp only [Option.some.injEq, Prod.mk.injEq] at h
      obtain ⟨_, rfl⟩ := h
      simp at hl
  | Instruction =>
    simp only [Trace] at h
    cases hb : m_stack.getLast? with
    | none => rw [hb] at h; simp at h
    | some back =>
      rw [hb] at h
      dsimp only at h
      cases hf : findLoop back.entries arg1 back.entries.length with
      | none => rw [hf] at h; simp at h
      | some i =>
        rw [hf] at h
        simp only [Option.some.injEq, Prod.mk.injEq] at h
        obtain ⟨_, rfl⟩ := h
        obtain ⟨_, ⟨e, he, hhead⟩, _⟩ := (findLoop_eq_some back.entries arg1 _ i).1 hf
        refine ⟨e, ?_, hhead⟩
        show (back.entries.drop i).head? = some e
        rw [List.head?_drop]
        exact he
  | ExitFromCompiledBlock =>
    simp only [Trace] at h
    cases hb : m_stack.getLast? with
    | none => rw [hb] at h; simp at h
    | some back =>
      rw [hb] at h
      by_cases h2 : arg2 = 0
      · simp only [h2, if_true, Option.some.injEq, Prod.mk.injEq] at h
        obtain ⟨_, rfl⟩ := h
        simp at hl
      · simp [h2] at h

end Tracer

namespace AddressMap

theorem map_fst_insertAt (m : AddressMap) (k v : Nat) :
    (insertAt m k v).map Prod.fst =
      if k ∈ m.map Prod.fst then m.map Prod.fst else m.map Prod.fst ++ [k] := by
  induction m with
  | nil => simp [insertAt]
  | cons p m ih =>
    obtain ⟨k1, s⟩ := p
    by_cases h1 : k1 = k
    · subst h1
      simp [insertAt]
    · have h2 : ¬ k = k1 := fun e => h1 e.symm
      simp only [insertAt, h1, if_false, List.map_cons, ih, List.mem_cons, h2, false_or]
      split <;> simp

theorem nodup_insertAt {m : AddressMap} (k v : Nat) (h : (m.map Prod.fst).Nodup) :
    ((insertAt m k v).map Prod.fst).Nodup := by
  rw [map_fst_insertAt]
  split
  · exact h
  · rename_i hk
    exact List.Nodup.append h (List.nodup_singleton _) (by simpa using hk)

theorem bound_insertAt {m : AddressMap} {n : Nat} (k v : Nat) (hk : k < n)
    (h : ∀ x ∈ m.map Prod.fst, x < n) : ∀ x ∈ (insertAt m k v).map Prod.fst, x < n := by
  rw [map_fst_insertAt]
  split
  · exact h
  · intro x hx
    rcases List.mem_append.1 hx with h1 | h1
    · exact h x h1
    · simp only [List.mem_singleton] at h1
      subst h1; exact hk

theorem length_le_of_bound {m : AddressMap} {n : Nat} (hn : (m.map Prod.fst).Nodup)
    (h : ∀ x ∈ m.map Prod.fst, x < n) : m.length ≤ n := by
  have h1 : (m.map Prod.fst).toFinset ⊆ Finset.range n := by
    intro x hx
    rw [List.mem_toFinset] at hx
    exact Finset.mem_range.2 (h x hx)
  have h2 := Finset.card_le_card h1
  rw [List.toFinset_card_of_nodup hn, Finset.card_range, List.length_map] at h2
  exact h2

end AddressMap

theorem ControlFlowGraph.GetSize_lt {g : ControlFlowGraph} (h : g.inU32) :
    g.GetSize < 2 ^ 64 := by
  obtain ⟨h1, h2, h3, h4, h5⟩ := h
  have c1 : g.instruction_addresses.card ≤ 2 ^ 32 := by
    have hs : g.instruction_addresses ⊆ Finset.range (2 ^ 32) :=
      fun x hx => Finset.mem_range.2 (h1 x hx)
    have := Finset.card_le_card hs
    rwa [Finset.card_range] at this
  have c2 : g.branches.length ≤ 2 ^ 32 := AddressMap.length_le_of_bound h2 h3
  have c3 : g.calls.length ≤ 2 ^ 32 := AddressMap.length_le_of_bound h4 h5
  unfold ControlFlowGraph.GetSize
  have e1 : (2 : Nat) ^ 32 = 4294967296 := by norm_num
  have e2 : (2 : Nat) ^ 64 = 18446744073709551616 := by norm_num
  omega

theorem ControlFlowGraph.inU32_new (a f : Nat) : (ControlFlowGraph.new a f).inU32 := by
  refine ⟨fun x hx => ?_, List.nodup_nil, fun k hk => ?_, List.nodup_nil, fun k hk => ?_⟩
  · simp [ControlFlowGraph.new] at hx
  · simp [ControlFlowGraph.new] at hk
  · simp [ControlFlowGraph.new] at hk

theorem UpdateControlFlowGraph_inU32 {g : ControlFlowGraph} {e : ExecutionTraceEntry}
    (n : Option ExecutionTraceEntry) (he : e.inU32 = true) (h : g.inU32) :
    (UpdateControlFlowGraph g e n).inU32 := by
  obtain ⟨h1, h2, h3, h4, h5⟩ := h
  rcases e with a | a | ⟨a, x⟩
  · exact ⟨h1, h2, h3, h4, h5⟩
  · simp only [ExecutionTraceEntry.inU32, decide_eq_true_eq] at he
    have hi : ∀ y ∈ insert a g.instruction_addresses, y < 2 ^ 32 := by
      intro y hy
      rcases Finset.mem_insert.1 hy with rfl | hy
      · exact he
      · exact h1 y hy
    rcases n with _ | (t | q | ⟨q, y⟩)
    · exact ⟨hi, h2, h3, h4, h5⟩
    · exact ⟨hi, h2, h3, AddressMap.nodup_insertAt a t h4, AddressMap.bound_insertAt a t he h5⟩
    · simp only [UpdateControlFlowGraph]
      split
      · exact ⟨hi, AddressMap.nodup_insertAt a q h2, AddressMap.bound_insertAt a q he h3,
          h4, h5⟩
      · exact ⟨hi, h2, h3, h4, h5⟩
    · simp only [UpdateControlFlowGraph]
      split
      · exact ⟨hi, AddressMap.nodup_insertAt a q h2, AddressMap.bound_insertAt a q he h3,
          h4, h5⟩
      · exact ⟨hi, h2, h3, h4, h5⟩
  · simp only [ExecutionTraceEntry.inU32, Bool.and_eq_true, decide_eq_true_eq] at he
    rcases n with _ | (t | q | ⟨q, y⟩)
    · exact ⟨h1, h2, h3, h4, h5⟩
    · exact ⟨h1, h2, h3, AddressMap.nodup_insertAt x t h4,
        AddressMap.bound_insertAt x t he.2 h5⟩
    · exact ⟨h1, AddressMap.nodup_insertAt x q h2, AddressMap.bound_insertAt x q he.2 h3,
        h4, h5⟩
    · exact ⟨h1, AddressMap.nodup_insertAt x q h2, AddressMap.bound_insertAt x q he.2 h3,
        h4, h5⟩

namespace RecompilationEngine

theorem forall_modifyBlock {P : BlockEntry → Prop} (f : BlockEntry → BlockEntry)
    (k : Nat × Nat) (hf : ∀ b, P b → P (f b)) :
    ∀ table : List BlockEntry, (∀ b ∈ table, P b) → ∀ b ∈ modifyBlock f table k, P b := by
  intro table
  induction table with
  | nil => intro _ b hb; simp [modifyBlock] at hb
  | cons b0 table ih =>
    intro h b hb
    have h0 : P b0 := h b0 (List.mem_cons_self _ _)
    have ht : ∀ b ∈ table, P b := fun b hb => h b (List.mem_cons_of_mem _ hb)
    by_cases hk : b0.key = k
    · simp only [modifyBlock, hk, if_true, List.mem_cons] at hb
      rcases hb with rfl | hb
      · exact hf b0 h0
      · exact ht b hb
    · simp only [modifyBlock, hk, if_false, List.mem_cons] at hb
      rcases hb with rfl | hb
      · exact h0
      · exact ih ht b hb

theorem forall_findOrInsertBlock {P : BlockEntry → Prop} {table : List BlockEntry}
    (key : Nat × Nat) (hnew : P (BlockEntry.new key.1 key.2)) (h : ∀ b ∈ table, P b) :
    ∀ b ∈ findOrInsertBlock table key, P b := by
  unfold findOrInsertBlock
  cases findBlock table key with
  | some b0 => exact h
  | none =>
    intro b hb
    rcases List.mem_append.1 hb with h1 | h1
    · exact h b h1
    · simp only [List.mem_singleton] at h1
      subst h1; exact hnew

theorem sizeInv_new (a f : Nat) : sizeInv (BlockEntry.new a f) :=
  ⟨Nat.zero_le _, ControlFlowGraph.inU32_new a f⟩

theorem sizeInv_update {b : BlockEntry} {e : ExecutionTraceEntry}
    (n : Option ExecutionTraceEntry) (he : e.inU32 = true) (h : sizeInv b) :
    sizeInv { b with cfg := UpdateControlFlowGraph b.cfg e n } :=
  ⟨le_trans h.1 (UpdateControlFlowGraph_contains b.cfg e n).2.1,
    UpdateControlFlowGraph_inU32 n he h.2⟩

theorem sizeInv_mergeEntry (tr : ExecutionTrace) (st : MergeState) (e : ExecutionTraceEntry)
    (rest : List ExecutionTraceEntry) (he : e.inU32 = true)
    (h : ∀ b ∈ st.table, sizeInv b) : ∀ b ∈ (mergeEntry tr st e rest).table, sizeInv b := by
  obtain ⟨key, table1, ht, heq⟩ := mergeEntry_table tr st e rest
  have h1 : ∀ b ∈ table1, sizeInv b := by
    rcases ht with rfl | rfl
    · exact h
    · exact forall_findOrInsertBlock key (sizeInv_new _ _) h
  rw [heq]
  unfold mergeInto
  have hstep : ∀ (t : List BlockEntry) (k : Nat × Nat) (n : Option ExecutionTraceEntry),
      (∀ b ∈ t, sizeInv b) →
      ∀ b ∈ modifyBlock (fun b => { b with cfg := UpdateControlFlowGraph b.cfg e n }) t k,
        sizeInv b :=
    fun t k n hh => forall_modifyBlock _ k (fun b hb => sizeInv_update n he hb) t hh
  simp only []
  split
  · exact hstep _ _ _ (hstep _ _ _ h1)
  · exact hstep _ _ _ h1

theorem sizeInv_mergeEntries (tr : ExecutionTrace) :
    ∀ (l : List ExecutionTraceEntry) (st : MergeState), (∀ e ∈ l, e.inU32 = true) →
      (∀ b ∈ st.table, sizeInv b) → ∀ b ∈ (mergeEntries tr st l).table, sizeInv b := by
  intro l
  induction l with
  | nil => intro st _ h; exact h
  | cons e rest ih =>
    intro st hl h
    simp only [mergeEntries]
    exact ih _ (fun x hx => hl x (List.mem_cons_of_mem _ hx))
      (sizeInv_mergeEntry tr st e rest (hl e (List.mem_cons_self _ _)) h)

theorem sizeInv_mergeTrace (GetId : ExecutionTrace → Nat) (s : RecompilationEngine)
    (tr : ExecutionTrace) (htr : ∀ e ∈ tr.entries, e.inU32 = true)
    (h : ∀ b ∈ s.m_block_table, sizeInv b) :
    ∀ b ∈ (mergeTrace GetId s tr).1.m_block_table, sizeInv b := by
  unfold mergeTrace
  simp only []
  cases findProcessed s.m_processed_execution_traces (GetId tr) with
  | some bl => exact h
  | none =>
    simp only []
    exact sizeInv_mergeEntries tr _ _ htr
      (forall_findOrInsertBlock _ (sizeInv_new _ _) h)

theorem sizeInv_CompileBlock {llvm : Backend} {capacity : Nat} {s s1 : RecompilationEngine}
    {b b1 : BlockEntry} (h : CompileBlock llvm capacity s b = some (s1, b1))
    (hb : b.cfg.inU32) : sizeInv b1 ∧ s1.m_block_table = s.m_block_table := by
  obtain ⟨s2, o, _, _, _, _, _, htab, _, _, _, _, hb1⟩ := CompileBlock_spec h
  subst hb1
  exact ⟨⟨le_refl _, hb⟩, htab⟩

theorem sizeInv_compiled_write {llvm : Backend} {capacity : Nat}
    {s s1 : RecompilationEngine} {b b1 : BlockEntry} (k : Nat × Nat)
    (h : CompileBlock llvm capacity s b = some (s1, b1)) (hb : b.cfg.inU32)
    (hs : ∀ x ∈ s.m_block_table, sizeInv x) :
    ∀ x ∈ modifyBlock (fun _ => b1) s1.m_block_table k, sizeInv x := by
  obtain ⟨h1, h2⟩ := sizeInv_CompileBlock h hb
  rw [h2]
  exact forall_modifyBlock _ k (fun _ _ => h1) _ hs

theorem sizeInv_hitBlock {llvm : Backend} {capacity : Nat} {s s1 : RecompilationEngine}
    {k : Nat × Nat} (h : hitBlock llvm capacity s k = some s1)
    (hs : ∀ b ∈ s.m_block_table, sizeInv b) : ∀ b ∈ s1.m_block_table, sizeInv b := by
  obtain ⟨b, hb, hcases⟩ := hitBlock_spec h
  have hPb : sizeInv b := hs b (findBlock_mem hb)
  rcases hcases with ⟨_, rfl⟩ | ⟨_, _, rfl⟩ | ⟨_, _, s2, b2, hcb, rfl⟩
  · exact hs
  · have hP2 : sizeInv { b with num_hits := (b.num_hits + 1) % 2 ^ 32 } := ⟨hPb.1, hPb.2⟩
    exact forall_modifyBlock _ k (fun _ _ => hP2) _ hs
  · exact sizeInv_compiled_write k hcb hPb.2 hs

theorem sizeInv_hitBlocks {llvm : Backend} {capacity : Nat} (bl : List (Nat × Nat)) :
    ∀ {s s1 : RecompilationEngine}, hitBlocks llvm capacity s bl = some s1 →
      (∀ b ∈ s.m_block_table, sizeInv b) → ∀ b ∈ s1.m_block_table, sizeInv b := by
  induction bl with
  | nil =>
    intro s s1 h hs
    simp only [hitBlocks, Option.some.injEq] at h
    subst h; exact hs
  | cons k rest ih =>
    intro s s1 h hs
    simp only [hitBlocks] at h
    cases hh : hitBlock llvm capacity s k with
    | none => rw [hh] at h; simp at h
    | some s2 =>
      rw [hh] at h
      exact ih h (sizeInv_hitBlock hh hs)

theorem sizeInv_ProcessExecutionTrace {llvm : Backend} {capacity : Nat}
    {GetId : ExecutionTrace → Nat} {s s1 : RecompilationEngine} {tr : ExecutionTrace}
    (h : ProcessExecutionTrace llvm capacity GetId s tr = some s1)
    (htr : ∀ e ∈ tr.entries, e.inU32 = true)
    (hs : ∀ b ∈ s.m_block_table, sizeInv b) : ∀ b ∈ s1.m_block_table, sizeInv b := by
  unfold ProcessExecutionTrace at h
  simp only [] at h
  cases hh : hitBlocks llvm capacity (mergeTrace GetId s tr).1 (mergeTrace GetId s tr).2 with
  | none => rw [hh] at h; simp at h
  | some s2 =>
    rw [hh] at h
    simp only [Option.some.injEq] at h
    subst h
    have h3 := sizeInv_hitBlocks _ hh (sizeInv_mergeTrace GetId s tr htr hs)
    exact h3

theorem sizeInv_compileEntry {llvm : Backend} {capacity : Nat} {s s1 : RecompilationEngine}
    {k : Nat × Nat} (h : compileEntry llvm capacity s k = some s1)
    (hs : ∀ b ∈ s.m_block_table, sizeInv b) : ∀ b ∈ s1.m_block_table, sizeInv b := by
  unfold compileEntry at h
  cases hb : findBlock s.m_block_table k with
  | none => rw [hb] at h; simp at h
  | some b =>
    rw [hb] at h
    dsimp only at h
    cases hc : CompileBlock llvm capacity s b with
    | none => rw [hc] at h; simp at h
    | some r =>
      obtain ⟨s2, b2⟩ := r
      rw [hc] at h
      simp only [Option.some.injEq] at h
      subst h
      exact sizeInv_compiled_write k hc (hs b (findBlock_mem hb)).2 hs

theorem sizeInv_idleRecompile {llvm : Backend} {capacity : Nat} {s s1 : RecompilationEngine}
    (h : idleRecompile llvm capacity s = some s1)
    (hs : ∀ b ∈ s.m_block_table, sizeInv b) : ∀ b ∈ s1.m_block_table, sizeInv b := by
  unfold idleRecompile at h
  cases hcand : idleCandidate s.m_block_table with
  | none =>
    rw [hcand] at h
    simp only [Option.some.injEq] at h
    subst h; exact hs
  | some candidate =>
    rw [hcand] at h
    dsimp only at h
    have hmem : candidate ∈ s.m_block_table :=
      ((scanInv_idle s.m_block_table).1 candidate hcand).1
    cases hc : CompileBlock llvm capacity (s.Log (.Recompiling candidate.key)) candidate with
    | none => rw [hc] at h; simp at h
    | some r =>
      obtain ⟨s2, b2⟩ := r
      rw [hc] at h
      simp only [Option.some.injEq] at h
      subst h
      exact sizeInv_compiled_write candidate.key hc (hs candidate hmem).2 hs

theorem sizeInv_registryCalls {llvm : Backend} {capacity : Nat}
    {GetId : ExecutionTrace → Nat} (calls : List RegistryCall) :
    ∀ {s s1 : RecompilationEngine}, registryCalls llvm capacity GetId s calls = some s1 →
      (∀ tr, RegistryCall.ProcessExecutionTrace tr ∈ calls →
        ∀ e ∈ tr.entries, e.inU32 = true) →
      (∀ b ∈ s.m_block_table, sizeInv b) → ∀ b ∈ s1.m_block_table, sizeInv b := by
  induction calls with
  | nil =>
    intro s s1 h _ hs
    simp only [registryCalls, Option.some.injEq] at h
    subst h; exact hs
  | cons c rest ih =>
    intro s s1 h htr hs
    simp only [registryCalls] at h
    cases hc : registryCall llvm capacity GetId s c with
    | none => rw [hc] at h; simp at h
    | some s2 =>
      rw [hc] at h
      refine ih h (fun tr hm => htr tr (List.mem_cons_of_mem _ hm)) ?_
      cases c with
      | ProcessExecutionTrace tr =>
        exact sizeInv_ProcessExecutionTrace hc (htr tr (List.mem_cons_self _ _)) hs
      | CompileBlock k => exact sizeInv_compileEntry hc hs
      | idle => exact sizeInv_idleRecompile hc hs

end RecompilationEngine

namespace RecompilationEngine

/-- C22: growth never underflows.  In every engine state reached from the
engine right after the constructor by calls of `ProcessExecutionTrace` (on
traces whose addresses are `u32` values), calls of `CompileBlock` on registry
entries and idle iterations of `Task`, every registry entry has
`last_compiled_cfg_size <= cfg.GetSize()` and a size below `2^64`, so the
`size_t` subtraction of line 382 does not wrap: it is the difference of the
two numbers, and adding it to the recorded size gives the current size. -/
theorem growth_never_underflows (llvm : Backend) (capacity : Nat)
    (GetId : ExecutionTrace → Nat) (calls : List RegistryCall) (s : RecompilationEngine)
    (hrun : registryCalls llvm capacity GetId fresh calls = some s)
    (hu32 : ∀ tr, RegistryCall.ProcessExecutionTrace tr ∈ calls →
      ∀ e ∈ tr.entries, e.inU32 = true) :
    ∀ b ∈ s.m_block_table,
      b.last_compiled_cfg_size ≤ b.cfg.GetSize ∧ b.cfg.GetSize < 2 ^ 64 ∧
      growth b = b.cfg.GetSize - b.last_compiled_cfg_size ∧
      b.last_compiled_cfg_size + growth b = b.cfg.GetSize := by
  intro b hb
  have h0 : ∀ b ∈ fresh.m_block_table, sizeInv b := by
    intro b hb
    simp [fresh] at hb
  obtain ⟨h1, h2⟩ := sizeInv_registryCalls calls hrun hu32 h0 b hb
  have h3 := ControlFlowGraph.GetSize_lt h2
  have h64 : (2 : Nat) ^ 64 = 18446744073709551616 := by norm_num
  refine ⟨h1, h3, ?_, ?_⟩
  · simp only [growth, size_t_sub]
    rw [h64] at h3 ⊢
    omega
  · simp only [growth, size_t_sub]
    rw [h64] at h3 ⊢
    omega

theorem growth_never_underflows_witness :
    ∃ s, registryCalls ⟨fun _ _ => false⟩ 8 exampleGetId fresh exampleRegistryCalls = some s ∧
      (findBlock s.m_block_table (0x100, 0x100)).map
        (fun b => (b.last_compiled_cfg_size, b.cfg.GetSize, growth b)) = some (3, 5, 2) ∧
      ∀ b ∈ s.m_block_table, b.last_compiled_cfg_size + growth b = b.cfg.GetSize := by
  have hs : (registryCalls ⟨fun _ _ => false⟩ 8 exampleGetId fresh
      exampleRegistryCalls).map (fun s => (findBlock s.m_block_table (0x100, 0x100)).map
        (fun b => (b.last_compiled_cfg_size, b.cfg.GetSize, growth b))) =
      some (some (3, 5, 2)) := by decide!
  cases hc : registryCalls ⟨fun _ _ => false⟩ 8 exampleGetId fresh exampleRegistryCalls with
  | none => rw [hc] at hs; simp at hs
  | some s =>
    rw [hc] at hs
    simp only [Option.map_some', Option.some.injEq] at hs
    refine ⟨s, rfl, hs, fun b hb => ?_⟩
    have hu : ∀ tr, RegistryCall.ProcessExecutionTrace tr ∈ exampleRegistryCalls →
        ∀ e ∈ tr.entries, e.inU32 = true := by
      intro tr hm
      simp only [exampleRegistryCalls, List.mem_cons, RegistryCall.ProcessExecutionTrace.injEq,
        List.mem_singleton, List.not_mem_nil, or_false, reduceCtorEq, false_or] at hm
      rcases hm with rfl | rfl <;> decide
    exact (growth_never_underflows ⟨fun _ _ => false⟩ 8 exampleGetId exampleRegistryCalls s
      hc hu b hb).2.2.2

end RecompilationEngine

namespace CPUHybridDecoderRecompiler

/-- A sweep that has a result has erased nothing and has not called
`FreeExecutable`: the engine is the same, the cache has the same addresses,
and every address keeps its ordinal. -/
theorem sweep_keeps :
    ∀ (visit : List Nat) (cache : List (Nat × Nat × Nat)) (e : RecompilationEngine)
      (r : List (Nat × Nat × Nat) × RecompilationEngine),
      sweep visit cache e = some r →
        r.2 = e ∧ r.1.map Prod.fst = cache.map Prod.fst ∧
        (∀ a o c, findCached cache a = some (o, c) → ∃ c1, findCached r.1 a = some (o, c1)) ∧
        (∀ p ∈ r.1, ∃ q ∈ cache, p.1 = q.1 ∧ p.2.1 = q.2.1) := by
  intro visit
  induction visit with
  | nil =>
    intro cache e r h
    simp only [sweep, Option.some.injEq] at h
    subst h
    exact ⟨rfl, rfl, fun a o c hf => ⟨c, hf⟩, fun p hp => ⟨p, hp, rfl, rfl⟩⟩
  | cons a0 rest ih =>
    intro cache e r h
    unfold sweep at h
    cases h0 : findCached cache a0 with
    | none => rw [h0] at h; simp at h
    | some v =>
      obtain ⟨o0, c0⟩ := v
      rw [h0] at h
      dsimp only at h
      by_cases hc : c0 = 0
      · simp [hc, findCached_erase] at h
      · simp only [hc, if_false] at h
        obtain ⟨i1, i2, i3, i4⟩ := ih _ e r h
        refine ⟨i1, ?_, ?_, ?_⟩
        · rw [i2, map_fst_setCached]
        · intro a o c hf
          have h2 : ∃ c2, findCached (setCached (o0, 0) cache a0) a = some (o, c2) := by
            rw [findCached_setCached]
            by_cases ha : a = a0
            · subst ha
              rw [h0] at hf
              simp only [Option.some.injEq, Prod.mk.injEq] at hf
              rw [if_pos rfl, h0, ← hf.1]
              exact ⟨0, rfl⟩
            · rw [if_neg ha]; exact ⟨c, hf⟩
          obtain ⟨c2, h3⟩ := h2
          exact i3 a o c2 h3
        · intro p hp
          obtain ⟨q, hq, e1, e2⟩ := i4 p hp
          rcases mem_setCached hq with h5 | h5
          · exact ⟨q, h5, e1, e2⟩
          · subst h5
            exact ⟨(a0, o0, c0), findCached_mem h0, e1, e2⟩

/-- A call of `RemoveUnusedEntriesFromCache` that has a result leaves the
engine as it is and keeps every address of the cache with its ordinal. -/
theorem RemoveUnusedEntriesFromCache_keeps {d : CPUHybridDecoderRecompiler}
    {e : RecompilationEngine} {now : Int}
    {r : CPUHybridDecoderRecompiler × RecompilationEngine}
    (h : RemoveUnusedEntriesFromCache d e now = some r) :
    r.2 = e ∧
    r.1.m_address_to_ordinal.map Prod.fst = d.m_address_to_ordinal.map Prod.fst ∧
    (∀ a o c, findCached d.m_address_to_ordinal a = some (o, c) →
      ∃ c1, findCached r.1.m_address_to_ordinal a = some (o, c1)) ∧
    (∀ p ∈ r.1.m_address_to_ordinal, ∃ q ∈ d.m_address_to_ordinal,
      p.1 = q.1 ∧ p.2.1 = q.2.1) := by
  unfold RemoveUnusedEntriesFromCache at h
  by_cases hd : now - d.m_last_cache_clear_time > 10000
  · simp only [hd, if_true, Option.map_eq_some'] at h
    obtain ⟨r0, hs, rfl⟩ := h
    exact sweep_keeps _ _ e r0 hs
  · simp only [hd, if_false, Option.some.injEq] at h
    subst h
    exact ⟨rfl, rfl, fun a o c hf => ⟨c, hf⟩, fun p hp => ⟨p, hp, rfl, rfl⟩⟩

theorem GetExecutable_eq_some {d : CPUHybridDecoderRecompiler} {e : RecompilationEngine}
    {a : Nat} {dflt : Executable} {now : Int}
    {r : CPUHybridDecoderRecompiler × RecompilationEngine × Executable}
    (h : GetExecutable d e a dflt now = some r) :
    RemoveUnusedEntriesFromCache (resolve d e a dflt).1 e now = some (r.1, r.2.1) ∧
      r.2.2 = (resolve d e a dflt).2 := by
  unfold GetExecutable at h
  simp only [Option.map_eq_some'] at h
  obtain ⟨r2, h2, rfl⟩ := h
  exact ⟨h2, rfl⟩

theorem nodup_resolve {d : CPUHybridDecoderRecompiler} (e : RecompilationEngine) (a : Nat)
    (dflt : Executable) (h : (d.m_address_to_ordinal.map Prod.fst).Nodup) :
    ((resolve d e a dflt).1.m_address_to_ordinal.map Prod.fst).Nodup := by
  obtain ⟨r1, r2, r3⟩ := resolve_spec d e a dflt
  cases hf : findCached d.m_address_to_ordinal a with
  | some v =>
    obtain ⟨o, c⟩ := v
    rw [r2 o c hf]
    show ((setCached _ _ _).map Prod.fst).Nodup
    rw [map_fst_setCached]; exact h
  | none =>
    by_cases hg : e.GetOrdinal a = 0xFFFFFFFF
    · rw [r1 hf hg]; exact h
    · rw [r3 hf hg]
      show ((setCached _ _ _).map Prod.fst).Nodup
      rw [map_fst_setCached, List.map_append]
      refine List.Nodup.append h (List.nodup_singleton _) ?_
      intro x hx1 hx2
      simp only [List.map_cons, List.map_nil, List.mem_singleton] at hx2
      subst hx2
      exact (findCached_eq_none_iff _ _).1 hf hx1

theorem resolve_time (d : CPUHybridDecoderRecompiler) (e : RecompilationEngine) (a : Nat)
    (dflt : Executable) :
    (resolve d e a dflt).1.m_last_cache_clear_time = d.m_last_cache_clear_time := by
  obtain ⟨r1, r2, r3⟩ := resolve_spec d e a dflt
  cases hf : findCached d.m_address_to_ordinal a with
  | some v =>
    obtain ⟨o, c⟩ := v
    rw [r2 o c hf]
  | none =>
    by_cases hg : e.GetOrdinal a = 0xFFFFFFFF
    · rw [r1 hf hg]
    · rw [r3 hf hg]

/-- The resolution of lines 662-675 keeps every cached address with its
ordinal. -/
theorem resolve_keeps (d : CPUHybridDecoderRecompiler) (e : RecompilationEngine) (b : Nat)
    (dflt : Executable) {a o c : Nat}
    (h : findCached d.m_address_to_ordinal a = some (o, c)) :
    ∃ c1, findCached (resolve d e b dflt).1.m_address_to_ordinal a = some (o, c1) := by
  by_cases hb : b = a
  · subst hb
    exact ⟨_, (findCached_resolve dflt (Or.inl h)).1⟩
  · rw [findCached_resolve_other hb]
    exact ⟨c, h⟩

theorem cacheAgrees_RemoveUnusedEntriesFromCache {d : CPUHybridDecoderRecompiler}
    {e : RecompilationEngine} {now : Int}
    {r : CPUHybridDecoderRecompiler × RecompilationEngine}
    (h : RemoveUnusedEntriesFromCache d e now = some r) (hagree : cacheAgrees d e) :
    cacheAgrees r.1 r.2 := by
  obtain ⟨k1, k2, _, k4⟩ := RemoveUnusedEntriesFromCache_keeps h
  refine ⟨?_, fun p hp => ?_⟩
  · rw [k2]; exact hagree.1
  · obtain ⟨q, hq, e1, e2⟩ := k4 p hp
    rw [k1, e1, e2]
    exact hagree.2 q hq

theorem cacheAgrees_step {llvm : Backend} {capacity : Nat}
    {st st1 : CPUHybridDecoderRecompiler × RecompilationEngine} {x : DispatchStep}
    (hs : step llvm capacity st x = some st1) (h : cacheAgrees st.1 st.2) :
    cacheAgrees st1.1 st1.2 := by
  cases x with
  | engine c =>
    simp only [step, Option.map_eq_some'] at hs
    obtain ⟨e2, hc, rfl⟩ := hs
    exact cacheAgrees_engine (fun a o ha => RecompilationEngine.findOrdinal_call hc ha) h
  | GetExecutable a dflt now =>
    simp only [step, Option.map_eq_some'] at hs
    obtain ⟨r, hr, rfl⟩ := hs
    exact cacheAgrees_RemoveUnusedEntriesFromCache (GetExecutable_eq_some hr).1
      (cacheAgrees_resolve a dflt h)

theorem cacheAgrees_steps {llvm : Backend} {capacity : Nat} (l : List DispatchStep) :
    ∀ {st st1 : CPUHybridDecoderRecompiler × RecompilationEngine},
      steps llvm capacity st l = some st1 → cacheAgrees st.1 st.2 →
        cacheAgrees st1.1 st1.2 := by
  induction l with
  | nil =>
    intro st st1 hs h
    simp only [steps, Option.some.injEq] at hs
    subst hs; exact h
  | cons x l ih =>
    intro st st1 hs h
    simp only [steps] at hs
    cases hx : step llvm capacity st x with
    | none => rw [hx] at hs; simp at hs
    | some st2 =>
      rw [hx] at hs
      exact ih hs (cacheAgrees_step hx h)

/-- In a run that is defined, an address that is in the cache stays in the
cache with its ordinal: no step evicts an entry. -/
theorem steps_keep_cached {llvm : Backend} {capacity : Nat} (l : List DispatchStep) :
    ∀ {st st1 : CPUHybridDecoderRecompiler × RecompilationEngine},
      steps llvm capacity st l = some st1 →
      ∀ {a o c : Nat}, findCached st.1.m_address_to_ordinal a = some (o, c) →
        ∃ c1, findCached st1.1.m_address_to_ordinal a = some (o, c1) := by
  induction l with
  | nil =>
    intro st st1 hs a o c h
    simp only [steps, Option.some.injEq] at hs
    subst hs; exact ⟨c, h⟩
  | cons x l ih =>
    intro st st1 hs a o c h
    simp only [steps] at hs
    cases hx : step llvm capacity st x with
    | none => rw [hx] at hs; simp at hs
    | some st2 =>
      rw [hx] at hs
      have h2 : ∃ c2, findCached st2.1.m_address_to_ordinal a = some (o, c2) := by
        cases x with
        | engine cl =>
          simp only [step, Option.map_eq_some'] at hx
          obtain ⟨e2, _, rfl⟩ := hx
          exact ⟨c, h⟩
        | GetExecutable b dflt now =>
          simp only [step, Option.map_eq_some'] at hx
          obtain ⟨r, hr, rfl⟩ := hx
          obtain ⟨c1, h1⟩ := resolve_keeps st.1 st.2 b dflt h
          exact (RemoveUnusedEntriesFromCache_keeps (GetExecutable_eq_some hr).1).2.2.1 a o c1 h1
      obtain ⟨c2, h3⟩ := h2
      exact ih hs h3

end CPUHybridDecoderRecompiler

namespace CPUHybridDecoderRecompiler

theorem RemoveUnusedEntriesFromCache_cases (d : CPUHybridDecoderRecompiler)
    (e : RecompilationEngine) (now : Int) :
    (¬ now - d.m_last_cache_clear_time > 10000 →
      RemoveUnusedEntriesFromCache d e now = some (d, e)) ∧
    (now - d.m_last_cache_clear_time > 10000 →
      (d.m_address_to_ordinal.map Prod.fst).Nodup →
      (∀ p ∈ d.m_address_to_ordinal, p.2.2 ≠ 0) →
      RemoveUnusedEntriesFromCache d e now =
        some ({ m_address_to_ordinal := d.m_address_to_ordinal.map fun p => (p.1, p.2.1, 0),
                m_last_cache_clear_time := now }, e)) ∧
    (now - d.m_last_cache_clear_time > 10000 →
      ∀ a o, findCached d.m_address_to_ordinal a = some (o, 0) →
        findCached (erase d.m_address_to_ordinal a) a = none ∧
        RemoveUnusedEntriesFromCache d e now = none) := by
  refine ⟨fun h => ?_, fun h hnd hall => ?_, fun h a o hf => ?_⟩
  · simp [RemoveUnusedEntriesFromCache, h]
  · have h1 := sweep_all_used e d.m_address_to_ordinal [] hnd hall
    simp only [List.nil_append] at h1
    simp only [RemoveUnusedEntriesFromCache, h, if_true, h1, Option.map_some']
  · refine ⟨findCached_erase a _, ?_⟩
    simp only [RemoveUnusedEntriesFromCache, h, if_true]
    rw [sweep_eq_none _ _ e ⟨a, ?_, o, hf⟩]
    · rfl
    · by_contra hn
      have := (findCached_eq_none_iff a _).2 hn
      rw [hf] at this
      simp at this

/-- C14: the cache sweep `RemoveUnusedEntriesFromCache()`.  When 10000 ms or
less have elapsed the cache and the engine are unchanged.  When more have
elapsed and every counter is non-zero, every entry is kept with its ordinal
and its counter reset, and nothing is freed.  When more have elapsed and the
entry of some address `a` has counter 0, the loop erases the entry of the
first such address it meets (line 650) and then reads the argument of
`FreeExecutable` from the erased entry (line 651): the read finds no entry,
so the call has no defined argument and the sweep no defined result. -/
theorem RemoveUnusedEntriesFromCache_reads_erased_entry (d : CPUHybridDecoderRecompiler)
    (e : RecompilationEngine) (now : Int) :
    (¬ now - d.m_last_cache_clear_time > 10000 →
      RemoveUnusedEntriesFromCache d e now = some (d, e)) ∧
    (now - d.m_last_cache_clear_time > 10000 →
      (d.m_address_to_ordinal.map Prod.fst).Nodup →
      (∀ p ∈ d.m_address_to_ordinal, p.2.2 ≠ 0) →
      RemoveUnusedEntriesFromCache d e now =
        some ({ m_address_to_ordinal := d.m_address_to_ordinal.map fun p => (p.1, p.2.1, 0),
                m_last_cache_clear_time := now }, e)) ∧
    (now - d.m_last_cache_clear_time > 10000 →
      ∀ a o, findCached d.m_address_to_ordinal a = some (o, 0) →
        findCached (erase d.m_address_to_ordinal a) a = none ∧
        RemoveUnusedEntriesFromCache d e now = none) := by
  refine ⟨fun h => ?_, fun h hnd hall => ?_, fun h a o hf => ?_⟩
  · simp [RemoveUnusedEntriesFromCache, h]
  · have h1 := sweep_all_used e d.m_address_to_ordinal [] hnd hall
    simp only [List.nil_append] at h1
    simp only [RemoveUnusedEntriesFromCache, h, if_true, h1, Option.map_some']
  · refine ⟨findCached_erase a _, ?_⟩
    simp only [RemoveUnusedEntriesFromCache, h, if_true]
    rw [sweep_eq_none _ _ e ⟨a, ?_, o, hf⟩]
    · rfl
    · by_contra hn
      have := (findCached_eq_none_iff a _).2 hn
      rw [hf] at this
      simp at this

theorem RemoveUnusedEntriesFromCache_reads_erased_entry_witness :
    RemoveUnusedEntriesFromCache ⟨[(0x100, 0, 0)], 0⟩ exampleAllocatedEngine 10000 =
      some (⟨[(0x100, 0, 0)], 0⟩, exampleAllocatedEngine) ∧
    RemoveUnusedEntriesFromCache ⟨[(0x100, 0, 3)], 0⟩ exampleAllocatedEngine 10001 =
      some (⟨[(0x100, 0, 0)], 10001⟩, exampleAllocatedEngine) ∧
    RemoveUnusedEntriesFromCache ⟨[(0x100, 0, 0)], 0⟩ exampleAllocatedEngine 10001 =
      none :=
  ⟨(RemoveUnusedEntriesFromCache_reads_erased_entry ⟨[(0x100, 0, 0)], 0⟩
      exampleAllocatedEngine 10000).1 (by decide),
   (RemoveUnusedEntriesFromCache_reads_erased_entry ⟨[(0x100, 0, 3)], 0⟩
      exampleAllocatedEngine 10001).2.1 (by decide) (by decide) (by decide),
   ((RemoveUnusedEntriesFromCache_reads_erased_entry ⟨[(0x100, 0, 0)], 0⟩
      exampleAllocatedEngine 10001).2.2 (by decide) 0x100 0 (by decide)).2⟩

/-- C13: the dispatcher lookup `GetExecutable(a, dflt)`.  The resolution of
lines 662-675 is as claimed: when `a` is not in the cache and `GetOrdinal(a)`
is `0xFFFFFFFF` it picks `dflt` and leaves the cache as it was; otherwise,
with `o` the ordinal that the cache holds for `a` or, when `a` is not cached,
the ordinal `GetOrdinal(a)`, and `c` the counter held before (0 for a new
entry), it picks slot `o` of the engine table and the cache maps `a` to `o`
with counter `c + 1` (a `u32`).  The call then runs the sweep and returns
what the resolution picked: it returns when 10000 ms or less have elapsed,
and when more have elapsed and no counter is 0 after the resolution.  When
more have elapsed and some entry has counter 0 after the resolution, the
sweep reads the erased entry (lines 650-651) and the call has no defined
result. -/
theorem GetExecutable_resolves (d : CPUHybridDecoderRecompiler) (e : RecompilationEngine)
    (a : Nat) (dflt : Executable) (now : Int) :
    (findCached d.m_address_to_ordinal a = none → e.GetOrdinal a = 0xFFFFFFFF →
      resolve d e a dflt = (d, dflt)) ∧
    (∀ o c, (findCached d.m_address_to_ordinal a = some (o, c) ∨
        (findCached d.m_address_to_ordinal a = none ∧ e.GetOrdinal a = o ∧
          o ≠ 0xFFFFFFFF ∧ c = 0)) →
      (resolve d e a dflt).2 = e.m_executable_lookup o ∧
      findCached (resolve d e a dflt).1.m_address_to_ordinal a =
        some (o, (c + 1) % 2 ^ 32)) ∧
    GetExecutable d e a dflt now =
      (RemoveUnusedEntriesFromCache (resolve d e a dflt).1 e now).map
        (fun r => (r.1, r.2, (resolve d e a dflt).2)) ∧
    (¬ now - d.m_last_cache_clear_time > 10000 →
      GetExecutable d e a dflt now =
        some ((resolve d e a dflt).1, e, (resolve d e a dflt).2)) ∧
    (now - d.m_last_cache_clear_time > 10000 →
      (d.m_address_to_ordinal.map Prod.fst).Nodup →
      (∀ p ∈ (resolve d e a dflt).1.m_address_to_ordinal, p.2.2 ≠ 0) →
      GetExecutable d e a dflt now =
        some ({ m_address_to_ordinal :=
                  (resolve d e a dflt).1.m_address_to_ordinal.map fun p => (p.1, p.2.1, 0),
                m_last_cache_clear_time := now }, e, (resolve d e a dflt).2)) ∧
    (now - d.m_last_cache_clear_time > 10000 →
      ∀ b o, findCached (resolve d e a dflt).1.m_address_to_ordinal b = some (o, 0) →
        GetExecutable d e a dflt now = none) := by
  obtain ⟨k1, k2, k3⟩ := RemoveUnusedEntriesFromCache_cases (resolve d e a dflt).1 e now
  rw [resolve_time] at k1 k2 k3
  refine ⟨(resolve_spec d e a dflt).1, fun o c h => ?_, rfl, fun h => ?_, fun h hnd hall => ?_,
    fun h b o hf => ?_⟩
  · obtain ⟨hc, hx⟩ := findCached_resolve dflt h
    exact ⟨hx, hc⟩
  · show (RemoveUnusedEntriesFromCache (resolve d e a dflt).1 e now).map _ = _
    rw [k1 h]
    rfl
  · show (RemoveUnusedEntriesFromCache (resolve d e a dflt).1 e now).map _ = _
    rw [k2 h (nodup_resolve e a dflt hnd) hall]
    rfl
  · show (RemoveUnusedEntriesFromCache (resolve d e a dflt).1 e now).map _ = _
    rw [(k3 h b o hf).2]
    rfl

theorem GetExecutable_resolves_witness :
    resolve (fresh 0) RecompilationEngine.fresh 0x100 .ExecuteTillReturn =
      (fresh 0, .ExecuteTillReturn) ∧
    findCached (resolve (fresh 0) exampleAllocatedEngine 0x100
      .ExecuteTillReturn).1.m_address_to_ordinal 0x100 = some (0, 1) ∧
    GetExecutable (fresh 0) RecompilationEngine.fresh 0x100 .ExecuteTillReturn 5 =
      some ((resolve (fresh 0) RecompilationEngine.fresh 0x100 .ExecuteTillReturn).1,
        RecompilationEngine.fresh,
        (resolve (fresh 0) RecompilationEngine.fresh 0x100 .ExecuteTillReturn).2) ∧
    GetExecutable ⟨[(0x100, 0, 0)], 0⟩ exampleAllocatedEngine 0x200 .ExecuteTillReturn 10001 =
      none :=
  ⟨(GetExecutable_resolves (fresh 0) RecompilationEngine.fresh 0x100 .ExecuteTillReturn 5).1
      (by decide) (by decide),
   ((GetExecutable_resolves (fresh 0) exampleAllocatedEngine 0x100 .ExecuteTillReturn 5).2.1
      0 0 (Or.inr ⟨by decide, by decide, by decide, rfl⟩)).2,
   (GetExecutable_resolves (fresh 0) RecompilationEngine.fresh 0x100 .ExecuteTillReturn
      5).2.2.2.1 (by decide),
   (GetExecutable_resolves ⟨[(0x100, 0, 0)], 0⟩ exampleAllocatedEngine 0x200
      .ExecuteTillReturn 10001).2.2.2.2.2 (by decide) 0x100 0 (by decide)⟩

/-- C15: eviction safety.  A lookup that has a result leaves the engine as it
is and keeps every cached address in the cache with its ordinal, and so does
every run of engine calls and lookups that is defined: no entry is evicted
and `FreeExecutable` is not called.  A lookup whose sweep is due and meets an
entry with counter 0, the entry the sweep is to evict, erases the entry (line
650), reads the erased entry (line 651) and has no defined result: there is
no state after an eviction from which a next lookup could start. -/
theorem eviction_is_undefined (d : CPUHybridDecoderRecompiler) (e : RecompilationEngine)
    (b : Nat) (dflt : Executable) (now : Int) :
    (∀ r, GetExecutable d e b dflt now = some r →
      r.2.1 = e ∧
      ∀ a o c, findCached d.m_address_to_ordinal a = some (o, c) →
        ∃ c1, findCached r.1.m_address_to_ordinal a = some (o, c1)) ∧
    (now - d.m_last_cache_clear_time > 10000 →
      ∀ a o, findCached (resolve d e b dflt).1.m_address_to_ordinal a = some (o, 0) →
        findCached (erase (resolve d e b dflt).1.m_address_to_ordinal a) a = none ∧
        GetExecutable d e b dflt now = none) ∧
    (∀ (llvm : Backend) (capacity : Nat) (l : List DispatchStep)
      (st1 : CPUHybridDecoderRecompiler × RecompilationEngine),
      steps llvm capacity (d, e) l = some st1 →
      ∀ a o c, findCached d.m_address_to_ordinal a = some (o, c) →
        ∃ c1, findCached st1.1.m_address_to_ordinal a = some (o, c1)) := by
  refine ⟨fun r hr => ?_, fun h a o hf => ?_, fun llvm capacity l st1 hs a o c hf => ?_⟩
  · obtain ⟨h1, _⟩ := GetExecutable_eq_some hr
    obtain ⟨k1, _, k3, _⟩ := RemoveUnusedEntriesFromCache_keeps h1
    refine ⟨k1, fun a o c hf => ?_⟩
    obtain ⟨c1, h2⟩ := resolve_keeps d e b dflt hf
    exact k3 a o c1 h2
  · have hd : now - (resolve d e b dflt).1.m_last_cache_clear_time > 10000 := by
      rw [resolve_time]; exact h
    obtain ⟨k1, k2⟩ := (RemoveUnusedEntriesFromCache_cases (resolve d e b dflt).1 e now).2.2
      hd a o hf
    refine ⟨k1, ?_⟩
    show (RemoveUnusedEntriesFromCache (resolve d e b dflt).1 e now).map _ = _
    rw [k2]
    rfl
  · exact steps_keep_cached l hs hf

theorem exampleDispatchState_reached :
    steps ⟨fun _ _ => false⟩ 8 (fresh 0, RecompilationEngine.fresh) exampleDispatchRun =
      some (exampleDispatchState.1, exampleDispatchState.2) := by
  have h : (steps ⟨fun _ _ => false⟩ 8 (fresh 0, RecompilationEngine.fresh)
      exampleDispatchRun).isSome = true := by decide!
  unfold exampleDispatchState
  cases hs : steps ⟨fun _ _ => false⟩ 8 (fresh 0, RecompilationEngine.fresh)
      exampleDispatchRun with
  | none => rw [hs] at h; simp at h
  | some st => rfl

theorem eviction_is_undefined_witness :
    steps ⟨fun _ _ => false⟩ 8 (fresh 0, RecompilationEngine.fresh) exampleDispatchRun =
      some (exampleDispatchState.1, exampleDispatchState.2) ∧
    findCached exampleDispatchState.1.m_address_to_ordinal 0x100 = some (0, 0) ∧
    GetExecutable exampleDispatchState.1 exampleDispatchState.2 0x200 .ExecuteFunction 20002 =
      none :=
  ⟨exampleDispatchState_reached, by decide!,
   ((eviction_is_undefined exampleDispatchState.1 exampleDispatchState.2 0x200
      .ExecuteFunction 20002).2.1 (by decide!) 0x100 0 (by decide!)).2⟩

end CPUHybridDecoderRecompiler

namespace RecompilationEngine

theorem CompileBlock_table_frame (llvm : Backend) (capacity : Nat) (s : RecompilationEngine)
    (t : List BlockEntry) (b : BlockEntry) :
    CompileBlock llvm capacity { s with m_block_table := t } b =
      (CompileBlock llvm capacity s b).map fun p => ({ p.1 with m_block_table := t }, p.2) := by
  unfold CompileBlock AllocateOrdinal
  simp only [Log]
  cases hv : llvm.verifyFunction (b.cfg.start_address, b.revision) b.cfg <;>
    cases findOrdinal s.m_address_to_ordinal b.cfg.start_address <;>
    by_cases hc : s.m_next_ordinal < capacity <;>
    simp [Compiler.Compile, Log, hv, hc, storeDefault, insertOrdinal]

theorem calls_table_frame (llvm : Backend) (capacity : Nat) (t : List BlockEntry) :
    ∀ (cs : List BlockEntry) (s : RecompilationEngine),
      calls llvm capacity { s with m_block_table := t } (cs.map EngineCall.CompileBlock) =
        (calls llvm capacity s (cs.map EngineCall.CompileBlock)).map
          fun x => { x with m_block_table := t } := by
  intro cs
  induction cs with
  | nil => intro s; rfl
  | cons c cs ih =>
    intro s
    simp only [List.map_cons, calls, call, CompileBlock_table_frame]
    cases CompileBlock llvm capacity s c with
    | none => rfl
    | some p => exact ih p.1

theorem calls_append (llvm : Backend) (capacity : Nat) (l2 : List EngineCall) :
    ∀ (l1 : List EngineCall) (s : RecompilationEngine),
      calls llvm capacity s (l1 ++ l2) =
        (calls llvm capacity s l1).bind fun s1 => calls llvm capacity s1 l2 := by
  intro l1
  induction l1 with
  | nil => intro s; rfl
  | cons c l1 ih =>
    intro s
    simp only [List.cons_append, calls]
    cases call llvm capacity s c with
    | none => rfl
    | some s1 => exact ih s1

theorem modifyBlock_congr {f g : BlockEntry → BlockEntry} {k : Nat × Nat} :
    ∀ {table : List BlockEntry} {b : BlockEntry}, findBlock table k = some b → f b = g b →
      modifyBlock f table k = modifyBlock g table k := by
  intro table
  induction table with
  | nil => intro b h; simp [findBlock] at h
  | cons b0 table ih =>
    intro b h hfg
    by_cases h0 : b0.key = k
    · simp only [findBlock, h0, if_true, Option.some.injEq] at h
      subst h
      simp [modifyBlock, h0, hfg]
    · simp only [findBlock, h0, if_false] at h
      simp [modifyBlock, h0, ih h hfg]

theorem modifyBlock_eq_self {f : BlockEntry → BlockEntry} {k : Nat × Nat} :
    ∀ {table : List BlockEntry} {b : BlockEntry}, findBlock table k = some b → f b = b →
      modifyBlock f table k = table := by
  intro table
  induction table with
  | nil => intro b h; simp [findBlock] at h
  | cons b0 table ih =>
    intro b h hfg
    by_cases h0 : b0.key = k
    · simp only [findBlock, h0, if_true, Option.some.injEq] at h
      subst h
      simp [modifyBlock, h0, hfg]
    · simp only [findBlock, h0, if_false] at h
      simp [modifyBlock, h0, ih h hfg]

theorem hitEntry_key (b : BlockEntry) : (hitEntry b).key = b.key := by
  unfold hitEntry
  split
  · rfl
  · split <;> rfl

theorem hitEntry_cfg (b : BlockEntry) : (hitEntry b).cfg = b.cfg := by
  unfold hitEntry
  split
  · rfl
  · split <;> rfl

/-- One visit of the loop of lines 478-485, exactly: the registry changes by
`hitEntry` at the visited entry, the processed-trace map stays, and the rest
of the engine is what the call of `CompileBlock` for a promoted entry makes
of it. -/
theorem hitBlock_exact {llvm : Backend} {capacity : Nat} {s s1 : RecompilationEngine}
    {k : Nat × Nat} (h : hitBlock llvm capacity s k = some s1) :
    ∃ b, findBlock s.m_block_table k = some b ∧
      s1.m_block_table = modifyBlock hitEntry s.m_block_table k ∧
      s1.m_processed_execution_traces = s.m_processed_execution_traces ∧
      calls llvm capacity s ((promotion b).map EngineCall.CompileBlock) =
        some { s1 with m_block_table := s.m_block_table } := by
  obtain ⟨b, hb, hcases⟩ := hitBlock_spec h
  refine ⟨b, hb, ?_⟩
  rcases hcases with ⟨hc, rfl⟩ | ⟨hc, hlt, rfl⟩ | ⟨hc, hge, s2, b2, hcb, rfl⟩
  · have he : hitEntry b = b := by
      unfold hitEntry
      rw [if_pos hc]
    have hp : promotion b = [] := by
      unfold promotion
      rw [if_neg (fun h => by rw [hc] at h; exact absurd h.1 (by decide))]
    refine ⟨(modifyBlock_eq_self hb he).symm, rfl, ?_⟩
    rw [hp]
    rfl
  · have hnc : ¬ b.is_compiled = true := by rw [hc]; decide
    have hng : ¬ (b.num_hits + 1) % 2 ^ 32 ≥ 1000 := by omega
    have he : hitEntry b = { b with num_hits := (b.num_hits + 1) % 2 ^ 32 } := by
      unfold hitEntry
      rw [if_neg hnc, if_neg hng]
    have hp : promotion b = [] := by
      unfold promotion
      rw [if_neg (fun h => hng h.2)]
    refine ⟨?_, rfl, ?_⟩
    · exact modifyBlock_congr hb he.symm
    · rw [hp]
      rfl
  · obtain ⟨_, _, _, _, _, _, _, htab, hproc, _, _, _, hb2⟩ := CompileBlock_spec hcb
    have hnc : ¬ b.is_compiled = true := by rw [hc]; decide
    have he : hitEntry b = b2 := by
      rw [hb2]
      unfold hitEntry
      rw [if_neg hnc, if_pos hge]
    have hp : promotion b = [{ b with num_hits := (b.num_hits + 1) % 2 ^ 32 }] := by
      unfold promotion
      rw [if_pos ⟨hc, hge⟩]
    refine ⟨?_, hproc, ?_⟩
    · show modifyBlock (fun _ => b2) s2.m_block_table k = _
      rw [htab]
      exact modifyBlock_congr hb he.symm
    · rw [hp]
      simp only [List.map_cons, List.map_nil, calls, call, hcb, Option.map_some']
      have : s2 = { s2 with m_block_table := s.m_block_table } := by
        rw [← htab]
      rw [this]

end RecompilationEngine

namespace RecompilationEngine

/-- The loop of lines 478-485, exactly: the registry is `hitTable` of the
registry before, the processed-trace map stays, and the rest of the engine is
what the calls of `CompileBlock` for the promoted entries make of it. -/
theorem hitBlocks_exact {llvm : Backend} {capacity : Nat} (bl : List (Nat × Nat)) :
    ∀ {s s1 : RecompilationEngine}, hitBlocks llvm capacity s bl = some s1 →
      s1.m_block_table = hitTable s.m_block_table bl ∧
      s1.m_processed_execution_traces = s.m_processed_execution_traces ∧
      calls llvm capacity s ((promotions s.m_block_table bl).map EngineCall.CompileBlock) =
        some { s1 with m_block_table := s.m_block_table } := by
  induction bl with
  | nil =>
    intro s s1 h
    simp only [hitBlocks, Option.some.injEq] at h
    subst h
    exact ⟨rfl, rfl, rfl⟩
  | cons k rest ih =>
    intro s s1 h
    simp only [hitBlocks] at h
    cases hh : hitBlock llvm capacity s k with
    | none => rw [hh] at h; simp at h
    | some s2 =>
      rw [hh] at h
      obtain ⟨b, hb, ht, hp, hcalls⟩ := hitBlock_exact hh
      obtain ⟨i1, i2, i3⟩ := ih h
      refine ⟨?_, i2.trans hp, ?_⟩
      · rw [i1, ht]
        rfl
      · have hprom : promotions s.m_block_table (k :: rest) =
            promotion b ++ promotions s2.m_block_table rest := by
          simp only [promotions, hb, ht]
        rw [hprom, List.map_append, calls_append, hcalls, Option.some_bind,
          calls_table_frame, i3]
        rfl

theorem findBlock_hitTable (key : Nat × Nat) :
    ∀ (bl : List (Nat × Nat)) (t : List BlockEntry),
      findBlock (hitTable t bl) key = (findBlock t key).map (hitEntry^[bl.count key]) := by
  intro bl
  induction bl with
  | nil =>
    intro t
    simp [hitTable]
  | cons k rest ih =>
    intro t
    have hstep : hitTable t (k :: rest) = hitTable (modifyBlock hitEntry t k) rest := rfl
    rw [hstep, ih, findBlock_modifyBlock hitEntry k
      (fun b hb => (hitEntry_key b).trans hb) key t, List.count_cons]
    by_cases hk : key = k
    · subst hk
      simp only [if_true, beq_self_eq_true, Option.map_map]
      congr 1
    · have hk2 : (k == key) = false := by
        simp only [beq_eq_false_iff_ne, ne_eq]
        exact fun e => hk e.symm
      simp only [hk, if_false, hk2, Bool.false_eq_true, Nat.add_zero]

/-- What any number of visits makes of an entry: only the hit counter
changes, or the entry was not compiled and is now compiled, with the revision
incremented, the size of the CFG recorded and at least 1000 hits. -/
theorem hitEntry_iterate (b : BlockEntry) :
    ∀ n : Nat,
      (hitEntry^[n] b) = { b with num_hits := (hitEntry^[n] b).num_hits } ∨
      (b.is_compiled = false ∧
        (hitEntry^[n] b) =
          { b with num_hits := (hitEntry^[n] b).num_hits,
                   revision := (b.revision + 1) % 2 ^ 32,
                   last_compiled_cfg_size := b.cfg.GetSize, is_compiled := true } ∧
        1000 ≤ (hitEntry^[n] b).num_hits) := by
  intro n
  induction n with
  | zero => exact Or.inl rfl
  | succ n ih =>
    rw [Function.iterate_succ_apply']
    generalize hitEntry^[n] b = b1 at ih
    rcases ih with h1 | ⟨hc, h1, hge⟩
    · by_cases hcomp : b1.is_compiled = true
      · have he : hitEntry b1 = b1 := by unfold hitEntry; rw [if_pos hcomp]
        rw [he]
        exact Or.inl h1
      · have hb : b.is_compiled = false := by
          have : b1.is_compiled = b.is_compiled := by rw [h1]
          rw [← this]
          simpa using hcomp
        by_cases hge : (b1.num_hits + 1) % 2 ^ 32 ≥ 1000
        · have he : hitEntry b1 =
              { b1 with num_hits := (b1.num_hits + 1) % 2 ^ 32,
                        revision := (b1.revision + 1) % 2 ^ 32,
                        last_compiled_cfg_size := b1.cfg.GetSize, is_compiled := true } := by
            unfold hitEntry; rw [if_neg hcomp, if_pos hge]
          refine Or.inr ⟨hb, ?_, ?_⟩
          · rw [he, h1]
          · rw [he]; exact hge
        · have he : hitEntry b1 = { b1 with num_hits := (b1.num_hits + 1) % 2 ^ 32 } := by
            unfold hitEntry; rw [if_neg hcomp, if_neg hge]
          refine Or.inl ?_
          rw [he, h1]
    · have hcomp : b1.is_compiled = true := by rw [h1]
      have he : hitEntry b1 = b1 := by unfold hitEntry; rw [if_pos hcomp]
      rw [he]
      exact Or.inr ⟨hc, h1, hge⟩

theorem promotions_mem :
    ∀ (bl : List (Nat × Nat)) (t : List BlockEntry) (c : BlockEntry),
      c ∈ promotions t bl → c.key ∈ bl ∧ c.is_compiled = false ∧ 1000 ≤ c.num_hits := by
  intro bl
  induction bl with
  | nil => intro t c h; simp [promotions] at h
  | cons k rest ih =>
    intro t c h
    simp only [promotions] at h
    cases hb : findBlock t k with
    | none => rw [hb] at h; simp at h
    | some b =>
      rw [hb] at h
      rcases List.mem_append.1 h with h1 | h1
      · unfold promotion at h1
        by_cases hp : b.is_compiled = false ∧ (b.num_hits + 1) % 2 ^ 32 ≥ 1000
        · rw [if_pos hp, List.mem_singleton] at h1
          subst h1
          refine ⟨?_, hp.1, hp.2⟩
          have : ({ b with num_hits := (b.num_hits + 1) % 2 ^ 32 } : BlockEntry).key = k :=
            (findBlock_key hb : b.key = k)
          rw [this]
          exact List.mem_cons_self _ _
        · rw [if_neg hp] at h1
          simp at h1
      · obtain ⟨i1, i2⟩ := ih _ c h1
        exact ⟨List.mem_cons_of_mem _ i1, i2⟩

theorem findProcessed_setProcessed_ne (l1 : List (Nat × Nat)) {id id2 : Nat} (hne : id2 ≠ id) :
    ∀ m : List (Nat × List (Nat × Nat)),
      findProcessed (setProcessed l1 m id) id2 = findProcessed m id2 := by
  intro m
  induction m with
  | nil => rfl
  | cons p m ih =>
    obtain ⟨id1, l⟩ := p
    by_cases h : id1 = id
    · subst h
      have h2 : ¬ id1 = id2 := fun e => hne e.symm
      simp [setProcessed, findProcessed, h2]
    · by_cases h3 : id1 = id2
      · subst h3
        simp [setProcessed, findProcessed, h]
      · simp [setProcessed, findProcessed, h, h3, ih]

end RecompilationEngine

namespace RecompilationEngine

/-- C8 (amended): trace de-duplication.  If the id of the trace is already in
the processed-trace map, with block list `bl`, then `ProcessExecutionTrace`
merges no CFG: the CFGs of the registry entries, in registry order, are the
same before and after, so no entry is created and every entry keeps its
instruction, branch and call collections; no id is added to the
processed-trace map, the list recorded under every other id stays, and no
trace is logged.  The registry after the call is the registry before with one
visit of the hit-counting loop per occurrence of a key in `bl`: an entry
outside `bl` and an entry that was already compiled are unchanged, and an
entry of `bl` changes in its hit counter only, or is promoted, which sets the
compile flag, increments the revision and records the size of the CFG at a
counter of at least 1000.  Everything else in the engine (ordinal table,
address map, counter, execution engines, log) is what the calls of
`CompileBlock` for the promoted entries make of the engine before, and is
unchanged when no entry is promoted.  The block list stored for the id is
not in the frame: line 489 replaces it by the result of `remove_if` on it. -/
theorem duplicate_trace_skips_merge (llvm : Backend) (capacity : Nat)
    (GetId : ExecutionTrace → Nat) (s s1 : RecompilationEngine) (t : ExecutionTrace)
    (bl : List (Nat × Nat))
    (hid : findProcessed s.m_processed_execution_traces (GetId t) = some bl)
    (h : ProcessExecutionTrace llvm capacity GetId s t = some s1) :
    s1.m_block_table.map (fun b => b.cfg) = s.m_block_table.map (fun b => b.cfg) ∧
    s1.m_block_table.length = s.m_block_table.length ∧
    (∀ key, key ∉ bl → findBlock s1.m_block_table key = findBlock s.m_block_table key) ∧
    (∀ key b, findBlock s.m_block_table key = some b →
      ∃ b1, findBlock s1.m_block_table key = some b1 ∧ b1.cfg = b.cfg ∧
        (b.is_compiled = true → b1 = b)) ∧
    (∀ key, findBlock s.m_block_table key = none → findBlock s1.m_block_table key = none) ∧
    s1.m_processed_execution_traces.map Prod.fst =
      s.m_processed_execution_traces.map Prod.fst ∧
    (∀ t2, LogRecord.Trace t2 ∈ s1.m_log → LogRecord.Trace t2 ∈ s.m_log) ∧
    s1.m_block_table = hitTable s.m_block_table bl ∧
    (∀ key, findBlock s1.m_block_table key =
      (findBlock s.m_block_table key).map (hitEntry^[bl.count key])) ∧
    (∀ key b b1, findBlock s.m_block_table key = some b →
      findBlock s1.m_block_table key = some b1 →
      b1 = { b with num_hits := b1.num_hits } ∨
      (b.is_compiled = false ∧
        b1 = { b with num_hits := b1.num_hits, revision := (b.revision + 1) % 2 ^ 32,
                      last_compiled_cfg_size := b.cfg.GetSize, is_compiled := true } ∧
        1000 ≤ b1.num_hits)) ∧
    (∀ id, id ≠ GetId t →
      findProcessed s1.m_processed_execution_traces id =
        findProcessed s.m_processed_execution_traces id) ∧
    calls llvm capacity s ((promotions s.m_block_table bl).map EngineCall.CompileBlock) =
      some { s1 with m_block_table := s.m_block_table,
                     m_processed_execution_traces := s.m_processed_execution_traces } ∧
    (∀ c ∈ promotions s.m_block_table bl,
      c.key ∈ bl ∧ c.is_compiled = false ∧ 1000 ≤ c.num_hits) ∧
    (promotions s.m_block_table bl = [] →
      s1.m_next_ordinal = s.m_next_ordinal ∧
      s1.m_address_to_ordinal = s.m_address_to_ordinal ∧
      s1.m_executable_lookup = s.m_executable_lookup ∧
      s1.m_executable_engine = s.m_executable_engine ∧
      s1.m_log = s.m_log ∧ s1.created = s.created ∧ s1.deleted = s.deleted) ∧
    s1.m_processed_execution_traces =
      setProcessed
        (remove_if bl fun key =>
          match findBlock s1.m_block_table key with
          | some b => b.is_compiled
          | none => false)
        s.m_processed_execution_traces (GetId t) := by
  have hm : mergeTrace GetId s t = (s, bl) := by
    unfold mergeTrace
    simp only [hid]
  unfold ProcessExecutionTrace at h
  simp only [hm] at h
  cases hh : hitBlocks llvm capacity s bl with
  | none => rw [hh] at h; cases h
  | some s2 =>
    rw [hh] at h
    simp only [Option.some.injEq] at h
    subst h
    obtain ⟨a1, a2, a3, a4, a5, a6⟩ := hitBlocks_frame bl hh
    obtain ⟨x1, x2, x3⟩ := hitBlocks_exact bl hh
    have x9 : ∀ key, findBlock s2.m_block_table key =
        (findBlock s.m_block_table key).map (hitEntry^[bl.count key]) := by
      intro key
      rw [x1]
      exact findBlock_hitTable key bl _
    have x12 : calls llvm capacity s
        ((promotions s.m_block_table bl).map EngineCall.CompileBlock) =
        some { s2 with m_block_table := s.m_block_table,
                       m_processed_execution_traces := s.m_processed_execution_traces } := by
      rw [x3, ← x2]
    refine ⟨a1, ?_, a3, a4, a5, ?_, a6, x1, x9, ?_, ?_, x12, ?_, ?_, ?_⟩
    · have := congrArg List.length a1
      simpa using this
    · simp only []
      rw [map_fst_setProcessed, a2]
    · intro key b b1 hb hb1
      have h9 := x9 key
      simp only [] at hb1
      rw [hb, hb1] at h9
      simp only [Option.map_some', Option.some.injEq] at h9
      rw [h9]
      exact hitEntry_iterate b _
    · intro id hne
      simp only []
      rw [findProcessed_setProcessed_ne _ hne, x2]
    · exact fun c hc => promotions_mem bl _ c hc
    · intro hnone
      rw [hnone] at x12
      have hs := Option.some.inj x12
      refine ⟨?_, ?_, ?_, ?_, ?_, ?_, ?_⟩
      · exact (congrArg RecompilationEngine.m_next_ordinal hs).symm
      · exact (congrArg RecompilationEngine.m_address_to_ordinal hs).symm
      · exact (congrArg RecompilationEngine.m_executable_lookup hs).symm
      · exact (congrArg RecompilationEngine.m_executable_engine hs).symm
      · exact (congrArg RecompilationEngine.m_log hs).symm
      · exact (congrArg RecompilationEngine.created hs).symm
      · exact (congrArg RecompilationEngine.deleted hs).symm
    · simp only []
      rw [x2]

/-- C8 (amended) at a concrete input: the trace `exampleEntryTrace` is
processed on a fresh engine and then processed again; the second call finds
its id, leaves the CFGs and the size of the registry as they were, and visits
the entry `(0x100, 0x100)` once. -/
theorem duplicate_trace_skips_merge_witness :
    ∃ s s1, ProcessExecutionTrace ⟨fun _ _ => false⟩ 4 exampleGetId fresh exampleEntryTrace =
        some s ∧
      findProcessed s.m_processed_execution_traces (exampleGetId exampleEntryTrace) =
        some [(0x100, 0x100)] ∧
      ProcessExecutionTrace ⟨fun _ _ => false⟩ 4 exampleGetId s exampleEntryTrace = some s1 ∧
      s1.m_block_table.map (fun b => b.cfg) = s.m_block_table.map (fun b => b.cfg) ∧
      s1.m_block_table.length = s.m_block_table.length ∧
      s1.m_block_table = hitTable s.m_block_table [(0x100, 0x100)] := by
  have r1 : (ProcessExecutionTrace ⟨fun _ _ => false⟩ 4 exampleGetId fresh
      exampleEntryTrace).isSome = true := by decide!
  obtain ⟨s, hs⟩ := Option.isSome_iff_exists.1 r1
  have r2 : ((ProcessExecutionTrace ⟨fun _ _ => false⟩ 4 exampleGetId fresh
      exampleEntryTrace).map fun s =>
        findProcessed s.m_processed_execution_traces (exampleGetId exampleEntryTrace)) =
      some (some [(0x100, 0x100)]) := by decide!
  have r3 : ((ProcessExecutionTrace ⟨fun _ _ => false⟩ 4 exampleGetId fresh
      exampleEntryTrace).bind fun s =>
        ProcessExecutionTrace ⟨fun _ _ => false⟩ 4 exampleGetId s exampleEntryTrace).isSome =
      true := by decide!
  rw [hs] at r2 r3
  simp only [Option.map_some', Option.some.injEq] at r2
  simp only [Option.some_bind] at r3
  obtain ⟨s1, hs1⟩ := Option.isSome_iff_exists.1 r3
  have h := duplicate_trace_skips_merge ⟨fun _ _ => false⟩ 4 exampleGetId s s1
    exampleEntryTrace [(0x100, 0x100)] r2 hs1
  exact ⟨s, s1, hs, r2, hs1, h.1, h.2.1, h.2.2.2.2.2.2.2.1⟩

end RecompilationEngine

end ppu_recompiler_llvm
